import Mathlib

/-!
# Tallo: the bounded key-space search engine

A shallow embedding of

* `src/AddressGenerator/main.cpp` (`prefix_worker`, `address_worker`,
  `check_address_prefix`): the strided walk over one lane, the nested lane loops and the
  acceptance test, and
* `src/Miner/Miner.cpp` (`Miner::mine`, `Miner::stop`, `Miner::runWorkers`,
  `Miner::workerFunc`, `Miner::setStateBlockFound`): the tri-state mining token, its
  compare-and-swap transitions and the worker pool, as an interleaving of atomic steps.

Machine integers are natural numbers reduced modulo `2 ^ w`; the lane width `w` is `64`
in the source and is kept as a parameter so that the walks can also be run on short lanes.
-/

namespace AddressGenerator

/-! ## Lane arithmetic -/

/-- The constant `UINT64_MAX` of a lane of `w` bits. -/
def UINT_MAX (w : Nat) : Nat := 2 ^ w - 1

/-- Conversion of an `int` argument (`threads`, `threadId`) to the unsigned lane type. -/
def toLane (w x : Nat) : Nat := x % 2 ^ w

/-- Unsigned addition on a lane: `a + b` wraps modulo `2 ^ w`. -/
def addW (w a b : Nat) : Nat := (a + b) % 2 ^ w

/-- Unsigned subtraction on a lane: `a - b` wraps modulo `2 ^ w`. -/
def subW (w a b : Nat) : Nat := (a % 2 ^ w + 2 ^ w - b % 2 ^ w) % 2 ^ w

/-- The value `last` computed at the top of `prefix_worker` (main.cpp:97-103) and of
`address_worker` (main.cpp:194-200):
`if (threads == 1) last = UINT64_MAX; else { last_start = UINT64_MAX - threads + 1;
last = last_start + (((last_start % threads) + threadId) % threads); }`. -/
def last (w threads threadId : Nat) : Nat :=
  if threads = 1 then UINT_MAX w
  else
    let last_start := addW w (subW w (UINT_MAX w) (toLane w threads)) 1
    addW w last_start
      (addW w (last_start % toLane w threads) (toLane w threadId) % toLane w threads)

/-- The counter values of the strided loop
`for (uint64_t d = threadId; d < last; d += threads)` (main.cpp:110, main.cpp:201), in the
order in which the body sees them, starting from the current value `d`.  The addition wraps.
The result is `none` when `fuel` iterations do not reach the exit of the loop. -/
def strideLoop (w threads lastV : Nat) : Nat → Nat → Option (List Nat)
  | 0, _ => none
  | fuel + 1, d =>
    if d < lastV then
      (strideLoop w threads lastV fuel (addW w d (toLane w threads))).map (fun l => d :: l)
    else some []

/-- The offsets one worker produces on its strided lane: the values of the loop counter,
followed by the single boundary offset `last` (the step commented `Avoid wraparound`,
main.cpp:116-117 and main.cpp:263-264). -/
def walkerOffsets (w threads threadId fuel : Nat) : Option (List Nat) :=
  (strideLoop w threads (last w threads threadId) fuel (toLane w threadId)).map
    (fun l => l ++ [last w threads threadId])

/-! ## Keys, external primitives and the acceptance tests -/

/-- The four 64-bit words of one secret key (`uint64_t spendQuads[4]`, the union member of
`struct keys`, main.cpp:64-73); `q0` is word 0. -/
structure Quads where
  q0 : Nat
  q1 : Nat
  q2 : Nat
  q3 : Nat
deriving DecidableEq, Repr

/-- The record `struct keys` (main.cpp:64-73): a spend key and a view key. -/
structure keys where
  spendQuads : Quads
  viewQuads : Quads
deriving DecidableEq, Repr

/-- The collaborators of the search that live outside `main.cpp`: the byte-order macro
`SWAP64LE` of `Common/int-util.h`, `secret_key_to_public_key` (which may fail),
`AccountBase::generateViewFromSpend` (view secret key and view public key from the spend
key) and `Currency::accountAddressAsString`.  Public keys are natural numbers here and an
address is its list of characters. -/
structure Primitives where
  SWAP64LE : Nat → Nat
  secret_key_to_public_key : Quads → Option Nat
  generateViewFromSpend : Quads → Quads × Nat
  accountAddressAsString : Nat → Nat → List Char

/-- What a prefix search shares between its workers and the outside: the counter `found`
(`volatile int&`), the blocks printed under `outputMutex` (address, spend key, view key)
and, as a ghost field, the spend keys handed to `check_address_prefix`, in call order.
The counter is an integer here: it is the `int` of the source as long as it stays within
the range of an `int`, that is as long as `found++` is not run at `INT_MAX`, where the
source overflows; statements about the increment carry that bound. -/
structure PrefixSearch where
  found : Int
  printed : List (List Char × Quads × Quads)
  calls : List Quads
deriving DecidableEq, Repr

/-- A statement of a worker body: it maps the state to a new state and reports whether the
enclosing function executed `return`. -/
abbrev Stmt (σ : Type) := σ → Bool × σ

/-- Sequencing `c1; c2` where a `return` inside `c1` skips `c2`. -/
def Stmt.seq {σ : Type} (c1 c2 : Stmt σ) : Stmt σ := fun s =>
  match c1 s with
  | (true, s1) => (true, s1)
  | (false, s1) => c2 s1

/-- The loop `for (x : xs) body(x)`: the body is run for the counter values in order and a
`return` inside the body leaves the loop and the function. -/
def forLoop {σ : Type} (body : Nat → Stmt σ) : List Nat → Stmt σ
  | [] => fun s => (false, s)
  | x :: xs => Stmt.seq (body x) (forLoop body xs)

/-- The counter values of `for (uint64_t x = 0; x < UINT64_MAX; x++)`. -/
def countUp (w : Nat) : List Nat := List.range (UINT_MAX w)

/-- The function `check_address_prefix` (main.cpp:75-93).  It returns `true` when
`found == count` on entry; otherwise it derives the address of the spend key, overwrites the
view key, and on a prefix match prints one block and increments `found`.  The increment is
that of the source for `found < INT_MAX`. -/
def check_address_prefix (P : Primitives) (pfx : List Char) (count : Int) :
    Stmt (keys × PrefixSearch) := fun ks =>
  match ks with
  | (k, s0) =>
    let s : PrefixSearch := { s0 with calls := s0.calls ++ [k.spendQuads] }
    if s.found = count then (true, (k, s))
    else
      match P.secret_key_to_public_key k.spendQuads with
      | some spendPublicKey =>
        let view := P.generateViewFromSpend k.spendQuads
        let k1 : keys := { k with viewQuads := view.1 }
        let address := P.accountAddressAsString spendPublicKey view.2
        if address.take pfx.length = pfx then
          (false, (k1,
            { s with found := s.found + 1,
                     printed := s.printed ++ [(address, k1.spendQuads, k1.viewQuads)] }))
        else (false, (k1, s))
      | none => (false, (k, s))

/-- The assignment `_keys.spendQuads[0] = v`. -/
def setSpend0 {τ : Type} (v : Nat) : Stmt (keys × τ) := fun ks =>
  match ks with
  | (k, s) => (false, ({ k with spendQuads := { k.spendQuads with q0 := v } }, s))

/-- The assignment `_keys.spendQuads[1] = v`. -/
def setSpend1 {τ : Type} (v : Nat) : Stmt (keys × τ) := fun ks =>
  match ks with
  | (k, s) => (false, ({ k with spendQuads := { k.spendQuads with q1 := v } }, s))

/-- The assignment `_keys.spendQuads[2] = v`. -/
def setSpend2 {τ : Type} (v : Nat) : Stmt (keys × τ) := fun ks =>
  match ks with
  | (k, s) => (false, ({ k with spendQuads := { k.spendQuads with q2 := v } }, s))

/-- The assignment `_keys.spendQuads[3] = v`. -/
def setSpend3 {τ : Type} (v : Nat) : Stmt (keys × τ) := fun ks =>
  match ks with
  | (k, s) => (false, ({ k with spendQuads := { k.spendQuads with q3 := v } }, s))

/-- The assignment `_keys.viewQuads[0] = v`. -/
def setView0 {τ : Type} (v : Nat) : Stmt (keys × τ) := fun ks =>
  match ks with
  | (k, s) => (false, ({ k with viewQuads := { k.viewQuads with q0 := v } }, s))

/-- The assignment `_keys.viewQuads[1] = v`. -/
def setView1 {τ : Type} (v : Nat) : Stmt (keys × τ) := fun ks =>
  match ks with
  | (k, s) => (false, ({ k with viewQuads := { k.viewQuads with q1 := v } }, s))

/-- The assignment `_keys.viewQuads[2] = v`. -/
def setView2 {τ : Type} (v : Nat) : Stmt (keys × τ) := fun ks =>
  match ks with
  | (k, s) => (false, ({ k with viewQuads := { k.viewQuads with q2 := v } }, s))

/-- The assignment `_keys.viewQuads[3] = v`. -/
def setView3 {τ : Type} (v : Nat) : Stmt (keys × τ) := fun ks =>
  match ks with
  | (k, s) => (false, ({ k with viewQuads := { k.viewQuads with q3 := v } }, s))

/-- The stored lane `SWAP64LE(x + SWAP64LE(s))` for the offset `x` and the start lane `s`. -/
def laneAt (P : Primitives) (w x s : Nat) : Nat :=
  P.SWAP64LE (addW w x (P.SWAP64LE s))

/-- The stored lane `SWAP64LE(SWAP64LE(s) - 1)` of the steps commented `Avoid wraparound`. -/
def laneBefore (P : Primitives) (w s : Nat) : Nat :=
  P.SWAP64LE (subW w (P.SWAP64LE s) 1)

/-- A call whose result is discarded: `(void)check(...); return;`. -/
def Stmt.void {σ : Type} (c : Stmt σ) : Stmt σ := fun s =>
  match c s with
  | (_, s1) => (false, s1)

/-- The loop nest of `prefix_worker` (main.cpp:104-137) for the counter values `ds` of its
innermost, strided loop. -/
def prefix_worker_body (P : Primitives) (w : Nat) (pfx : List Char) (count : Int)
    (startKeys : keys) (lastV : Nat) (ds : List Nat) : Stmt (keys × PrefixSearch) :=
  let check : Stmt (keys × PrefixSearch) := check_address_prefix P pfx count
  Stmt.seq
    (forLoop (fun a =>
      Stmt.seq (setSpend3 (laneAt P w a startKeys.spendQuads.q3)) (Stmt.seq
        (forLoop (fun b =>
          Stmt.seq (setSpend2 (laneAt P w b startKeys.spendQuads.q2)) (Stmt.seq
            (forLoop (fun c =>
              Stmt.seq (setSpend1 (laneAt P w c startKeys.spendQuads.q1)) (Stmt.seq
                (forLoop (fun d =>
                  Stmt.seq (setSpend0 (laneAt P w d startKeys.spendQuads.q0)) check) ds)
                (Stmt.seq (setSpend0 (laneAt P w lastV startKeys.spendQuads.q0)) check)))
              (countUp w))
            (Stmt.seq (setSpend1 (laneBefore P w startKeys.spendQuads.q1)) check)))
          (countUp w))
        (Stmt.seq (setSpend2 (laneBefore P w startKeys.spendQuads.q2)) check)))
      (countUp w))
    (Stmt.seq (setSpend3 (laneBefore P w startKeys.spendQuads.q3)) (Stmt.void check))

/-- The function `prefix_worker` (main.cpp:95-138).  `init` is the indeterminate content of
the local `_keys`; the result is the search state when the worker returns, and `none` when
`fuel` does not suffice for the strided loop. -/
def prefix_worker (P : Primitives) (w : Nat) (pfx : List Char) (threads threadId : Nat)
    (count : Int) (startKeys : keys) (fuel : Nat) (init : keys) (s : PrefixSearch) :
    Option PrefixSearch :=
  let lastV := last w threads threadId
  (strideLoop w threads lastV fuel (toLane w threadId)).map (fun ds =>
    (prefix_worker_body P w pfx count startKeys lastV ds (init, s)).2.2)

/-- What an exact-address search shares: the flag `found` (`bool&`, handed through and never
assigned by `check_address` or `address_worker`), the printed key pairs and, as a ghost
field, the key pairs handed to `check_address`, in call order. -/
structure AddressSearch where
  found : Bool
  printed : List (Quads × Quads)
  calls : List keys
deriving DecidableEq, Repr

/-- The function `check_address` (main.cpp:178-190). -/
def check_address (P : Primitives) (address : List Char) : Stmt (keys × AddressSearch) :=
  fun ks =>
  match ks with
  | (k, s0) =>
    let s : AddressSearch := { s0 with calls := s0.calls ++ [k] }
    match P.secret_key_to_public_key k.viewQuads with
    | some viewPublicKey =>
      match P.secret_key_to_public_key k.spendQuads with
      | some spendPublicKey =>
        if address = P.accountAddressAsString spendPublicKey viewPublicKey then
          (true, (k, { s with printed := s.printed ++ [(k.spendQuads, k.viewQuads)] }))
        else (false, (k, s))
      | none => (false, (k, s))
    | none => (false, (k, s))

/-- One level `for (x = 0; x < UINT64_MAX; x++) { lane = ...; inner } lane = start - 1;
check` of the loop nest of `address_worker`: `set` stores the lane, `s` is its start value
and `inner` the next level. -/
def addressLevel (P : Primitives) (w : Nat) (address : List Char)
    (set : Nat → Stmt (keys × AddressSearch)) (s : Nat)
    (inner : Stmt (keys × AddressSearch)) : Stmt (keys × AddressSearch) :=
  Stmt.seq
    (forLoop (fun x => Stmt.seq (set (laneAt P w x s)) inner) (countUp w))
    (Stmt.seq (set (laneBefore P w s)) (check_address P address))

/-- The loop nest of `address_worker` (main.cpp:201-266) for the counter values `as` of its
outermost, strided loop. -/
def address_worker_body (P : Primitives) (w : Nat) (address : List Char)
    (startKeys : keys) (lastV : Nat) (as : List Nat) : Stmt (keys × AddressSearch) :=
  let level := addressLevel P w address
  Stmt.seq
    (forLoop (fun a =>
      Stmt.seq (setView3 (laneAt P w a startKeys.viewQuads.q3))
        (level setView2 startKeys.viewQuads.q2
          (level setView1 startKeys.viewQuads.q1
            (level setView0 startKeys.viewQuads.q0
              (level setSpend3 startKeys.spendQuads.q3
                (level setSpend2 startKeys.spendQuads.q2
                  (level setSpend1 startKeys.spendQuads.q1
                    (Stmt.seq
                      (forLoop (fun h =>
                        Stmt.seq (setSpend0 (laneAt P w h startKeys.spendQuads.q0))
                          (check_address P address)) (countUp w))
                      (Stmt.seq (setSpend0 (laneBefore P w startKeys.spendQuads.q0))
                        (check_address P address)))))))))) as)
    (Stmt.seq (setView3 (laneAt P w lastV startKeys.viewQuads.q3))
      (Stmt.void (check_address P address)))

/-- The function `address_worker` (main.cpp:192-267). -/
def address_worker (P : Primitives) (w : Nat) (address : List Char) (threads threadId : Nat)
    (startKeys : keys) (fuel : Nat) (init : keys) (s : AddressSearch) :
    Option AddressSearch :=
  let lastV := last w threads threadId
  (strideLoop w threads lastV fuel (toLane w threadId)).map (fun as =>
    (address_worker_body P w address startKeys lastV as (init, s)).2.2)

/-! ## Specifications of worker bodies -/

/-- A statement run from a state satisfying `pre` ends in a state satisfying `post` when it
falls through and in one satisfying `ret` when it executes `return`. -/
def Triple {σ : Type} (pre : σ → Prop) (c : Stmt σ) (post ret : σ → Prop) : Prop :=
  ∀ s, pre s → ((c s).1 = false → post (c s).2) ∧ ((c s).1 = true → ret (c s).2)

/-- A recorded spend key whose lane 1 holds `b1` has `b0` in lane 0. -/
def BoundaryOnly (b1 b0 : Nat) (q : Quads) : Prop := q.q1 = b1 → q.q0 = b0

/-- Every spend key handed to the acceptance test so far satisfies `R`. -/
def CallsSatisfy (R : Quads → Prop) (ks : keys × PrefixSearch) : Prop :=
  ∀ q, q ∈ ks.2.calls → R q

/-- The primitives on a little-endian host, where `SWAP64LE` is the identity, for arbitrary
key derivation and address encoding. -/
def littleEndian (derive : Quads → Option Nat) (view : Quads → Quads × Nat)
    (encode : Nat → Nat → List Char) : Primitives :=
  { SWAP64LE := fun x => x
    secret_key_to_public_key := derive
    generateViewFromSpend := view
    accountAddressAsString := encode }

/-- The all-zero start key pair. -/
def zeroKeys : keys := { spendQuads := ⟨0, 0, 0, 0⟩, viewQuads := ⟨0, 0, 0, 0⟩ }

/-! ## The entry points `find_prefix` and `find_address` -/

/-- The thread count of both entry points: `std::max(1, get_arg(vm, arg_threads))`
(main.cpp:143, main.cpp:271). -/
def clampThreads (arg_threads : Int) : Nat := (max 1 arg_threads).toNat

/-- The spend start key both entry points read from the array `start`
(main.cpp:158-161, main.cpp:286-289). -/
def spendStart (start : Nat → Nat) : Quads :=
  { q0 := start 7, q1 := start 6, q2 := start 5, q3 := start 4 }

/-- The view start key `find_address` reads from the array `start` (main.cpp:290-293). -/
def viewStart (start : Nat → Nat) : Quads :=
  { q0 := start 3, q1 := start 2, q2 := start 1, q3 := start 0 }

/-- How an entry point ends: it returned `false` before creating a worker, or it created
`threads` workers and joined them in `m_workers.clear()`; `final` is then the shared search
state, `none` when some worker has not returned within its fuel. -/
inductive FindOutcome (σ : Type) where
  | rejected
  | searched (threads : Nat) (final : Option σ)

/-- The number of workers an entry point created. -/
def FindOutcome.created {σ : Type} : FindOutcome σ → Nat
  | FindOutcome.rejected => 0
  | FindOutcome.searched threads _ => threads

/-- The workers of `find_prefix` with the thread ids `ids`, run to their return one after
the other on the shared search state. -/
def runPrefixWorkers (P : Primitives) (w : Nat) (pfx : List Char) (threads : Nat)
    (count : Int) (startKeys : keys) (fuel : Nat) (init : keys) :
    List Nat → PrefixSearch → Option PrefixSearch
  | [], s => some s
  | i :: ids, s =>
    match prefix_worker P w pfx threads i count startKeys fuel init s with
    | none => none
    | some s1 => runPrefixWorkers P w pfx threads count startKeys fuel init ids s1

/-- The function `find_prefix` (main.cpp:140-176).  `decode` is `Tools::Base58::decode`,
`arg_threads` and `count` are the command-line values, `init` the indeterminate content of
uninitialised key words. -/
def find_prefix (P : Primitives) (decode : List Char → Bool) (w : Nat) (pfx : List Char)
    (count arg_threads : Int) (start : Nat → Nat) (fuel : Nat) (init : keys) :
    FindOutcome PrefixSearch :=
  let threads := clampThreads arg_threads
  if pfx.take 2 ≠ ['T', 'A'] ∨ 97 < pfx.length then FindOutcome.rejected
  else if decode pfx = false then FindOutcome.rejected
  else
    let startKeys : keys := { spendQuads := spendStart start, viewQuads := init.viewQuads }
    FindOutcome.searched threads
      (runPrefixWorkers P w pfx threads count startKeys fuel init (List.range threads)
        { found := 0, printed := [], calls := [] })

/-- The value `find_prefix` returns: `false` on rejection, else `found != 0`. -/
def find_prefix_value : FindOutcome PrefixSearch → Option Bool
  | FindOutcome.rejected => some false
  | FindOutcome.searched _ final => final.map (fun s => s.found != 0)

/-- The workers of `find_address` with the thread ids `ids`, run to their return one after
the other; they share the output and the flag `found` only. -/
def runAddressWorkers (P : Primitives) (w : Nat) (address : List Char) (threads : Nat)
    (startKeys : keys) (fuel : Nat) (init : keys) :
    List Nat → AddressSearch → Option AddressSearch
  | [], s => some s
  | i :: ids, s =>
    match address_worker P w address threads i startKeys fuel init s with
    | none => none
    | some s1 => runAddressWorkers P w address threads startKeys fuel init ids s1

/-- The function `find_address` (main.cpp:269-311).  `parseAccountAddressString` is the
method of `Currency`; `found` is the indeterminate content of the local `bool found;`, which
the function declares without an initialiser. -/
def find_address (P : Primitives) (parseAccountAddressString : List Char → Option (Nat × Nat))
    (w : Nat) (address : List Char) (arg_threads : Int) (found : Bool) (start : Nat → Nat)
    (fuel : Nat) (init : keys) : FindOutcome AddressSearch :=
  let threads := clampThreads arg_threads
  if address.take 2 ≠ ['T', 'A'] ∨ address.length ≠ 97 then FindOutcome.rejected
  else if (parseAccountAddressString address).isNone then FindOutcome.rejected
  else
    let startKeys : keys := { spendQuads := spendStart start, viewQuads := viewStart start }
    FindOutcome.searched threads
      (runAddressWorkers P w address threads startKeys fuel init (List.range threads)
        { found := found, printed := [], calls := [] })

/-- The value `find_address` returns: `false` on rejection, else the flag `found`. -/
def find_address_value : FindOutcome AddressSearch → Option Bool
  | FindOutcome.rejected => some false
  | FindOutcome.searched _ final => final.map (fun s => s.found)

/-! ## Concurrent workers of the prefix search -/

/-- A worker of the prefix search between two accesses to the shared counter: the
candidates it still has to hand to `check_address_prefix`, and whether the first of them
has passed the test `found == count` (main.cpp:76) and awaits lines 79-91. -/
structure Walker where
  todo : List Quads
  passed : Bool
deriving DecidableEq, Repr

/-- What the concurrent workers of a prefix search share, and the workers themselves.  The
counter is an integer, as in `PrefixSearch`: it is the `int` of the source as long as
`found++` is not run at `INT_MAX`. -/
structure SharedSearch where
  found : Int
  printed : List (List Char × Quads × Quads)
  workers : List Walker
deriving DecidableEq, Repr

/-- One step of worker `i` inside `check_address_prefix`: either the test
`found == count` of line 76, after which the worker returns or goes on, or lines 79-91 for
a candidate that has passed the test: the derivation and, on a match, the printing and
`found++` under `outputMutex`. -/
def searchStep (P : Primitives) (pfx : List Char) (count : Int) (s : SharedSearch)
    (i : Nat) : SharedSearch :=
  match s.workers.get? i with
  | none => s
  | some wk =>
    match wk.todo with
    | [] => s
    | k :: rest =>
      if wk.passed = false then
        if s.found = count then
          { s with workers := s.workers.set i { todo := [], passed := false } }
        else { s with workers := s.workers.set i { todo := k :: rest, passed := true } }
      else
        let workers1 := s.workers.set i { todo := rest, passed := false }
        match P.secret_key_to_public_key k with
        | some spendPublicKey =>
          let view := P.generateViewFromSpend k
          let address := P.accountAddressAsString spendPublicKey view.2
          if address.take pfx.length = pfx then
            { found := s.found + 1, printed := s.printed ++ [(address, k, view.1)],
              workers := workers1 }
          else { s with workers := workers1 }
        | none => { s with workers := workers1 }

/-- The concurrent search under a schedule of worker indices. -/
def searchRun (P : Primitives) (pfx : List Char) (count : Int) (s : SharedSearch)
    (schedule : List Nat) : SharedSearch :=
  schedule.foldl (searchStep P pfx count) s

/-- Primitives for examples, on a little-endian host: every spend key has a public key and
every address is `TAx`. -/
def everyKeyMatches : Primitives :=
  littleEndian (fun q => some q.q0) (fun q => (q, 0)) (fun _ _ => ['T', 'A', 'x'])

/-- Whether `check_address` accepts the key pair: both public keys exist and their address
is the target address (main.cpp:180-182). -/
def accepts (P : Primitives) (address : List Char) (k : keys) : Bool :=
  match P.secret_key_to_public_key k.viewQuads with
  | some viewPublicKey =>
    match P.secret_key_to_public_key k.spendQuads with
    | some spendPublicKey =>
      decide (address = P.accountAddressAsString spendPublicKey viewPublicKey)
    | none => false
  | none => false

/-- Whether `check_address_prefix`, once past its test of `found`, counts the spend key as a
discovery: its public key exists and its address begins with the prefix (main.cpp:80-84). -/
def discovers (P : Primitives) (pfx : List Char) (q : Quads) : Bool :=
  match P.secret_key_to_public_key q with
  | some spendPublicKey =>
    decide ((P.accountAddressAsString spendPublicKey (P.generateViewFromSpend q).2).take
      pfx.length = pfx)
  | none => false

/-- The first candidate of worker 0: every lane at offset 0 from the start key. -/
def firstSpend (P : Primitives) (w : Nat) (startKeys : keys) : Quads :=
  { q0 := laneAt P w 0 startKeys.spendQuads.q0, q1 := laneAt P w 0 startKeys.spendQuads.q1,
    q2 := laneAt P w 0 startKeys.spendQuads.q2, q3 := laneAt P w 0 startKeys.spendQuads.q3 }

/-- A single-worker prefix search with `count = n` that has not returned: `found` counts the
printed discoveries and is at most `n`, and once it is `n` the last call of
`check_address_prefix` is the one that made the `n`-th discovery. -/
def Counted (n : Int) (s : PrefixSearch) : Prop :=
  0 ≤ s.found ∧ s.found ≤ n ∧ (s.printed.length : Int) = s.found ∧
  (s.found = n → ∃ pre d, s.printed.getLast? = some d ∧ s.calls = pre ++ [d.2.1])

/-- A single-worker prefix search with `count = n` at any time: `found` counts the printed
discoveries and is at most `n`, and once it is `n` at most one call of
`check_address_prefix` has followed the call that made the `n`-th discovery. -/
def CountedDone (n : Int) (s : PrefixSearch) : Prop :=
  0 ≤ s.found ∧ s.found ≤ n ∧ (s.printed.length : Int) = s.found ∧
  (s.found = n → ∃ pre d, s.printed.getLast? = some d ∧
    (s.calls = pre ++ [d.2.1] ∨ ∃ k, s.calls = pre ++ [d.2.1, k]))

/-- The eight lanes of a key pair in the order in which `address_worker` stores them:
`viewQuads[3]` down to `viewQuads[0]`, then `spendQuads[3]` down to `spendQuads[0]`. -/
def laneOf (k : keys) : Nat → Nat
  | 0 => k.viewQuads.q3
  | 1 => k.viewQuads.q2
  | 2 => k.viewQuads.q1
  | 3 => k.viewQuads.q0
  | 4 => k.spendQuads.q3
  | 5 => k.spendQuads.q2
  | 6 => k.spendQuads.q1
  | _ => k.spendQuads.q0

/-- The first `n` lanes of `k`, in the order of `laneOf`, are those of `F`. -/
def Agree (F k : keys) : Nat → Prop
  | 0 => True
  | n + 1 => Agree F k n ∧ laneOf k n = laneOf F n

/-- The first candidate of worker 0 of the exact search: every lane at offset 0 from the
start key pair. -/
def firstKeys (P : Primitives) (w : Nat) (startKeys : keys) : keys :=
  { spendQuads := firstSpend P w startKeys
    viewQuads :=
      { q0 := laneAt P w 0 startKeys.viewQuads.q0, q1 := laneAt P w 0 startKeys.viewQuads.q1,
        q2 := laneAt P w 0 startKeys.viewQuads.q2, q3 := laneAt P w 0 startKeys.viewQuads.q3 } }

/-- The exact search has handed `F` to `check_address` first; if `F` is accepted, nothing
else has happened since. -/
def StartedWith (P : Primitives) (address : List Char) (s0 : AddressSearch) (F : keys)
    (r : AddressSearch) : Prop :=
  (∃ rest, r.calls = s0.calls ++ F :: rest) ∧
  (accepts P address F = true →
    r.calls = s0.calls ++ [F] ∧ r.printed = s0.printed ++ [(F.spendQuads, F.viewQuads)])

/-- A target address for examples: `TA` followed by 95 characters. -/
def sampleAddress : List Char := 'T' :: 'A' :: List.replicate 95 'x'

/-- Primitives for examples, on a little-endian host: every key has a public key and every
key pair has the address `sampleAddress`. -/
def everyPairAccepted : Primitives :=
  littleEndian (fun q => some q.q0) (fun q => (q, 0)) (fun _ _ => sampleAddress)

/-! ## The byte order, and the candidates of `prefix_worker` in closed form -/

/-- The `n` low bytes of `x`, least significant first. -/
def toBytes : Nat → Nat → List Nat
  | 0, _ => []
  | n + 1, x => x % 256 :: toBytes n (x / 256)

/-- The number whose bytes, least significant first, are `bs`. -/
def ofBytes : List Nat → Nat
  | [] => 0
  | b :: bs => b + 256 * ofBytes bs

/-- The byte swap of a 64-bit word: what `SWAP64LE` of `Common/int-util.h` does on a
big-endian host (on a little-endian host it is the identity). -/
def swap64 (x : Nat) : Nat := ofBytes (toBytes 8 x).reverse

/-- The primitives on a big-endian host, where `SWAP64LE` swaps the bytes, for arbitrary key
derivation and address encoding. -/
def bigEndian (derive : Quads → Option Nat) (view : Quads → Quads × Nat)
    (encode : Nat → Nat → List Char) : Primitives :=
  { SWAP64LE := swap64
    secret_key_to_public_key := derive
    generateViewFromSpend := view
    accountAddressAsString := encode }

/-- The loop over lane 0 of `prefix_worker` with its boundary step (main.cpp:110-120). -/
def prefixLane0 (P : Primitives) (w : Nat) (pfx : List Char) (count : Int)
    (startKeys : keys) (lastV : Nat) (ds : List Nat) : Stmt (keys × PrefixSearch) :=
  Stmt.seq
    (forLoop (fun d =>
      Stmt.seq (setSpend0 (laneAt P w d startKeys.spendQuads.q0))
        ( check_address_prefix P pfx count)) ds)
    (Stmt.seq (setSpend0 (laneAt P w lastV startKeys.spendQuads.q0))
      ( check_address_prefix P pfx count))

/-- The loop over lane 1 of `prefix_worker` with its boundary step (main.cpp:108-126). -/
def prefixLane1 (P : Primitives) (w : Nat) (pfx : List Char) (count : Int)
    (startKeys : keys) (lastV : Nat) (ds : List Nat) : Stmt (keys × PrefixSearch) :=
  Stmt.seq
    (forLoop (fun c =>
      Stmt.seq (setSpend1 (laneAt P w c startKeys.spendQuads.q1))
        (prefixLane0 P w pfx count startKeys lastV ds)) (countUp w))
    (Stmt.seq (setSpend1 (laneBefore P w startKeys.spendQuads.q1))
      ( check_address_prefix P pfx count))

/-- The loop over lane 2 of `prefix_worker` with its boundary step (main.cpp:106-132). -/
def prefixLane2 (P : Primitives) (w : Nat) (pfx : List Char) (count : Int)
    (startKeys : keys) (lastV : Nat) (ds : List Nat) : Stmt (keys × PrefixSearch) :=
  Stmt.seq
    (forLoop (fun b =>
      Stmt.seq (setSpend2 (laneAt P w b startKeys.spendQuads.q2))
        (prefixLane1 P w pfx count startKeys lastV ds)) (countUp w))
    (Stmt.seq (setSpend2 (laneBefore P w startKeys.spendQuads.q2))
      ( check_address_prefix P pfx count))

/-- The spend key whose lanes are at the offsets `(a, b, c, d)` from the start key: `a` for
`spendQuads[3]` down to `d` for `spendQuads[0]`. -/
def keyAt (P : Primitives) (w : Nat) (startKeys : keys) (o : Nat × Nat × Nat × Nat) : Quads :=
  { q0 := laneAt P w o.2.2.2 startKeys.spendQuads.q0
    q1 := laneAt P w o.2.2.1 startKeys.spendQuads.q1
    q2 := laneAt P w o.2.1 startKeys.spendQuads.q2
    q3 := laneAt P w o.1 startKeys.spendQuads.q3 }

/-- The lane offsets of the candidates of the loop over lane 0 and its boundary step, for
the offsets `a`, `b`, `c` of the lanes above. -/
def offsets0 (lastV : Nat) (ds : List Nat) (a b c : Nat) : List (Nat × Nat × Nat × Nat) :=
  ds.map (fun d => (a, b, c, d)) ++ [(a, b, c, lastV)]

/-- The lane offsets of the candidates of the loop over lane 1 and its boundary step. -/
def offsets1 (w lastV : Nat) (ds : List Nat) (a b : Nat) : List (Nat × Nat × Nat × Nat) :=
  (countUp w).flatMap (fun c => offsets0 lastV ds a b c) ++ [(a, b, UINT_MAX w, lastV)]

/-- The lane offsets of the candidates of the loop over lane 2 and its boundary step. -/
def offsets2 (w lastV : Nat) (ds : List Nat) (a : Nat) : List (Nat × Nat × Nat × Nat) :=
  (countUp w).flatMap (fun b => offsets1 w lastV ds a b)
    ++ [(a, UINT_MAX w, UINT_MAX w, lastV)]

/-- The lane offsets of the candidates of `prefix_worker`, in the order of its loop nest,
when no call of `check_address_prefix` returns `true`. -/
def prefixOffsets (w lastV : Nat) (ds : List Nat) : List (Nat × Nat × Nat × Nat) :=
  (countUp w).flatMap (fun a => offsets2 w lastV ds a)
    ++ [(UINT_MAX w, UINT_MAX w, UINT_MAX w, lastV)]

/-- The lane offsets `(a, b, c, d)` read as a number of four digits in base `2 ^ 64`, `a`
the most significant. -/
def bigNumber (o : Nat × Nat × Nat × Nat) : Nat :=
  ((o.1 * 2 ^ 64 + o.2.1) * 2 ^ 64 + o.2.2.1) * 2 ^ 64 + o.2.2.2

/-- Statement `c`, entered with a spend key satisfying `K` and the recorded calls `L`,
hands exactly the spend keys `xs` to `check_address_prefix` and falls through with a spend
key satisfying `K1`; when instead a call returns `true`, the recorded calls are a prefix of
`Total` and `found` is `count`. -/
def Collects (count : Int) (Total : List Quads) (K : Quads → Prop)
    (c : Stmt (keys × PrefixSearch)) (xs : List Quads) (K1 : Quads → Prop) : Prop :=
  ∀ L, (L ++ xs) <+: Total →
    Triple (fun ks => K ks.1.spendQuads ∧ ks.2.calls = L) c
      (fun ks => K1 ks.1.spendQuads ∧ ks.2.calls = L ++ xs)
      (fun ks => ks.2.calls <+: Total ∧ ks.2.found = count)

/-! ## The counter of the prefix search along a run -/

/-- The largest value of an `int`. -/
def INT_MAX : Int := 2 ^ 31 - 1

/-- The value of `found` after calls of `check_address_prefix` on the spend keys `qs`, none
of which returned `true`: the start value plus the number of discoveries among `qs`
(main.cpp:80-90), as long as the counter has stayed within the range of an `int`. -/
def foundAfter (P : Primitives) (pfx : List Char) (found : Int) (qs : List Quads) : Int :=
  found + ((qs.countP (discovers P pfx) : Nat) : Int)

/-- A prefix search started with `found = f0` in which every call of
`check_address_prefix` so far has returned `false`: each call found `found` different from
`count`, and `found` is the start value plus the discoveries of all calls. -/
def Searching (P : Primitives) (pfx : List Char) (count f0 : Int) (s : PrefixSearch) : Prop :=
  s.found = foundAfter P pfx f0 s.calls
    ∧ ∀ n, n < s.calls.length → foundAfter P pfx f0 (s.calls.take n) ≠ count

/-- A prefix search started with `found = f0` whose last call of `check_address_prefix`
returned `true`: that call found `found == count`, every call before it found `found`
different from `count`, and the last call has changed nothing. -/
def Returned (P : Primitives) (pfx : List Char) (count f0 : Int) (s : PrefixSearch) : Prop :=
  ∃ pre q, s.calls = pre ++ [q] ∧ s.found = count ∧ foundAfter P pfx f0 pre = count
    ∧ ∀ n, n < pre.length → foundAfter P pfx f0 (pre.take n) ≠ count

/-- The counter values of the strided loop of a worker, the empty list when the fuel does
not suffice. -/
def strideValues (w threads threadId fuel : Nat) : List Nat :=
  (strideLoop w threads (last w threads threadId) fuel (toLane w threadId)).getD []

/-- The spend keys worker `threadId` of `threads` hands to `check_address_prefix`, in the
order of its loop nest, when no call returns `true`. -/
def prefixCandidates (P : Primitives) (w threads threadId fuel : Nat) (startKeys : keys) :
    List Quads :=
  (prefixOffsets w (last w threads threadId) (strideValues w threads threadId fuel)).map
    (keyAt P w startKeys)

/-- Primitives for examples, on a little-endian host: every spend key has a public key and
every address is `X`, which no prefix beginning with `TA` matches. -/
def noKeyMatches : Primitives :=
  littleEndian (fun q => some q.q0) (fun q => (q, 0)) (fun _ _ => ['X'])

end AddressGenerator

namespace CryptoNote

/-! ## The mining token and the atomic operations on it -/

/-- The enumeration `MiningState`, the content of the atomic cell `m_state`. -/
inductive MiningState where
  | MINING_STOPPED
  | BLOCK_FOUND
  | MINING_IN_PROGRESS
deriving DecidableEq, Repr

/-- The record `BlockTemplate` as far as the miner looks at it: the 32-bit `nonce` and, in
`body`, all the other fields, which the miner only copies. -/
structure BlockTemplate where
  nonce : Nat
  body : Nat
deriving DecidableEq, Repr

/-- The hashing collaborators of `workerFunc`, which live outside `Miner.cpp`:
`CachedBlock::getBlockLongHash` and `check_hash`. -/
structure HashPrimitives where
  getBlockLongHash : BlockTemplate → Nat
  check_hash : Nat → Nat → Bool

/-- The operation `cell.compare_exchange_weak(expected, desired)` of `std::atomic`: when
the cell holds `expected` and the operation does not fail spuriously it stores `desired`
and returns `true`; otherwise it leaves the cell alone, writes the value it observed into
`expected` and returns `false`.  The result is (success, cell, expected). -/
def compare_exchange_weak (cell expected desired : MiningState) (spurious : Bool) :
    Bool × MiningState × MiningState :=
  if cell = expected ∧ spurious = false then (true, desired, expected)
  else (false, cell, cell)

/-- The members of `Miner` that the lifecycle touches: the token `m_state`, the result
`m_block`, whether the event `m_miningStopped` is set, and `m_hashCount`. -/
structure Miner where
  m_state : MiningState
  m_block : BlockTemplate
  m_miningStopped : Bool
  m_hashCount : Nat
deriving DecidableEq, Repr

/-! ## The sequential parts of `mine` and `stop` -/

/-- The loop `while (!m_state.compare_exchange_weak(state, MINING_IN_PROGRESS)) sleep`
of `Miner::mine` (Miner.cpp:51-53), run while no other thread touches `m_state`.  The local
`state` is `expected`; `spurious` lists, attempt by attempt, whether the weak operation
fails spuriously.  The result is the number of attempts made and the content of `m_state`
when the loop is left; `none` when the listed attempts all fail. -/
def Miner.mineAcquire : MiningState → MiningState → List Bool → Option (Nat × MiningState)
  | _, _, [] => none
  | cell, expected, sp :: rest =>
    match compare_exchange_weak cell expected MiningState.MINING_IN_PROGRESS sp with
    | (true, cell1, _) => some (1, cell1)
    | (false, cell1, expected1) =>
      (Miner.mineAcquire cell1 expected1 rest).map (fun r => (r.1 + 1, r.2))

/-- How a call of `Miner::mine` ends: the `std::runtime_error` of line 48, the
`System::InterruptedException` of line 62, the block of line 66, or a failed `assert`. -/
inductive MineResult where
  | runtime_error
  | InterruptedException
  | block (b : BlockTemplate)
  | assertion_failed
deriving DecidableEq, Repr

/-- The end of `Miner::mine` after `runWorkers` has returned (Miner.cpp:59-66).  With
`ndebug` the two `assert`s are compiled out. -/
def Miner.mineFinish (ndebug : Bool) (m : Miner) : MineResult :=
  if ndebug = false ∧ m.m_state = MiningState.MINING_IN_PROGRESS then
    MineResult.assertion_failed
  else if m.m_state = MiningState.MINING_STOPPED then MineResult.InterruptedException
  else if ndebug = false ∧ m.m_state ≠ MiningState.BLOCK_FOUND then
    MineResult.assertion_failed
  else MineResult.block m.m_block

/-- The function `Miner::stop` (Miner.cpp:69-76), run while no other thread touches
`m_state`: one weak compare-and-swap `MINING_IN_PROGRESS -> MINING_STOPPED` and, when it
succeeds, `m_miningStopped.wait()` followed by `m_miningStopped.clear()`.  The second
component says whether the call waited on the event. -/
def Miner.stop (spurious : Bool) (m : Miner) : Miner × Bool :=
  match compare_exchange_weak m.m_state MiningState.MINING_IN_PROGRESS
      MiningState.MINING_STOPPED spurious with
  | (true, cell, _) => ({ m with m_state := cell, m_miningStopped := false }, true)
  | (false, cell, _) => ({ m with m_state := cell }, false)

/-! ## The worker pool as an interleaving of atomic steps -/

/-- Where a hash-search worker stands in `Miner::workerFunc` (Miner.cpp:128-153) and in the
`setStateBlockFound` it calls (Miner.cpp:155-177); between two points lies one access to
shared memory. -/
inductive WorkerPc where
  /-- About to evaluate `m_state == MINING_IN_PROGRESS` (line 132) with the local `block`. -/
  | loopTest (block : BlockTemplate)
  /-- About to hash `block`, count the hash and call `check_hash` (lines 133-137). -/
  | hashing (block : BlockTemplate)
  /-- About to run `auto state = m_state.load()` (line 156). -/
  | sbfLoad (block : BlockTemplate)
  /-- Inside the `for (;;) switch (state)` of `setStateBlockFound` with the local `state`. -/
  | sbfSwitch (block : BlockTemplate) (state : MiningState)
  /-- The call returned `true`; about to run `m_block = block` (line 140). -/
  | publish (block : BlockTemplate)
  /-- In the `catch` block, about to run `m_state = MINING_STOPPED` (line 151). -/
  | handler
  /-- The worker function has returned. -/
  | done
deriving DecidableEq, Repr

/-- One pass through the `for (;;) switch (state)` of `Miner::setStateBlockFound`
(Miner.cpp:158-176) with the local `state`: the value the function returns (`none` when the
loop goes round again after a failed compare-and-swap), the content of `m_state` and the
local `state` afterwards. -/
def setStateBlockFound (spurious : Bool) (cell state : MiningState) :
    Option Bool × MiningState × MiningState :=
  match state with
  | MiningState.BLOCK_FOUND => (some false, cell, state)
  | MiningState.MINING_IN_PROGRESS =>
    match compare_exchange_weak cell state MiningState.BLOCK_FOUND spurious with
    | (true, cell1, state1) => (some true, cell1, state1)
    | (false, cell1, state1) => (none, cell1, state1)
  | MiningState.MINING_STOPPED => (some false, cell, state)

/-- One atomic step of `Miner::workerFunc` (Miner.cpp:128-153).  `nonceStep` is its
`uint32_t` argument; `spurious` is consulted only when the step is a compare-and-swap. -/
def workerFunc (H : HashPrimitives) (difficulty nonceStep : Nat) (spurious : Bool)
    (m : Miner) : WorkerPc → WorkerPc × Miner
  | WorkerPc.loopTest b =>
    if m.m_state = MiningState.MINING_IN_PROGRESS then (WorkerPc.hashing b, m)
    else (WorkerPc.done, m)
  | WorkerPc.hashing b =>
    let m1 : Miner := { m with m_hashCount := m.m_hashCount + 1 }
    if H.check_hash (H.getBlockLongHash b) difficulty then (WorkerPc.sbfLoad b, m1)
    else (WorkerPc.loopTest { b with nonce := (b.nonce + nonceStep) % 2 ^ 32 }, m1)
  | WorkerPc.sbfLoad b => (WorkerPc.sbfSwitch b m.m_state, m)
  | WorkerPc.sbfSwitch b state =>
    match setStateBlockFound spurious m.m_state state with
    | (some true, cell, _) => (WorkerPc.publish b, { m with m_state := cell })
    | (some false, cell, _) => (WorkerPc.done, { m with m_state := cell })
    | (none, cell, state1) => (WorkerPc.sbfSwitch b state1, { m with m_state := cell })
  | WorkerPc.publish b => (WorkerPc.done, { m with m_block := b })
  | WorkerPc.handler => (WorkerPc.done, { m with m_state := MiningState.MINING_STOPPED })
  | WorkerPc.done => (WorkerPc.done, m)

/-- What can happen next during a mining run. -/
inductive Action where
  /-- Worker `i` takes its next atomic step. -/
  | worker (i : Nat) (spurious : Bool)
  /-- An exception is thrown inside the `try` block of worker `i`. -/
  | raise (i : Nat)
  /-- The compare-and-swap of a `stop()` call made from another context. -/
  | stop (spurious : Bool)
  /-- The `catch` block of `runWorkers` stores `MINING_STOPPED` (Miner.cpp:100-103). -/
  | spawnError
deriving DecidableEq, Repr

/-- The state of one mining run: the miner, the workers held in `m_workers` (the hash-rate
reporter, which only reads, is left out) and three ghost fields: how many calls of
`setStateBlockFound` have returned `true`, which workers have written `m_block`, and
whether `runWorkers` went through its `catch` block. -/
structure RunState where
  miner : Miner
  workers : List WorkerPc
  sbfTrue : Nat
  blockWrites : List Nat
  caught : Bool
deriving DecidableEq, Repr

/-- Whether the call of `setStateBlockFound` returns `true` in the step `pc -> pc1`. -/
def returnsTrue : WorkerPc → WorkerPc → Bool
  | WorkerPc.sbfSwitch _ _, WorkerPc.publish _ => true
  | _, _ => false

/-- Whether the worker is inside the `try` block of `workerFunc`. -/
def inTry : WorkerPc → Bool
  | WorkerPc.handler => false
  | WorkerPc.done => false
  | _ => true

/-- One step of the run. -/
def step (H : HashPrimitives) (difficulty nonceStep : Nat) (s : RunState) :
    Action → RunState
  | Action.worker i spurious =>
    match s.workers.get? i with
    | none => s
    | some pc =>
      let r := workerFunc H difficulty nonceStep spurious s.miner pc
      { s with
        miner := r.2
        workers := s.workers.set i r.1
        sbfTrue := if returnsTrue pc r.1 then s.sbfTrue + 1 else s.sbfTrue
        blockWrites :=
          match pc with
          | WorkerPc.publish _ => s.blockWrites ++ [i]
          | _ => s.blockWrites }
  | Action.raise i =>
    match s.workers.get? i with
    | none => s
    | some pc => if inTry pc then { s with workers := s.workers.set i WorkerPc.handler } else s
  | Action.stop spurious =>
    { s with miner := { s.miner with m_state :=
        (compare_exchange_weak s.miner.m_state MiningState.MINING_IN_PROGRESS
          MiningState.MINING_STOPPED spurious).2.1 } }
  | Action.spawnError =>
    { s with miner := { s.miner with m_state := MiningState.MINING_STOPPED }, caught := true }

/-- The run under a schedule. -/
def run (H : HashPrimitives) (difficulty nonceStep : Nat) (s : RunState)
    (schedule : List Action) : RunState :=
  schedule.foldl (step H difficulty nonceStep) s

/-- The workers `runWorkers` creates (Miner.cpp:90-96): worker `i` starts from the template
with nonce `r + i`, `r` being the value of `Crypto::rand<uint32_t>()`. -/
def spawn (blockTemplate : BlockTemplate) (r threadCount : Nat) : List WorkerPc :=
  (List.range threadCount).map
    (fun i => WorkerPc.loopTest { blockTemplate with nonce := (r % 2 ^ 32 + i) % 2 ^ 32 })

/-- The state in which the workers of `runWorkers` start. -/
def runWorkersStart (m : Miner) (blockTemplate : BlockTemplate) (r threadCount : Nat) :
    RunState :=
  { miner := { m with m_hashCount := 0 }
    workers := spawn blockTemplate r threadCount
    sbfTrue := 0
    blockWrites := []
    caught := false }

/-- Whether `runWorkers` can return: `m_workers.clear()` has joined every worker, or the
`catch` block has run. -/
def runWorkersReturned (s : RunState) : Bool :=
  s.caught || s.workers.all (fun pc => pc == WorkerPc.done)

/-- The function `Miner::mine` (Miner.cpp:44-67) for a template, a difficulty and a thread
count, calling `runWorkers` (Miner.cpp:78-106).  `spurious` drives the acquire loop, `r` is
the random base nonce and `schedule` the interleaving of the run.  The result is `none`
when the call does not return under these: the acquire loop is still retrying, or the
schedule ends before `runWorkers` can return. -/
def Miner.mine (H : HashPrimitives) (ndebug : Bool) (m : Miner) (blockTemplate : BlockTemplate)
    (difficulty threadCount r : Nat) (spurious : List Bool) (schedule : List Action) :
    Option (MineResult × RunState) :=
  if threadCount = 0 then
    some (MineResult.runtime_error,
      { miner := m, workers := [], sbfTrue := 0, blockWrites := [], caught := false })
  else
    match Miner.mineAcquire m.m_state MiningState.MINING_STOPPED spurious with
    | none => none
    | some (_, cell) =>
      let m1 : Miner := { m with m_state := cell, m_miningStopped := false }
      let s := run H difficulty (threadCount % 2 ^ 32)
        (runWorkersStart m1 blockTemplate r threadCount) schedule
      if runWorkersReturned s then
        let s1 : RunState := { s with miner := { s.miner with m_miningStopped := true } }
        some (Miner.mineFinish ndebug s1.miner, s1)
      else none

/-! ## Invariants of a mining run -/

/-- Whether the worker is about to write `m_block`. -/
def atPublish : WorkerPc → Bool
  | WorkerPc.publish _ => true
  | _ => false

/-- Whether the worker still has a store to shared memory before it: the write of `m_block`
or the `m_state = MINING_STOPPED` of its `catch` block. -/
def pending : WorkerPc → Bool
  | WorkerPc.publish _ => true
  | WorkerPc.handler => true
  | _ => false

/-- Whether the worker has seen `m_state` differ from `MINING_IN_PROGRESS`: it has returned,
it has won the compare-and-swap, or the local `state` of `setStateBlockFound` holds another
value. -/
def pastProgress : WorkerPc → Bool
  | WorkerPc.done => true
  | WorkerPc.publish _ => true
  | WorkerPc.sbfSwitch _ st => st != MiningState.MINING_IN_PROGRESS
  | _ => false

/-- A block that differs from the template with the fields `body` in the nonce only and
passes `check_hash` for the difficulty. -/
def Solves (H : HashPrimitives) (difficulty body : Nat) (b : BlockTemplate) : Prop :=
  b.body = body ∧ b.nonce < 2 ^ 32 ∧ H.check_hash (H.getBlockLongHash b) difficulty = true

/-- The local block of a worker is the template up to the nonce, and it passes
`check_hash` once the worker has left the test of line 137 towards `setStateBlockFound`. -/
def WorkerOk (H : HashPrimitives) (difficulty body : Nat) : WorkerPc → Prop
  | WorkerPc.loopTest b => b.body = body ∧ b.nonce < 2 ^ 32
  | WorkerPc.hashing b => b.body = body ∧ b.nonce < 2 ^ 32
  | WorkerPc.sbfLoad b => Solves H difficulty body b
  | WorkerPc.sbfSwitch b _ => Solves H difficulty body b
  | WorkerPc.publish b => Solves H difficulty body b
  | WorkerPc.handler => True
  | WorkerPc.done => True

/-- The invariant of a run behind "at most one winner": every win is either still waiting to
write `m_block` or has written it, there is at most one win, and none while the token is
still `MINING_IN_PROGRESS`. -/
structure WinInv (s : RunState) : Prop where
  count_le : s.workers.countP atPublish + s.blockWrites.length ≤ s.sbfTrue
  win_le : s.sbfTrue ≤ 1
  none_yet : s.miner.m_state = MiningState.MINING_IN_PROGRESS → s.sbfTrue = 0

/-- The invariant of a run behind the result of `mine`. -/
structure RunInv (H : HashPrimitives) (difficulty body : Nat) (s : RunState) : Prop where
  workers_ok : ∀ pc, pc ∈ s.workers → WorkerOk H difficulty body pc
  found_block : s.miner.m_state = MiningState.BLOCK_FOUND →
    1 ≤ s.workers.countP pending ∨ Solves H difficulty body s.miner.m_block
  past : ∀ pc, pc ∈ s.workers → pastProgress pc = true →
    s.miner.m_state ≠ MiningState.MINING_IN_PROGRESS
  caught_stopped : s.caught = true → s.miner.m_state = MiningState.MINING_STOPPED

/-- A hash collaborator for examples: the long hash of a block is its nonce and a hash
passes for the difficulty it equals. -/
def nonceHash : HashPrimitives :=
  { getBlockLongHash := fun b => b.nonce
    check_hash := fun h d => h == d }

/-- A miner at rest: the token is `MINING_STOPPED`. -/
def restingMiner : Miner :=
  { m_state := MiningState.MINING_STOPPED, m_block := ⟨0, 0⟩, m_miningStopped := false,
    m_hashCount := 0 }

/-- A schedule of two workers in which worker 0 hashes the nonces 3 and 5, wins the
compare-and-swap and writes `m_block`, and worker 1, after one hash, sees the token
changed and returns. -/
def foundSchedule : List Action :=
  [Action.worker 0 false, Action.worker 0 false, Action.worker 1 false, Action.worker 1 false,
   Action.worker 0 false, Action.worker 0 false, Action.worker 0 false, Action.worker 0 false,
   Action.worker 0 false, Action.worker 1 false]

/-- A schedule of one worker in which a `stop()` call from another context wins against the
worker, which then leaves its loop. -/
def stoppedSchedule : List Action :=
  [Action.worker 0 false, Action.stop false, Action.worker 0 false, Action.worker 0 false]

/-- Whether the step is the store of a `catch` block: that of a worker standing in the
`catch` block of `workerFunc`, or that of `runWorkers`. -/
def catchStep (s : RunState) : Action → Bool
  | Action.worker i _ => s.workers.get? i == some WorkerPc.handler
  | Action.spawnError => true
  | _ => false

/-- A schedule of two workers in which worker 0 finds the block and writes `m_block`, and
worker 1, which was hashing meanwhile, then fails with an exception and runs its `catch`
block. -/
def lostBlockSchedule : List Action :=
  [Action.worker 0 false, Action.worker 0 false, Action.worker 1 false, Action.worker 0 false,
   Action.worker 0 false, Action.worker 0 false, Action.worker 0 false, Action.worker 0 false,
   Action.raise 1, Action.worker 1 false]

/-- A schedule of one worker that fails with an exception while hashing and runs its
`catch` block. -/
def failedSchedule : List Action :=
  [Action.worker 0 false, Action.raise 0, Action.worker 0 false]

/-! ## The blocks a worker hashes -/

/-- The blocks worker `i` hashes during a schedule (line 134 of `workerFunc`), in the order
in which it hashes them. -/
def hashedBy (H : HashPrimitives) (difficulty nonceStep i : Nat) :
    RunState → List Action → List BlockTemplate
  | _, [] => []
  | s, a :: rest =>
    (match a with
      | Action.worker j _ =>
        if j = i then
          match s.workers.get? i with
          | some (WorkerPc.hashing b) => [b]
          | _ => []
        else []
      | _ => [])
    ++ hashedBy H difficulty nonceStep i (step H difficulty nonceStep s a) rest

/-- The local block of a worker that can still hash is `blk`. -/
def HoldsBlock (blk : BlockTemplate) : Option WorkerPc → Prop
  | some (WorkerPc.loopTest b) => b = blk
  | some (WorkerPc.hashing b) => b = blk
  | _ => True

/-- The template with the nonce `(r + i + k * N) mod 2^32`. -/
def candidateBlock (blockTemplate : BlockTemplate) (r N i k : Nat) : BlockTemplate :=
  { blockTemplate with nonce := (r + i + k * N) % 2 ^ 32 }

end CryptoNote

namespace AddressGenerator

/-! ## The strided walk: general facts -/

/-- The loop counter after `k` increments is `d + k * threads` reduced modulo `2 ^ w`; as
long as every such value is below `last`, and the `n`-th is not, the loop runs exactly `n`
times and enough fuel returns those `n` values. -/
theorem strideLoop_eq_map (w t lastV : Nat) :
    ∀ (n fuel d : Nat), d < 2 ^ w → n < fuel →
      (∀ j, j < n → (d + j * t) % 2 ^ w < lastV) →
      ¬ ((d + n * t) % 2 ^ w < lastV) →
      strideLoop w t lastV fuel d
        = some ((List.range n).map (fun j => (d + j * t) % 2 ^ w)) := by
  intro n
  induction n with
  | zero =>
    intro fuel d hd hf _ hn
    obtain ⟨f, rfl⟩ : ∃ f, fuel = f + 1 := ⟨fuel - 1, by omega⟩
    have hd0 : (d + 0 * t) % 2 ^ w = d := by simp [Nat.mod_eq_of_lt hd]
    rw [hd0] at hn
    simp [strideLoop, hn]
  | succ n ih =>
    intro fuel d hd hf hlt hn
    obtain ⟨f, rfl⟩ : ∃ f, fuel = f + 1 := ⟨fuel - 1, by omega⟩
    have h0 : d < lastV := by
      have := hlt 0 (by omega)
      simpa [Nat.mod_eq_of_lt hd] using this
    have hpos : 0 < 2 ^ w := Nat.pos_of_ne_zero (by positivity)
    have hstep : ∀ j, (addW w d (toLane w t) + j * t) % 2 ^ w = (d + (j + 1) * t) % 2 ^ w := by
      intro j
      unfold addW toLane
      have e1 : (d + (j + 1) * t) = (d + t) + j * t := by ring
      rw [e1, Nat.add_mod ((d + t % 2 ^ w) % 2 ^ w), Nat.mod_mod, Nat.add_mod d (t % 2 ^ w),
        Nat.mod_mod, ← Nat.add_mod d t, ← Nat.add_mod]
    have hrec := ih f (addW w d (toLane w t)) (Nat.mod_lt _ hpos) (by omega)
      (fun j hj => by rw [hstep]; exact hlt (j + 1) (by omega))
      (by rw [hstep]; exact hn)
    simp only [strideLoop, h0, if_true, hrec, Option.map_some']
    congr 1
    rw [List.range_succ_eq_map, List.map_cons, List.map_map]
    congr 1
    · simp [Nat.mod_eq_of_lt hd]
    · apply List.map_congr_left
      intro j _
      simp only [Function.comp]
      exact hstep j

/-! ## The strided walk with three workers on the 64-bit lane -/

/-- A value in `[m, 2 m)` reduces modulo `m` by one subtraction. -/
theorem mod_eq_sub_of_wrap (x m : Nat) (h1 : m ≤ x) (h2 : x < 2 * m) : x % m = x - m := by
  rw [Nat.mod_eq_sub_mod h1, Nat.mod_eq_of_lt (by omega)]

/-- The loop of worker 0 of 3 on the 64-bit lane: `last` is `2 ^ 64 - 2` and the counter
takes the multiples of 3 below it. -/
theorem strideLoop_three_zero :
    strideLoop 64 3 (last 64 3 0) (2 ^ 65) (toLane 64 0)
      = some ((List.range 6148914691236517205).map (fun j => (0 + j * 3) % 2 ^ 64)) := by
  have hl : last 64 3 0 = 18446744073709551614 := by decide
  have ht : toLane 64 0 = 0 := by decide
  rw [hl, ht]
  refine strideLoop_eq_map 64 3 18446744073709551614 6148914691236517205 (2 ^ 65) 0
    (by norm_num) (by norm_num) ?_ (by norm_num)
  intro j hj
  rw [Nat.mod_eq_of_lt (by omega)]
  omega

/-- The loop of worker 1 of 3 on the 64-bit lane: `last` is `2 ^ 64 - 1`; the counter runs
through the class of 1 up to `2 ^ 64 - 3`, wraps to 0 and runs through the multiples of 3
as well. -/
theorem strideLoop_three_one :
    strideLoop 64 3 (last 64 3 1) (2 ^ 65) (toLane 64 1)
      = some ((List.range 12297829382473034410).map (fun j => (1 + j * 3) % 2 ^ 64)) := by
  have hl : last 64 3 1 = 18446744073709551615 := by decide
  have ht : toLane 64 1 = 1 := by decide
  rw [hl, ht]
  refine strideLoop_eq_map 64 3 18446744073709551615 12297829382473034410 (2 ^ 65) 1
    (by norm_num) (by norm_num) ?_ (by norm_num)
  intro j hj
  rcases Nat.lt_or_ge j 6148914691236517205 with h | h
  · rw [Nat.mod_eq_of_lt (by omega)]
    omega
  · rw [mod_eq_sub_of_wrap _ _ (by omega) (by omega)]
    omega

/-- C1, evaluated at `threads = 3` on the 64-bit lane: the walks of worker 0 and of
worker 1 both return, and both produce the offset 0 (worker 1 after its counter has wrapped
past `UINT64_MAX`), so the offsets of the three workers overlap instead of partitioning
the lane. -/
theorem walkerOffsets_three_overlap :
    ∃ l0 l1, walkerOffsets 64 3 0 (2 ^ 65) = some l0 ∧ walkerOffsets 64 3 1 (2 ^ 65) = some l1
      ∧ 0 ∈ l0 ∧ 0 ∈ l1 := by
  have e0 : walkerOffsets 64 3 0 (2 ^ 65)
      = some ((List.range 6148914691236517205).map (fun j => (0 + j * 3) % 2 ^ 64)
          ++ [last 64 3 0]) := by
    rw [walkerOffsets, strideLoop_three_zero]; rfl
  have e1 : walkerOffsets 64 3 1 (2 ^ 65)
      = some ((List.range 12297829382473034410).map (fun j => (1 + j * 3) % 2 ^ 64)
          ++ [last 64 3 1]) := by
    rw [walkerOffsets, strideLoop_three_one]; rfl
  refine ⟨_, _, e0, e1, ?_, ?_⟩
  · exact List.mem_append_left _
      (List.mem_map.2 ⟨0, List.mem_range.2 (by norm_num), by norm_num⟩)
  · exact List.mem_append_left _
      (List.mem_map.2 ⟨6148914691236517205, List.mem_range.2 (by norm_num), by norm_num⟩)

/-- C2, evaluated at `threads = 3`, `threadId = 0` on the 64-bit lane: `last` is
`2 ^ 64 - 2`, which is congruent to 2 and not to `threadId` modulo 3, while the larger value
`UINT64_MAX` is congruent to `threadId`. -/
theorem last_three_zero_not_congruent :
    last 64 3 0 = 2 ^ 64 - 2 ∧ last 64 3 0 % 3 = 2 ∧ 0 % 3 = 0
      ∧ last 64 3 0 < UINT_MAX 64 ∧ UINT_MAX 64 % 3 = 0 := by
  decide

/-- C3, evaluated at `threads = 3`, `threadId = 1` on the 64-bit lane: the loop returns,
its counter reaches `d = 2 ^ 64 - 3`, for which `d < last` holds and `d + threads` exceeds
`UINT64_MAX`, and the next value of the counter is 0: the counter wraps and its values are
not increasing. -/
theorem strideLoop_three_one_wraps :
    ∃ l, strideLoop 64 3 (last 64 3 1) (2 ^ 65) (toLane 64 1) = some l
      ∧ l.get? 6148914691236517204 = some (2 ^ 64 - 3)
      ∧ 2 ^ 64 - 3 < last 64 3 1
      ∧ UINT_MAX 64 < (2 ^ 64 - 3) + 3
      ∧ l.get? 6148914691236517205 = some 0 := by
  refine ⟨_, strideLoop_three_one, ?_, by decide, by decide, ?_⟩
  · rw [List.get?_eq_getElem?, List.getElem?_map, List.getElem?_range (by norm_num)]
    norm_num
  · rw [List.get?_eq_getElem?, List.getElem?_map, List.getElem?_range (by norm_num)]
    norm_num

/-! ## Reasoning about worker bodies -/

theorem Triple.seq {σ : Type} {pre mid post ret : σ → Prop} {c1 c2 : Stmt σ}
    (h1 : Triple pre c1 mid ret) (h2 : Triple mid c2 post ret) :
    Triple pre (Stmt.seq c1 c2) post ret := by
  intro s hs
  have a := h1 s hs
  unfold Stmt.seq
  rcases h : c1 s with ⟨b, s1⟩
  rw [h] at a
  cases b with
  | true => exact ⟨fun hf => by simp at hf, fun _ => a.2 rfl⟩
  | false => exact h2 s1 (a.1 rfl)

theorem Triple.weaken {σ : Type} {pre pre1 post post1 ret : σ → Prop} {c : Stmt σ}
    (h : Triple pre1 c post1 ret) (hpre : ∀ s, pre s → pre1 s) (hpost : ∀ s, post1 s → post s) :
    Triple pre c post ret := by
  intro s hs
  exact ⟨fun hf => hpost _ ((h s (hpre s hs)).1 hf), (h s (hpre s hs)).2⟩

/-- A loop keeps an invariant that each of its iterations keeps. -/
theorem Triple.forLoop {σ : Type} {inv ret : σ → Prop} {body : Nat → Stmt σ} :
    ∀ (xs : List Nat), (∀ x, x ∈ xs → Triple inv (body x) inv ret) →
      Triple inv (forLoop body xs) inv ret := by
  intro xs
  induction xs with
  | nil => intro _ s hs; exact ⟨fun _ => hs, fun hf => by simp [AddressGenerator.forLoop] at hf⟩
  | cons x xs ih =>
    intro h
    exact Triple.seq (h x (List.mem_cons_self x xs))
      (ih (fun y hy => h y (List.mem_cons_of_mem x hy)))

/-- A loop that runs at least once ends in what its iterations establish. -/
theorem Triple.forLoop_of_ne_nil {σ : Type} {inv post ret : σ → Prop} {body : Nat → Stmt σ}
    (hpost : ∀ s, post s → inv s) :
    ∀ (xs : List Nat), xs ≠ [] → (∀ x, x ∈ xs → Triple inv (body x) post ret) →
      Triple inv (AddressGenerator.forLoop body xs) post ret := by
  intro xs
  induction xs with
  | nil => intro h; exact absurd rfl h
  | cons x xs ih =>
    intro _ h
    by_cases hx : xs = []
    · subst hx
      refine Triple.seq (h x (List.mem_cons_self x [])) ?_
      intro s hs
      exact ⟨fun _ => hs, fun hf => by simp [AddressGenerator.forLoop] at hf⟩
    · exact Triple.seq (Triple.weaken (h x (List.mem_cons_self x xs)) (fun _ hs => hs) hpost)
        (ih hx (fun y hy => h y (List.mem_cons_of_mem x hy)))

theorem Triple.void {σ : Type} {pre post ret : σ → Prop} {c : Stmt σ}
    (h : Triple pre c post ret) :
    Triple pre (Stmt.void c) (fun s => post s ∨ ret s) ret := by
  intro s hs
  refine ⟨fun _ => ?_, fun hf => by simp [Stmt.void] at hf⟩
  show post (c s).2 ∨ ret (c s).2
  rcases hb : (c s).1 with _ | _
  · exact Or.inl ((h s hs).1 hb)
  · exact Or.inr ((h s hs).2 hb)

/-- What holds both when a statement falls through and when it returns holds after it. -/
theorem Triple.holds {σ : Type} {pre post : σ → Prop} {c : Stmt σ}
    (h : Triple pre c post post) (s : σ) (hs : pre s) : post (c s).2 := by
  rcases hb : (c s).1 with _ | _
  · exact (h s hs).1 hb
  · exact (h s hs).2 hb

/-- The acceptance test of the prefix search leaves the spend key alone and records exactly
the spend key it was handed. -/
theorem check_address_prefix_frame (P : Primitives) (pfx : List Char) (count : Int)
    (ks : keys × PrefixSearch) :
    (( check_address_prefix P pfx count ks).2.1.spendQuads = ks.1.spendQuads) ∧
    (( check_address_prefix P pfx count ks).2.2.calls = ks.2.calls ++ [ks.1.spendQuads]) := by
  unfold check_address_prefix
  simp only
  split
  · exact ⟨rfl, rfl⟩
  · split
    · split <;> exact ⟨rfl, rfl⟩
    · exact ⟨rfl, rfl⟩

theorem Triple.assign {σ : Type} {pre post ret : σ → Prop} {c : Stmt σ}
    (hc : ∀ s, (c s).1 = false) (h : ∀ s, pre s → post (c s).2) : Triple pre c post ret := by
  intro s hs
  exact ⟨fun _ => h s hs, fun hf => by rw [hc s] at hf; exact absurd hf (by simp)⟩

/-- The acceptance test keeps `R` on the recorded calls when the key it is handed satisfies
`R`, and keeps every property `F` of the spend key. -/
theorem check_address_prefix_triple (P : Primitives) (pfx : List Char) (count : Int)
    (R F : Quads → Prop) :
    Triple (fun ks => CallsSatisfy R ks ∧ R ks.1.spendQuads ∧ F ks.1.spendQuads)
      ( check_address_prefix P pfx count)
      (fun ks => CallsSatisfy R ks ∧ F ks.1.spendQuads) (CallsSatisfy R) := by
  intro ks h
  obtain ⟨hA, hR, hF⟩ := h
  obtain ⟨e1, e2⟩ := check_address_prefix_frame P pfx count ks
  have hcalls : CallsSatisfy R ( check_address_prefix P pfx count ks).2 := by
    intro q hq
    rw [e2, List.mem_append, List.mem_singleton] at hq
    rcases hq with hq | hq
    · exact hA q hq
    · rw [hq]; exact hR
  exact ⟨fun _ => ⟨hcalls, by rw [e1]; exact hF⟩, fun _ => hcalls⟩

/-- In `prefix_worker`, whatever the acceptance test answers: every spend key handed to it
with lane 1 at the value of the `Avoid wraparound` step has lane 0 at the boundary offset
`last`.  The lanes need at least one bit, and the byte-order macro must keep the stored
lanes of the loop apart from the stored boundary lane. -/
theorem prefix_worker_body_boundary (P : Primitives) (w : Nat) (pfx : List Char)
    (count : Int) (startKeys : keys) (lastV : Nat) (ds : List Nat)
    (hw : countUp w ≠ [])
    (hne : ∀ c, c ∈ countUp w →
      laneAt P w c startKeys.spendQuads.q1 ≠ laneBefore P w startKeys.spendQuads.q1) :
    Triple
      (CallsSatisfy (BoundaryOnly (laneBefore P w startKeys.spendQuads.q1)
        (laneAt P w lastV startKeys.spendQuads.q0)))
      (prefix_worker_body P w pfx count startKeys lastV ds)
      (CallsSatisfy (BoundaryOnly (laneBefore P w startKeys.spendQuads.q1)
        (laneAt P w lastV startKeys.spendQuads.q0)))
      (CallsSatisfy (BoundaryOnly (laneBefore P w startKeys.spendQuads.q1)
        (laneAt P w lastV startKeys.spendQuads.q0))) := by
  generalize hb1 : laneBefore P w startKeys.spendQuads.q1 = b1 at hne ⊢
  generalize hb0 : laneAt P w lastV startKeys.spendQuads.q0 = b0
  -- the innermost loop: lane 1 is not at the boundary
  have hD : Triple
      (fun ks : keys × PrefixSearch =>
        CallsSatisfy (BoundaryOnly b1 b0) ks ∧ ks.1.spendQuads.q1 ≠ b1)
      (forLoop (fun d => Stmt.seq (setSpend0 (laneAt P w d startKeys.spendQuads.q0))
        ( check_address_prefix P pfx count)) ds)
      (fun ks => CallsSatisfy (BoundaryOnly b1 b0) ks ∧ ks.1.spendQuads.q1 ≠ b1)
      (CallsSatisfy (BoundaryOnly b1 b0)) := by
    apply Triple.forLoop
    intro d _
    refine Triple.seq (Triple.assign (fun _ => rfl) ?_)
      (check_address_prefix_triple P pfx count (BoundaryOnly b1 b0) (fun q => q.q1 ≠ b1))
    intro ks h
    exact ⟨h.1, fun e => absurd e h.2, h.2⟩
  -- a step that stores a lane above lane 0 and tests, with lane 0 at the boundary
  have hStep : ∀ (set : Nat → Stmt (keys × PrefixSearch)) (v : Nat),
      (∀ ks, (set v ks).1 = false) → (∀ ks, (set v ks).2.2 = ks.2) →
      (∀ ks, (set v ks).2.1.spendQuads.q0 = ks.1.spendQuads.q0) →
      Triple
        (fun ks : keys × PrefixSearch =>
          CallsSatisfy (BoundaryOnly b1 b0) ks ∧ ks.1.spendQuads.q0 = b0)
        (Stmt.seq (set v) ( check_address_prefix P pfx count))
        (fun ks => CallsSatisfy (BoundaryOnly b1 b0) ks ∧ ks.1.spendQuads.q0 = b0)
        (CallsSatisfy (BoundaryOnly b1 b0)) := by
    intro set v h1 h2 h3
    refine Triple.seq (Triple.assign h1 ?_)
      (check_address_prefix_triple P pfx count (BoundaryOnly b1 b0) (fun q => q.q0 = b0))
    intro ks h
    refine ⟨?_, fun _ => ?_, ?_⟩
    · intro q hq; rw [h2] at hq; exact h.1 q hq
    · rw [h3]; exact h.2
    · rw [h3]; exact h.2
  -- the boundary step of lane 0
  have hD1 : Triple
      (fun ks : keys × PrefixSearch =>
        CallsSatisfy (BoundaryOnly b1 b0) ks ∧ ks.1.spendQuads.q1 ≠ b1)
      (Stmt.seq (setSpend0 (laneAt P w lastV startKeys.spendQuads.q0))
        ( check_address_prefix P pfx count))
      (fun ks => CallsSatisfy (BoundaryOnly b1 b0) ks ∧ ks.1.spendQuads.q0 = b0)
      (CallsSatisfy (BoundaryOnly b1 b0)) := by
    refine Triple.seq (Triple.assign (fun _ => rfl) ?_)
      (check_address_prefix_triple P pfx count (BoundaryOnly b1 b0) (fun q => q.q0 = b0))
    intro ks h
    exact ⟨h.1, fun _ => hb0, hb0⟩
  -- the loop over lane 1
  have hC : Triple (CallsSatisfy (BoundaryOnly b1 b0))
      (forLoop (fun c =>
        Stmt.seq (setSpend1 (laneAt P w c startKeys.spendQuads.q1)) (Stmt.seq
          (forLoop (fun d => Stmt.seq (setSpend0 (laneAt P w d startKeys.spendQuads.q0))
            ( check_address_prefix P pfx count)) ds)
          (Stmt.seq (setSpend0 (laneAt P w lastV startKeys.spendQuads.q0))
            ( check_address_prefix P pfx count)))) (countUp w))
      (fun ks => CallsSatisfy (BoundaryOnly b1 b0) ks ∧ ks.1.spendQuads.q0 = b0)
      (CallsSatisfy (BoundaryOnly b1 b0)) := by
    apply Triple.forLoop_of_ne_nil (fun _ h => h.1) _ hw
    intro c hc
    refine Triple.seq (Triple.assign (fun _ => rfl) ?_) (Triple.seq hD hD1)
    intro ks h
    exact ⟨h, hne c hc⟩
  have hC1 := hStep setSpend1 b1 (fun _ => rfl) (fun _ => rfl) (fun _ => rfl)
  -- the loop over lane 2
  have hB : Triple (CallsSatisfy (BoundaryOnly b1 b0))
      (forLoop (fun b =>
        Stmt.seq (setSpend2 (laneAt P w b startKeys.spendQuads.q2)) (Stmt.seq
          (forLoop (fun c =>
            Stmt.seq (setSpend1 (laneAt P w c startKeys.spendQuads.q1)) (Stmt.seq
              (forLoop (fun d => Stmt.seq (setSpend0 (laneAt P w d startKeys.spendQuads.q0))
                ( check_address_prefix P pfx count)) ds)
              (Stmt.seq (setSpend0 (laneAt P w lastV startKeys.spendQuads.q0))
                ( check_address_prefix P pfx count)))) (countUp w))
          (Stmt.seq (setSpend1 b1) ( check_address_prefix P pfx count)))) (countUp w))
      (fun ks => CallsSatisfy (BoundaryOnly b1 b0) ks ∧ ks.1.spendQuads.q0 = b0)
      (CallsSatisfy (BoundaryOnly b1 b0)) := by
    apply Triple.forLoop_of_ne_nil (fun _ h => h.1) _ hw
    intro b _
    exact Triple.seq (Triple.assign (fun _ => rfl) (fun _ h q hq => h q hq)) (Triple.seq hC hC1)
  have hB1 := hStep setSpend2 (laneBefore P w startKeys.spendQuads.q2)
    (fun _ => rfl) (fun _ => rfl) (fun _ => rfl)
  -- the loop over lane 3 and the last step
  have hA : Triple (CallsSatisfy (BoundaryOnly b1 b0))
      (forLoop (fun a =>
        Stmt.seq (setSpend3 (laneAt P w a startKeys.spendQuads.q3)) (Stmt.seq
          (forLoop (fun b =>
            Stmt.seq (setSpend2 (laneAt P w b startKeys.spendQuads.q2)) (Stmt.seq
              (forLoop (fun c =>
                Stmt.seq (setSpend1 (laneAt P w c startKeys.spendQuads.q1)) (Stmt.seq
                  (forLoop (fun d =>
                    Stmt.seq (setSpend0 (laneAt P w d startKeys.spendQuads.q0))
                      ( check_address_prefix P pfx count)) ds)
                  (Stmt.seq (setSpend0 (laneAt P w lastV startKeys.spendQuads.q0))
                    ( check_address_prefix P pfx count)))) (countUp w))
              (Stmt.seq (setSpend1 b1) ( check_address_prefix P pfx count)))) (countUp w))
          (Stmt.seq (setSpend2 (laneBefore P w startKeys.spendQuads.q2))
            ( check_address_prefix P pfx count)))) (countUp w))
      (fun ks => CallsSatisfy (BoundaryOnly b1 b0) ks ∧ ks.1.spendQuads.q0 = b0)
      (CallsSatisfy (BoundaryOnly b1 b0)) := by
    apply Triple.forLoop_of_ne_nil (fun _ h => h.1) _ hw
    intro a _
    exact Triple.seq (Triple.assign (fun _ => rfl) (fun _ h q hq => h q hq)) (Triple.seq hB hB1)
  have hA1 : Triple
      (fun ks : keys × PrefixSearch =>
        CallsSatisfy (BoundaryOnly b1 b0) ks ∧ ks.1.spendQuads.q0 = b0)
      (Stmt.seq (setSpend3 (laneBefore P w startKeys.spendQuads.q3))
        (Stmt.void ( check_address_prefix P pfx count)))
      (CallsSatisfy (BoundaryOnly b1 b0)) (CallsSatisfy (BoundaryOnly b1 b0)) := by
    refine Triple.seq (Triple.assign (fun _ => rfl) ?_) (Triple.weaken
      (Triple.void (check_address_prefix_triple P pfx count (BoundaryOnly b1 b0)
        (fun q => q.q0 = b0))) (fun _ h => h) ?_)
    · intro ks h
      exact ⟨fun q hq => h.1 q hq, fun _ => h.2, h.2⟩
    · intro ks h
      rcases h with h | h
      · exact h.1
      · exact h
  unfold prefix_worker_body
  simp only [hb1]
  exact Triple.seq hA hA1

/-- With one thread the strided loop on the 64-bit lane returns, after `2 ^ 64 - 1`
iterations. -/
theorem strideLoop_single :
    strideLoop 64 1 (last 64 1 0) (2 ^ 64) (toLane 64 0)
      = some ((List.range (2 ^ 64 - 1)).map (fun j => (0 + j * 1) % 2 ^ 64)) := by
  have hl : last 64 1 0 = 18446744073709551615 := by decide
  have ht : toLane 64 0 = 0 := by decide
  rw [hl, ht]
  refine strideLoop_eq_map 64 1 18446744073709551615 (2 ^ 64 - 1) (2 ^ 64) 0
    (by norm_num) (by norm_num) ?_ (by norm_num)
  intro j hj
  rw [Nat.mod_eq_of_lt (by omega)]
  omega

/-- C4, evaluated with `threads = 1` on the 64-bit lanes of a little-endian host, from the
all-zero start key and for every acceptance test: `prefix_worker` returns, and the candidate
with lane offsets `(a, b, c, d) = (0, 0, UINT64_MAX, 0)` is never handed to
`check_address_prefix`; at `c = UINT64_MAX` only the candidate with `d = UINT64_MAX` is
evaluated. -/
theorem prefix_worker_skips_candidate (derive : Quads → Option Nat)
    (view : Quads → Quads × Nat) (encode : Nat → Nat → List Char) (pfx : List Char)
    (count found : Int) (printed : List (List Char × Quads × Quads)) (init : keys) :
    ∃ r, prefix_worker (littleEndian derive view encode) 64 pfx 1 0 count zeroKeys (2 ^ 64)
          init { found := found, printed := printed, calls := [] } = some r
      ∧ ({ q0 := 0, q1 := 2 ^ 64 - 1, q2 := 0, q3 := 0 } : Quads) ∉ r.calls := by
  have hrun : prefix_worker (littleEndian derive view encode) 64 pfx 1 0 count zeroKeys
      (2 ^ 64) init { found := found, printed := printed, calls := [] }
      = some (prefix_worker_body (littleEndian derive view encode) 64 pfx count zeroKeys
          (last 64 1 0) ((List.range (2 ^ 64 - 1)).map (fun j => (0 + j * 1) % 2 ^ 64))
          (init, { found := found, printed := printed, calls := [] })).2.2 := by
    simp only [prefix_worker, strideLoop_single, Option.map_some']
  refine ⟨_, hrun, ?_⟩
  intro hmem
  have hw : countUp 64 ≠ [] := by
    unfold countUp UINT_MAX
    intro h
    rw [List.range_eq_nil] at h
    norm_num at h
  have hne : ∀ c, c ∈ countUp 64 →
      laneAt (littleEndian derive view encode) 64 c zeroKeys.spendQuads.q1
        ≠ laneBefore (littleEndian derive view encode) 64 zeroKeys.spendQuads.q1 := by
    intro c hc
    unfold countUp UINT_MAX at hc
    rw [List.mem_range] at hc
    simp only [laneAt, laneBefore, littleEndian, zeroKeys, addW, subW]
    rw [Nat.mod_eq_of_lt (by omega)]
    norm_num at hc ⊢
    omega
  have hall := Triple.holds (prefix_worker_body_boundary (littleEndian derive view encode)
    64 pfx count zeroKeys (last 64 1 0)
    ((List.range (2 ^ 64 - 1)).map (fun j => (0 + j * 1) % 2 ^ 64)) hw hne)
    (init, { found := found, printed := printed, calls := [] })
    (fun q hq => by simp at hq)
  have hq := hall _ hmem
  have hl : last 64 1 0 = 18446744073709551615 := by decide
  simp only [BoundaryOnly, laneAt, laneBefore, littleEndian, zeroKeys, addW, subW, hl] at hq
  norm_num at hq

end AddressGenerator

/-! ## The mining run: invariants -/

namespace CryptoNote

/-- Replacing the element at a position changes a count by what leaves and what enters. -/
theorem countP_set_add {α : Type} (p : α → Bool) :
    ∀ (l : List α) (i : Nat) (a b : α), l.get? i = some a →
      (l.set i b).countP p + (if p a then 1 else 0) = l.countP p + (if p b then 1 else 0) := by
  intro l
  induction l with
  | nil => intro i a b h; simp at h
  | cons x l ih =>
    intro i a b h
    cases i with
    | zero =>
      simp at h
      subst h
      simp only [List.set_cons_zero, List.countP_cons]
      omega
    | succ i =>
      simp at h
      have := ih i a b (by simpa using h)
      simp only [List.set_cons_succ, List.countP_cons]
      omega

/-- Every step of a run keeps the invariant behind "at most one winner". -/
theorem winInv_step (H : HashPrimitives) (difficulty nonceStep : Nat) (s : RunState)
    (a : Action) (h : WinInv s) : WinInv (step H difficulty nonceStep s a) := by
  obtain ⟨h1, h2, h3⟩ := h
  cases a with
  | worker i sp =>
    simp only [step]
    cases hget : s.workers.get? i with
    | none => exact ⟨h1, h2, h3⟩
    | some pc =>
      have hc := fun b => countP_set_add atPublish s.workers i pc b hget
      cases pc with
      | loopTest b =>
        have hc1 := hc (WorkerPc.hashing b)
        have hc2 := hc WorkerPc.done
        simp only [atPublish] at hc1 hc2
        simp only [workerFunc]
        split
        · refine ⟨?_, ?_, ?_⟩ <;> simp_all [returnsTrue]
        · refine ⟨?_, ?_, ?_⟩ <;> simp_all [returnsTrue]
      | hashing b =>
        have hc1 := hc (WorkerPc.sbfLoad b)
        have hc2 := hc (WorkerPc.loopTest
          { b with nonce := (b.nonce + nonceStep) % 2 ^ 32 })
        simp only [atPublish] at hc1 hc2
        simp only [workerFunc]
        split
        · refine ⟨?_, ?_, ?_⟩ <;> simp_all [returnsTrue]
        · refine ⟨?_, ?_, ?_⟩ <;> simp_all [returnsTrue]
      | sbfLoad b =>
        have hc1 := hc (WorkerPc.sbfSwitch b s.miner.m_state)
        simp only [atPublish] at hc1
        simp only [workerFunc]
        refine ⟨?_, ?_, ?_⟩ <;> simp_all [returnsTrue]
      | sbfSwitch b st =>
        have hc1 := hc WorkerPc.done
        have hc2 := hc (WorkerPc.publish b)
        have hc3 := hc (WorkerPc.sbfSwitch b s.miner.m_state)
        simp [atPublish] at hc1 hc2 hc3
        cases st with
        | BLOCK_FOUND =>
          simp only [workerFunc, setStateBlockFound]
          refine ⟨?_, ?_, ?_⟩ <;> simp_all [returnsTrue]
        | MINING_STOPPED =>
          simp only [workerFunc, setStateBlockFound]
          refine ⟨?_, ?_, ?_⟩ <;> simp_all [returnsTrue]
        | MINING_IN_PROGRESS =>
          simp only [workerFunc, setStateBlockFound, compare_exchange_weak]
          split
          · rename_i hcas
            have h0 := h3 hcas.1
            refine ⟨?_, ?_, ?_⟩
            · simp only [returnsTrue, if_true]; omega
            · simp only [returnsTrue, if_true]; omega
            · intro hm; simp at hm
          · refine ⟨?_, ?_, ?_⟩ <;> simp_all [returnsTrue]
      | publish b =>
        have hc1 := hc WorkerPc.done
        simp only [atPublish] at hc1
        simp only [workerFunc]
        refine ⟨?_, ?_, ?_⟩
        · simp only [returnsTrue, List.length_append, List.length_singleton]
          simp at hc1 ⊢
          omega
        · simpa [returnsTrue] using h2
        · simpa [returnsTrue] using h3
      | handler =>
        have hc1 := hc WorkerPc.done
        simp only [atPublish] at hc1
        simp only [workerFunc]
        refine ⟨?_, ?_, ?_⟩ <;> simp_all [returnsTrue]
      | done =>
        have hc1 := hc WorkerPc.done
        simp only [atPublish] at hc1
        simp only [workerFunc]
        refine ⟨?_, ?_, ?_⟩ <;> simp_all [returnsTrue]
  | raise i =>
    simp only [step]
    cases hget : s.workers.get? i with
    | none => exact ⟨h1, h2, h3⟩
    | some pc =>
      have hc := countP_set_add atPublish s.workers i pc WorkerPc.handler hget
      simp [atPublish] at hc
      by_cases hin : inTry pc = true
      · simp only [hin, if_true]
        refine ⟨?_, h2, h3⟩
        show (s.workers.set i WorkerPc.handler).countP atPublish + s.blockWrites.length
          ≤ s.sbfTrue
        omega
      · simp only [hin]
        exact ⟨h1, h2, h3⟩
  | stop sp =>
    simp only [step, compare_exchange_weak]
    by_cases hc : s.miner.m_state = MiningState.MINING_IN_PROGRESS ∧ sp = false
    · rw [if_pos hc]
      exact ⟨h1, h2, fun hm => by simp at hm⟩
    · rw [if_neg hc]
      exact ⟨h1, h2, h3⟩
  | spawnError =>
    simp only [step]
    exact ⟨h1, h2, fun hm => by simp at hm⟩

/-- A run keeps the invariant behind "at most one winner". -/
theorem winInv_run (H : HashPrimitives) (difficulty nonceStep : Nat)
    (schedule : List Action) :
    ∀ s, WinInv s → WinInv (run H difficulty nonceStep s schedule) := by
  induction schedule with
  | nil => intro s h; exact h
  | cons a rest ih =>
    intro s h
    exact ih _ (winInv_step H difficulty nonceStep s a h)

/-- The workers `runWorkers` creates all stand at the loop test. -/
theorem spawn_mem {tmpl : BlockTemplate} {r threadCount : Nat} {pc : WorkerPc}
    (h : pc ∈ spawn tmpl r threadCount) :
    ∃ i, pc = WorkerPc.loopTest { tmpl with nonce := (r % 2 ^ 32 + i) % 2 ^ 32 } := by
  unfold spawn at h
  rw [List.mem_map] at h
  obtain ⟨i, _, hi⟩ := h
  exact ⟨i, hi.symm⟩

theorem spawn_countP_atPublish (tmpl : BlockTemplate) (r threadCount : Nat) :
    (spawn tmpl r threadCount).countP atPublish = 0 := by
  rw [List.countP_eq_zero]
  intro pc hpc
  obtain ⟨i, rfl⟩ := spawn_mem hpc
  simp [atPublish]

/-- What one atomic step of a worker does to the facts the result of `mine` rests on. -/
theorem workerFunc_spec (H : HashPrimitives) (difficulty nonceStep body : Nat) (sp : Bool)
    (m : Miner) (pc : WorkerPc) (hok : WorkerOk H difficulty body pc) :
    WorkerOk H difficulty body (workerFunc H difficulty nonceStep sp m pc).1 ∧
    ((workerFunc H difficulty nonceStep sp m pc).2.m_state = MiningState.MINING_IN_PROGRESS →
      m.m_state = MiningState.MINING_IN_PROGRESS) ∧
    (m.m_state = MiningState.MINING_STOPPED →
      (workerFunc H difficulty nonceStep sp m pc).2.m_state = MiningState.MINING_STOPPED) ∧
    (pastProgress (workerFunc H difficulty nonceStep sp m pc).1 = true →
      (pastProgress pc = true → m.m_state ≠ MiningState.MINING_IN_PROGRESS) →
      (workerFunc H difficulty nonceStep sp m pc).2.m_state
        ≠ MiningState.MINING_IN_PROGRESS) ∧
    ((workerFunc H difficulty nonceStep sp m pc).2.m_state = MiningState.BLOCK_FOUND →
      pending (workerFunc H difficulty nonceStep sp m pc).1 = true ∨
      Solves H difficulty body (workerFunc H difficulty nonceStep sp m pc).2.m_block ∨
      (pending pc = false ∧ (workerFunc H difficulty nonceStep sp m pc).2.m_block = m.m_block
        ∧ m.m_state = MiningState.BLOCK_FOUND)) := by
  cases pc with
  | loopTest b =>
    simp only [workerFunc]
    split <;> simp_all [WorkerOk, pastProgress, pending]
  | hashing b =>
    simp only [workerFunc]
    split
    · simp_all [WorkerOk, pastProgress, pending, Solves]
    · refine ⟨⟨hok.1, Nat.mod_lt _ (by norm_num)⟩, ?_⟩
      simp_all [WorkerOk, pastProgress, pending]
  | sbfLoad b =>
    simp only [workerFunc]
    simp_all [WorkerOk, pastProgress, pending]
  | sbfSwitch b st =>
    cases st with
    | BLOCK_FOUND =>
      simp only [workerFunc, setStateBlockFound]
      simp_all [WorkerOk, pastProgress, pending]
    | MINING_STOPPED =>
      simp only [workerFunc, setStateBlockFound]
      simp_all [WorkerOk, pastProgress, pending]
    | MINING_IN_PROGRESS =>
      simp only [workerFunc, setStateBlockFound, compare_exchange_weak]
      by_cases hcas : m.m_state = MiningState.MINING_IN_PROGRESS ∧ sp = false
      · rw [if_pos hcas]
        simp_all [WorkerOk, pastProgress, pending]
      · rw [if_neg hcas]
        simp_all [WorkerOk, pastProgress, pending]
  | publish b =>
    simp only [workerFunc]
    simp_all [WorkerOk, pastProgress, pending]
  | handler =>
    simp only [workerFunc]
    simp_all [WorkerOk, pastProgress, pending]
  | done =>
    simp only [workerFunc]
    simp_all [WorkerOk, pastProgress, pending]

/-- The function `stop` in closed form: it acts only when the token is
`MINING_IN_PROGRESS` and the compare-and-swap does not fail spuriously. -/
theorem stop_eq (sp : Bool) (m : Miner) :
    Miner.stop sp m =
      if m.m_state = MiningState.MINING_IN_PROGRESS ∧ sp = false then
        ({ m with m_state := MiningState.MINING_STOPPED, m_miningStopped := false }, true)
      else (m, false) := by
  unfold Miner.stop compare_exchange_weak
  by_cases h : m.m_state = MiningState.MINING_IN_PROGRESS ∧ sp = false
  · rw [if_pos h, if_pos h]
  · rw [if_neg h, if_neg h]

/-- After an element satisfying `p` has been stored in a list, the count is positive. -/
theorem one_le_countP_set {α : Type} (p : α → Bool) :
    ∀ (l : List α) (i : Nat) (a b : α), l.get? i = some a → p b = true →
      1 ≤ (l.set i b).countP p := by
  intro l
  induction l with
  | nil => intro i a b h; simp at h
  | cons x l ih =>
    intro i a b h hb
    cases i with
    | zero =>
      simp only [List.set_cons_zero, List.countP_cons, hb, if_true]
      omega
    | succ i =>
      have := ih i a b (by simpa using h) hb
      simp only [List.set_cons_succ, List.countP_cons]
      omega

/-- Every step of a run keeps the invariant behind the result of `mine`. -/
theorem runInv_step (H : HashPrimitives) (difficulty nonceStep body : Nat) (s : RunState)
    (a : Action) (h : RunInv H difficulty body s) :
    RunInv H difficulty body (step H difficulty nonceStep s a) := by
  obtain ⟨h1, h2, h3, h4⟩ := h
  cases a with
  | worker i sp =>
    simp only [step]
    cases hget : s.workers.get? i with
    | none => exact ⟨h1, h2, h3, h4⟩
    | some pc =>
      have hmem := List.get?_mem hget
      obtain ⟨k1, k2, k3, k4, k5⟩ :=
        workerFunc_spec H difficulty nonceStep body sp s.miner pc (h1 pc hmem)
      have hc := countP_set_add pending s.workers i pc
        (workerFunc H difficulty nonceStep sp s.miner pc).1 hget
      refine ⟨?_, ?_, ?_, ?_⟩
      · intro pc1 hpc1
        rcases List.mem_or_eq_of_mem_set hpc1 with hm | hm
        · exact h1 pc1 hm
        · rw [hm]; exact k1
      · intro hf
        rcases k5 hf with k | k | k
        · left
          show 1 ≤ (s.workers.set i (workerFunc H difficulty nonceStep sp s.miner pc).1).countP
            pending
          exact one_le_countP_set pending s.workers i pc _ hget k
        · exact Or.inr k
        · rcases h2 k.2.2 with j | j
          · left
            show 1 ≤ (s.workers.set i
              (workerFunc H difficulty nonceStep sp s.miner pc).1).countP pending
            rw [k.1] at hc
            simp only [Bool.false_eq_true, if_false, Nat.add_zero] at hc
            rw [hc]
            exact Nat.le_trans j (Nat.le_add_right _ _)
          · right
            show Solves H difficulty body (workerFunc H difficulty nonceStep sp s.miner pc).2.m_block
            rw [k.2.1]; exact j
      · intro pc1 hpc1 hp
        rcases List.mem_or_eq_of_mem_set hpc1 with hm | hm
        · exact fun e => h3 pc1 hm hp (k2 e)
        · rw [hm] at hp
          exact k4 hp (h3 pc hmem)
      · intro hcaught
        exact k3 (h4 hcaught)
  | raise i =>
    simp only [step]
    cases hget : s.workers.get? i with
    | none => exact ⟨h1, h2, h3, h4⟩
    | some pc =>
      by_cases hin : inTry pc = true
      · simp only [hin, if_true]
        refine ⟨?_, ?_, ?_, h4⟩
        · intro pc1 hpc1
          rcases List.mem_or_eq_of_mem_set hpc1 with hm | hm
          · exact h1 pc1 hm
          · rw [hm]; exact True.intro
        · intro _
          left
          show 1 ≤ (s.workers.set i WorkerPc.handler).countP pending
          exact one_le_countP_set pending s.workers i pc _ hget rfl
        · intro pc1 hpc1 hp
          rcases List.mem_or_eq_of_mem_set hpc1 with hm | hm
          · exact h3 pc1 hm hp
          · rw [hm] at hp; simp [pastProgress] at hp
      · simp only [hin]
        exact ⟨h1, h2, h3, h4⟩
  | stop sp =>
    simp only [step, compare_exchange_weak]
    by_cases hc : s.miner.m_state = MiningState.MINING_IN_PROGRESS ∧ sp = false
    · rw [if_pos hc]
      refine ⟨h1, fun hf => by simp at hf, fun _ _ _ => by simp, fun _ => rfl⟩
    · rw [if_neg hc]
      exact ⟨h1, h2, h3, h4⟩
  | spawnError =>
    simp only [step]
    exact ⟨h1, fun hf => by simp at hf, fun _ _ _ => by simp, fun _ => rfl⟩

/-- A run keeps the invariant behind the result of `mine`. -/
theorem runInv_run (H : HashPrimitives) (difficulty nonceStep body : Nat)
    (schedule : List Action) :
    ∀ s, RunInv H difficulty body s →
      RunInv H difficulty body (run H difficulty nonceStep s schedule) := by
  induction schedule with
  | nil => intro s h; exact h
  | cons a rest ih =>
    intro s h
    exact ih _ (runInv_step H difficulty nonceStep body s a h)

/-- The acquire loop of `mine` is left only with the token at `MINING_IN_PROGRESS`. -/
theorem mineAcquire_state (spurious : List Bool) :
    ∀ (cell expected : MiningState) (n : Nat) (c : MiningState),
      Miner.mineAcquire cell expected spurious = some (n, c) →
      c = MiningState.MINING_IN_PROGRESS := by
  induction spurious with
  | nil => intro cell expected n c h; simp [Miner.mineAcquire] at h
  | cons sp rest ih =>
    intro cell expected n c h
    simp only [Miner.mineAcquire, compare_exchange_weak] at h
    by_cases hc : cell = expected ∧ sp = false
    · rw [if_pos hc] at h
      simp only [Option.some.injEq, Prod.mk.injEq] at h
      exact h.2.symm
    · rw [if_neg hc] at h
      simp only [Option.map_eq_some'] at h
      obtain ⟨⟨n1, c1⟩, hrec, heq⟩ := h
      simp only [Prod.mk.injEq] at heq
      rw [← heq.2]
      exact ih cell cell n1 c1 hrec

/-- The run of `runWorkers` starts inside the invariant when the token is
`MINING_IN_PROGRESS`. -/
theorem runInv_start (H : HashPrimitives) (difficulty : Nat) (m : Miner)
    (tmpl : BlockTemplate) (r threadCount : Nat)
    (hm : m.m_state = MiningState.MINING_IN_PROGRESS) :
    RunInv H difficulty tmpl.body (runWorkersStart m tmpl r threadCount) := by
  refine ⟨?_, ?_, ?_, ?_⟩
  · intro pc hpc
    obtain ⟨i, rfl⟩ := spawn_mem hpc
    exact ⟨rfl, Nat.mod_lt _ (by norm_num)⟩
  · intro hf
    simp [runWorkersStart, hm] at hf
  · intro pc hpc hp
    obtain ⟨i, rfl⟩ := spawn_mem hpc
    simp [pastProgress] at hp
  · intro hcaught
    simp [runWorkersStart] at hcaught

/-- No step of a run creates or removes a worker. -/
theorem step_length (H : HashPrimitives) (difficulty nonceStep : Nat) (s : RunState)
    (a : Action) : (step H difficulty nonceStep s a).workers.length = s.workers.length := by
  cases a with
  | worker i sp =>
    simp only [step]
    cases s.workers.get? i <;> simp
  | raise i =>
    simp only [step]
    cases s.workers.get? i with
    | none => rfl
    | some pc => by_cases hin : inTry pc = true <;> simp [hin]
  | stop sp => rfl
  | spawnError => rfl

theorem run_length (H : HashPrimitives) (difficulty nonceStep : Nat)
    (schedule : List Action) :
    ∀ s, (run H difficulty nonceStep s schedule).workers.length = s.workers.length := by
  induction schedule with
  | nil => intro s; rfl
  | cons a rest ih =>
    intro s
    exact (ih _).trans (step_length H difficulty nonceStep s a)

/-- Once `runWorkers` can return from a run with at least one worker, the token is not
`MINING_IN_PROGRESS`, and if it is `BLOCK_FOUND` then `m_block` holds a block that differs
from the template in the nonce only and passes `check_hash`. -/
theorem returned_state (H : HashPrimitives) (difficulty body : Nat) (s : RunState)
    (hinv : RunInv H difficulty body s) (hret : runWorkersReturned s = true)
    (hlen : s.workers.length ≠ 0) :
    s.miner.m_state ≠ MiningState.MINING_IN_PROGRESS ∧
    (s.miner.m_state = MiningState.BLOCK_FOUND → Solves H difficulty body s.miner.m_block) := by
  unfold runWorkersReturned at hret
  rw [Bool.or_eq_true] at hret
  rcases hret with hc | hall
  · have hs := hinv.caught_stopped hc
    exact ⟨by rw [hs]; simp, fun hf => by rw [hs] at hf; simp at hf⟩
  · rw [List.all_eq_true] at hall
    have hdone : ∀ pc, pc ∈ s.workers → pc = WorkerPc.done := by
      intro pc hpc
      have := hall pc hpc
      simpa using this
    refine ⟨?_, ?_⟩
    · obtain ⟨pc, hpc⟩ := List.exists_mem_of_length_pos (Nat.pos_of_ne_zero hlen)
      have hp : pastProgress pc = true := by rw [hdone pc hpc]; rfl
      exact hinv.past pc hpc hp
    · intro hf
      rcases hinv.found_block hf with h | h
      · exfalso
        have h0 : s.workers.countP pending = 0 := by
          rw [List.countP_eq_zero]
          intro pc hpc
          rw [hdone pc hpc]
          simp [pending]
        omega
      · exact h

/-- The anatomy of a call of `mine` that returns after running workers: the run kept the
invariant, `runWorkers` could return, and the result is read off the final token. -/
theorem mine_returned (H : HashPrimitives) (ndebug : Bool) (m : Miner) (tmpl : BlockTemplate)
    (difficulty threadCount r : Nat) (spurious : List Bool) (schedule : List Action)
    (res : MineResult) (s : RunState) (hT : threadCount ≠ 0)
    (h : Miner.mine H ndebug m tmpl difficulty threadCount r spurious schedule
      = some (res, s)) :
    res = Miner.mineFinish ndebug s.miner ∧
    s.miner.m_state ≠ MiningState.MINING_IN_PROGRESS ∧
    (s.miner.m_state = MiningState.BLOCK_FOUND →
      Solves H difficulty tmpl.body s.miner.m_block) := by
  unfold Miner.mine at h
  rw [if_neg hT] at h
  cases hacq : Miner.mineAcquire m.m_state MiningState.MINING_STOPPED spurious with
  | none => rw [hacq] at h; simp at h
  | some nc =>
    obtain ⟨n, cell⟩ := nc
    rw [hacq] at h
    simp only at h
    have hcell := mineAcquire_state spurious _ _ n cell hacq
    have hinv := runInv_run H difficulty (threadCount % 2 ^ 32) tmpl.body schedule _
      (runInv_start H difficulty
        { m with m_state := cell, m_miningStopped := false } tmpl r threadCount hcell)
    have hlen := run_length H difficulty (threadCount % 2 ^ 32) schedule
      (runWorkersStart { m with m_state := cell, m_miningStopped := false } tmpl r threadCount)
    have hlen0 : (runWorkersStart { m with m_state := cell, m_miningStopped := false }
        tmpl r threadCount).workers.length = threadCount := by
      simp [runWorkersStart, spawn]
    split at h
    · rename_i hret
      simp only [Option.some.injEq, Prod.mk.injEq] at h
      obtain ⟨h1, h2⟩ := h
      have hst := returned_state H difficulty tmpl.body _ hinv hret (by rw [hlen, hlen0]; exact hT)
      subst h2
      exact ⟨h1.symm, hst.1, hst.2⟩
    · simp at h

/-- C5, evaluated on a miner whose token is `MINING_IN_PROGRESS` (a run is in flight) while
no other thread changes it and no compare-and-swap fails spuriously: the first attempt
fails and overwrites the local `state`, and the second attempt succeeds, so the loop is left
after two attempts and `runWorkers` is entered although the token never was
`MINING_STOPPED`.  From `BLOCK_FOUND` the second attempt moves the token to
`MINING_IN_PROGRESS` in the same way. -/
theorem mineAcquire_enters_while_in_progress :
    Miner.mineAcquire MiningState.MINING_IN_PROGRESS MiningState.MINING_STOPPED [false] = none
    ∧ Miner.mineAcquire MiningState.MINING_IN_PROGRESS MiningState.MINING_STOPPED
        [false, false] = some (2, MiningState.MINING_IN_PROGRESS)
    ∧ Miner.mineAcquire MiningState.BLOCK_FOUND MiningState.MINING_STOPPED
        [false, false] = some (2, MiningState.MINING_IN_PROGRESS) := by
  decide

/-- C6: in a mining run with any number of workers, under every schedule of their atomic
steps, of exceptions inside them, of `stop()` calls and of the `catch` block of
`runWorkers`, at most one call of `setStateBlockFound` returns `true` and `m_block` is
written at most once. -/
theorem setStateBlockFound_true_at_most_once (H : HashPrimitives)
    (difficulty nonceStep : Nat) (m : Miner) (tmpl : BlockTemplate) (r threadCount : Nat)
    (schedule : List Action) :
    (run H difficulty nonceStep (runWorkersStart m tmpl r threadCount) schedule).sbfTrue ≤ 1
    ∧ (run H difficulty nonceStep
        (runWorkersStart m tmpl r threadCount) schedule).blockWrites.length ≤ 1 := by
  have h0 : WinInv (runWorkersStart m tmpl r threadCount) := by
    refine ⟨?_, ?_, ?_⟩
    · simp [runWorkersStart, spawn_countP_atPublish]
    · simp [runWorkersStart]
    · intro _; rfl
  have h := winInv_run H difficulty nonceStep schedule _ h0
  exact ⟨h.win_le, by have := h.count_le; have := h.win_le; omega⟩

/-- The bound of C6 is attained: with two workers of which the first finds the block, one
call returns `true` and worker 0 writes `m_block`. -/
theorem setStateBlockFound_true_reached :
    (run nonceHash 5 2
      (runWorkersStart ⟨MiningState.MINING_IN_PROGRESS, ⟨0, 0⟩, false, 0⟩ ⟨0, 7⟩ 5 2)
      [Action.worker 0 false, Action.worker 0 false, Action.worker 1 false,
       Action.worker 0 false, Action.worker 0 false, Action.worker 0 false]).sbfTrue = 1
    ∧ (run nonceHash 5 2
      (runWorkersStart ⟨MiningState.MINING_IN_PROGRESS, ⟨0, 0⟩, false, 0⟩ ⟨0, 7⟩ 5 2)
      [Action.worker 0 false, Action.worker 0 false, Action.worker 1 false,
       Action.worker 0 false, Action.worker 0 false, Action.worker 0 false]).blockWrites
      = [0] := by
  decide

/-- C8: after `runWorkers` has returned, `mine` returns a block exactly when the token is
`BLOCK_FOUND`, and the block is `m_block`; it raises `InterruptedException` exactly when the
token is `MINING_STOPPED`; with or without the `assert`s compiled in. -/
theorem mine_result_iff_state (H : HashPrimitives) (ndebug : Bool) (m : Miner)
    (tmpl : BlockTemplate) (difficulty threadCount r : Nat) (spurious : List Bool)
    (schedule : List Action) (res : MineResult) (s : RunState) (hT : threadCount ≠ 0)
    (h : Miner.mine H ndebug m tmpl difficulty threadCount r spurious schedule
      = some (res, s)) :
    (∀ b, res = MineResult.block b ↔
      (s.miner.m_state = MiningState.BLOCK_FOUND ∧ b = s.miner.m_block)) ∧
    (res = MineResult.InterruptedException ↔
      s.miner.m_state = MiningState.MINING_STOPPED) := by
  obtain ⟨hres, hnot, _⟩ :=
    mine_returned H ndebug m tmpl difficulty threadCount r spurious schedule res s hT h
  unfold Miner.mineFinish at hres
  cases hs : s.miner.m_state with
  | MINING_STOPPED => rw [hs] at hres; simp at hres; simp [hres]
  | MINING_IN_PROGRESS => exact absurd hs hnot
  | BLOCK_FOUND =>
    rw [hs] at hres
    simp at hres
    subst hres
    simp [eq_comm]

/-- C9, evaluated on a miner whose token is `MINING_IN_PROGRESS` when the one weak
compare-and-swap of `stop()` fails spuriously: `stop()` returns with the token still
`MINING_IN_PROGRESS`, the miner unchanged, and without waiting on the event. -/
theorem stop_spurious_failure (b : BlockTemplate) (e : Bool) (n : Nat) :
    Miner.stop true
      { m_state := MiningState.MINING_IN_PROGRESS, m_block := b, m_miningStopped := e,
        m_hashCount := n }
    = ({ m_state := MiningState.MINING_IN_PROGRESS, m_block := b, m_miningStopped := e,
         m_hashCount := n }, false) := by
  rfl

/-- When its compare-and-swap does not fail spuriously, `stop()` called with the token at
`MINING_IN_PROGRESS` stores `MINING_STOPPED`, waits on the event and clears it. -/
theorem stop_in_progress (m : Miner) (h : m.m_state = MiningState.MINING_IN_PROGRESS) :
    Miner.stop false m
      = ({ m with m_state := MiningState.MINING_STOPPED, m_miningStopped := false }, true) := by
  rw [stop_eq, if_pos ⟨h, rfl⟩]

/-- C10: `stop()` called while the token is `MINING_STOPPED` or `BLOCK_FOUND` changes
nothing (token, `m_block`, event) and does not wait, whether or not its compare-and-swap
fails spuriously. -/
theorem stop_noop (sp : Bool) (m : Miner)
    (h : m.m_state = MiningState.MINING_STOPPED ∨ m.m_state = MiningState.BLOCK_FOUND) :
    Miner.stop sp m = (m, false) := by
  rw [stop_eq, if_neg]
  rintro ⟨hm, _⟩
  rcases h with h | h <;> rw [hm] at h <;> simp at h

/-- C8 at work: one worker and a `stop()` call that wins; `mine` raises
`InterruptedException` with the token at `MINING_STOPPED`, the `assert`s compiled out. -/
theorem mine_result_iff_state_witness :
    (1 ≠ 0)
    ∧ Miner.mine nonceHash true restingMiner ⟨0, 7⟩ 5 1 3 [true, false] stoppedSchedule
      = some (MineResult.InterruptedException,
          { miner := { m_state := MiningState.MINING_STOPPED, m_block := ⟨0, 0⟩,
                       m_miningStopped := true, m_hashCount := 1 }
            workers := [WorkerPc.done]
            sbfTrue := 0
            blockWrites := []
            caught := false })
    ∧ ((∀ b, MineResult.InterruptedException = MineResult.block b ↔
        (MiningState.MINING_STOPPED = MiningState.BLOCK_FOUND ∧ b = ⟨0, 0⟩))
      ∧ (MineResult.InterruptedException = MineResult.InterruptedException ↔
        MiningState.MINING_STOPPED = MiningState.MINING_STOPPED)) :=
  ⟨by decide, by decide,
   mine_result_iff_state nonceHash true restingMiner ⟨0, 7⟩ 5 1 3 [true, false]
     stoppedSchedule MineResult.InterruptedException
     { miner := { m_state := MiningState.MINING_STOPPED, m_block := ⟨0, 0⟩,
                  m_miningStopped := true, m_hashCount := 1 }
       workers := [WorkerPc.done]
       sbfTrue := 0
       blockWrites := []
       caught := false }
     (by decide) (by decide)⟩

/-- C10 at work on a miner at rest, with a compare-and-swap that would fail spuriously. -/
theorem stop_noop_witness :
    (restingMiner.m_state = MiningState.MINING_STOPPED
      ∨ restingMiner.m_state = MiningState.BLOCK_FOUND)
    ∧ Miner.stop true restingMiner = (restingMiner, false) :=
  ⟨Or.inl rfl, stop_noop true restingMiner (Or.inl rfl)⟩

end CryptoNote

/-! ## The mining run: transitions of the token and the outcomes of `mine` -/

namespace CryptoNote

/-- No step of a run leaves `MINING_STOPPED`. -/
theorem step_stopped (H : HashPrimitives) (difficulty nonceStep : Nat) (s : RunState)
    (a : Action) (h : s.miner.m_state = MiningState.MINING_STOPPED) :
    (step H difficulty nonceStep s a).miner.m_state = MiningState.MINING_STOPPED := by
  cases a with
  | worker i sp =>
    simp only [step]
    cases hget : s.workers.get? i with
    | none => exact h
    | some pc =>
      cases pc with
      | sbfSwitch b st =>
        cases st <;> simp [workerFunc, setStateBlockFound, compare_exchange_weak, h]
      | loopTest b => simp only [workerFunc]; split <;> exact h
      | hashing b => simp only [workerFunc]; split <;> exact h
      | sbfLoad b => exact h
      | publish b => exact h
      | handler => rfl
      | done => exact h
  | raise i =>
    simp only [step]
    cases s.workers.get? i with
    | none => exact h
    | some pc => by_cases hin : inTry pc = true <;> simp [hin, h]
  | stop sp => simp [step, compare_exchange_weak, h]
  | spawnError => rfl

/-- No run leaves `MINING_STOPPED`. -/
theorem run_stopped (H : HashPrimitives) (difficulty nonceStep : Nat)
    (schedule : List Action) :
    ∀ s : RunState, s.miner.m_state = MiningState.MINING_STOPPED →
      (run H difficulty nonceStep s schedule).miner.m_state = MiningState.MINING_STOPPED := by
  induction schedule with
  | nil => intro s h; exact h
  | cons a rest ih =>
    intro s h
    exact ih _ (step_stopped H difficulty nonceStep s a h)

/-- With the token at `MINING_STOPPED`, the end of `mine` raises `InterruptedException`. -/
theorem mineFinish_stopped (ndebug : Bool) (m : Miner)
    (h : m.m_state = MiningState.MINING_STOPPED) :
    Miner.mineFinish ndebug m = MineResult.InterruptedException := by
  simp [Miner.mineFinish, h]


/-- C11, as the code has it: within a run the token moves only
`MINING_IN_PROGRESS -> BLOCK_FOUND`, `MINING_IN_PROGRESS -> MINING_STOPPED` and, in the
store of a `catch` block (of `workerFunc` or of `runWorkers`),
`BLOCK_FOUND -> MINING_STOPPED`; it never returns to `MINING_IN_PROGRESS`, and once it is
`BLOCK_FOUND` no step of `stop()` and no step of a worker outside a `catch` block
changes it. -/
theorem step_transition (H : HashPrimitives) (difficulty nonceStep : Nat) (s : RunState)
    (a : Action) :
    ((step H difficulty nonceStep s a).miner.m_state = s.miner.m_state
      ∨ (s.miner.m_state = MiningState.MINING_IN_PROGRESS
          ∧ (step H difficulty nonceStep s a).miner.m_state = MiningState.BLOCK_FOUND)
      ∨ (s.miner.m_state = MiningState.MINING_IN_PROGRESS
          ∧ (step H difficulty nonceStep s a).miner.m_state = MiningState.MINING_STOPPED)
      ∨ (s.miner.m_state = MiningState.BLOCK_FOUND
          ∧ (step H difficulty nonceStep s a).miner.m_state = MiningState.MINING_STOPPED
          ∧ catchStep s a = true))
    ∧ (s.miner.m_state = MiningState.BLOCK_FOUND → catchStep s a = false →
        (step H difficulty nonceStep s a).miner.m_state = MiningState.BLOCK_FOUND) := by
  cases a with
  | worker i sp =>
    simp only [step, catchStep]
    cases hget : s.workers.get? i with
    | none => simp
    | some pc =>
      cases pc with
      | sbfSwitch b st =>
        cases st <;> cases hs : s.miner.m_state <;> cases sp <;>
          simp [workerFunc, setStateBlockFound, compare_exchange_weak, hs]
      | loopTest b => simp only [workerFunc]; split <;> simp
      | hashing b => simp only [workerFunc]; split <;> simp
      | sbfLoad b => simp [workerFunc]
      | publish b => simp [workerFunc]
      | handler => cases hs : s.miner.m_state <;> simp [workerFunc, hs]
      | done => simp [workerFunc]
  | raise i =>
    simp only [step, catchStep]
    cases s.workers.get? i with
    | none => simp
    | some pc => by_cases hin : inTry pc = true <;> simp [hin]
  | stop sp =>
    cases hs : s.miner.m_state <;> cases sp <;>
      simp [step, catchStep, compare_exchange_weak, hs]
  | spawnError =>
    cases hs : s.miner.m_state <;> simp [step, catchStep, hs]

/-- C11 as stated fails: with two workers, worker 0 finds the block (its
`setStateBlockFound` returns `true`, the token is `BLOCK_FOUND` and `m_block` is written),
then worker 1 fails with an exception and its `catch` block stores `MINING_STOPPED`; `mine`
reads `MINING_STOPPED` and raises `InterruptedException`. -/
theorem block_found_not_terminal :
    (run nonceHash 5 2
        (runWorkersStart ⟨MiningState.MINING_IN_PROGRESS, ⟨0, 0⟩, false, 0⟩ ⟨0, 7⟩ 3 2)
        (lostBlockSchedule.take 8)).sbfTrue = 1
    ∧ (run nonceHash 5 2
        (runWorkersStart ⟨MiningState.MINING_IN_PROGRESS, ⟨0, 0⟩, false, 0⟩ ⟨0, 7⟩ 3 2)
        (lostBlockSchedule.take 8)).miner.m_state = MiningState.BLOCK_FOUND
    ∧ Miner.mine nonceHash false restingMiner ⟨0, 7⟩ 5 2 3 [false] lostBlockSchedule
      = some (MineResult.InterruptedException,
          { miner := { m_state := MiningState.MINING_STOPPED, m_block := ⟨5, 7⟩,
                       m_miningStopped := true, m_hashCount := 2 }
            workers := [WorkerPc.done, WorkerPc.done]
            sbfTrue := 1
            blockWrites := [0]
            caught := false }) := by
  decide

/-- C12, as the code has it: after a `stop()` whose compare-and-swap succeeds, and after
the `catch` block of a worker that failed with an exception, whatever follows in the run,
the token is `MINING_STOPPED` and the end of `mine` raises the same
`InterruptedException`. -/
theorem interrupted_after_stop_or_failure (H : HashPrimitives)
    (difficulty nonceStep : Nat) (ndebug : Bool) (s : RunState) (schedule : List Action) :
    (s.miner.m_state = MiningState.MINING_IN_PROGRESS →
      Miner.mineFinish ndebug
        (run H difficulty nonceStep (step H difficulty nonceStep s (Action.stop false))
          schedule).miner = MineResult.InterruptedException)
    ∧ (∀ i sp, s.workers.get? i = some WorkerPc.handler →
      Miner.mineFinish ndebug
        (run H difficulty nonceStep (step H difficulty nonceStep s (Action.worker i sp))
          schedule).miner = MineResult.InterruptedException) := by
  refine ⟨fun h => ?_, fun i sp h => ?_⟩
  · apply mineFinish_stopped
    apply run_stopped
    simp [step, compare_exchange_weak, h]
  · apply mineFinish_stopped
    apply run_stopped
    simp only [step, h, workerFunc]

/-- C12 as stated fails: a run ended by a caller's `stop()` and a run ended by a worker's
exception make `mine` surface the same outcome, `InterruptedException`. -/
theorem stop_and_failure_same_outcome :
    (Miner.mine nonceHash false restingMiner ⟨0, 7⟩ 5 1 3 [false] stoppedSchedule).map
        Prod.fst = some MineResult.InterruptedException
    ∧ (Miner.mine nonceHash false restingMiner ⟨0, 7⟩ 5 1 3 [false] failedSchedule).map
        Prod.fst = some MineResult.InterruptedException := by
  decide

/-- C17: `mine` called with `threadCount == 0` ends with the runtime error, whatever the
token holds and whatever the compare-and-swap or the scheduler would do: the miner (token,
`m_block`, event) is unchanged and no worker exists. -/
theorem mine_zero_threads (H : HashPrimitives) (ndebug : Bool) (m : Miner)
    (tmpl : BlockTemplate) (difficulty r : Nat) (spurious : List Bool)
    (schedule : List Action) :
    Miner.mine H ndebug m tmpl difficulty 0 r spurious schedule
      = some (MineResult.runtime_error,
          { miner := m, workers := [], sbfTrue := 0, blockWrites := [], caught := false }) := by
  rfl

end CryptoNote

/-! ## The loop nests of the search workers -/

namespace AddressGenerator

/-- One level of a loop nest, `for (x : xs) { lane = f x; inner } lane = v; last`, keeps an
invariant that its parts keep. -/
theorem Triple.nest {σ : Type} {inv post ret : σ → Prop} (set : Nat → Stmt σ)
    (f : Nat → Nat) (v : Nat) (inner last : Stmt σ) (xs : List Nat)
    (hset : ∀ u, Triple inv (set u) inv ret) (hinner : Triple inv inner inv ret)
    (hlast : Triple inv last post ret) :
    Triple inv
      (Stmt.seq (AddressGenerator.forLoop (fun x => Stmt.seq (set (f x)) inner) xs)
        (Stmt.seq (set v) last))
      post ret :=
  Triple.seq (Triple.forLoop xs (fun x _ => Triple.seq (hset (f x)) hinner))
    (Triple.seq (hset v) hlast)

/-- One level of a loop nest whose first iteration is looked at separately. -/
theorem Triple.nest_first {σ : Type} {pre mid inv post ret : σ → Prop} (set : Nat → Stmt σ)
    (f : Nat → Nat) (v : Nat) (inner last : Stmt σ) (x0 : Nat) (xs : List Nat)
    (hfirst : Triple pre (set (f x0)) mid ret) (hinner0 : Triple mid inner inv ret)
    (hset : ∀ u, Triple inv (set u) inv ret) (hinner : Triple inv inner inv ret)
    (hlast : Triple inv last post ret) :
    Triple pre
      (Stmt.seq (AddressGenerator.forLoop (fun x => Stmt.seq (set (f x)) inner) (x0 :: xs))
        (Stmt.seq (set v) last))
      post ret :=
  Triple.seq
    (Triple.seq (Triple.seq hfirst hinner0)
      (Triple.forLoop xs (fun x _ => Triple.seq (hset (f x)) hinner)))
    (Triple.seq (hset v) hlast)

/-- The acceptance test of the exact search in closed form. -/
theorem check_address_eq (P : Primitives) (address : List Char) (k : keys)
    (s : AddressSearch) :
    check_address P address (k, s) =
      if accepts P address k = true then
        (true, (k, { s with calls := s.calls ++ [k],
                            printed := s.printed ++ [(k.spendQuads, k.viewQuads)] }))
      else (false, (k, { s with calls := s.calls ++ [k] })) := by
  unfold check_address accepts
  simp only
  cases P.secret_key_to_public_key k.viewQuads with
  | none => simp
  | some v =>
    cases P.secret_key_to_public_key k.spendQuads with
    | none => simp
    | some sp =>
      by_cases h : address = P.accountAddressAsString sp v <;> simp [h]

/-- The acceptance test of the prefix search in closed form. -/
theorem check_address_prefix_eq (P : Primitives) (pfx : List Char) (count : Int) (k : keys)
    (s : PrefixSearch) :
    ( check_address_prefix P pfx count (k, s)) =
      if s.found = count then (true, (k, { s with calls := s.calls ++ [k.spendQuads] }))
      else if discovers P pfx k.spendQuads = true then
        (false, ({ k with viewQuads := (P.generateViewFromSpend k.spendQuads).1 },
          { found := s.found + 1,
            printed := s.printed ++
              [((match P.secret_key_to_public_key k.spendQuads with
                  | some pk => P.accountAddressAsString pk (P.generateViewFromSpend k.spendQuads).2
                  | none => []),
                k.spendQuads, (P.generateViewFromSpend k.spendQuads).1)],
            calls := s.calls ++ [k.spendQuads] }))
      else
        (false, ((match P.secret_key_to_public_key k.spendQuads with
                  | some _ => { k with viewQuads := (P.generateViewFromSpend k.spendQuads).1 }
                  | none => k),
          { s with calls := s.calls ++ [k.spendQuads] })) := by
  unfold check_address_prefix discovers
  simp only
  by_cases hf : s.found = count
  · simp [hf]
  · simp only [hf, if_false]
    cases P.secret_key_to_public_key k.spendQuads with
    | none => simp
    | some pk =>
      by_cases h : (P.accountAddressAsString pk (P.generateViewFromSpend k.spendQuads).2).take
          pfx.length = pfx <;> simp [h]


/-- The exact search never assigns the flag `found`: it has the same value after
`address_worker` as before. -/
theorem address_worker_body_found (P : Primitives) (w : Nat) (address : List Char)
    (startKeys : keys) (lastV : Nat) (as : List Nat) (f0 : Bool) :
    Triple (fun ks : keys × AddressSearch => ks.2.found = f0)
      (address_worker_body P w address startKeys lastV as)
      (fun ks => ks.2.found = f0) (fun ks => ks.2.found = f0) := by
  have hcheck : Triple (fun ks : keys × AddressSearch => ks.2.found = f0)
      (check_address P address) (fun ks => ks.2.found = f0) (fun ks => ks.2.found = f0) := by
    intro ks h
    obtain ⟨k, s⟩ := ks
    rw [check_address_eq]
    split <;> exact ⟨fun _ => h, fun _ => h⟩
  have hvoid : Triple (fun ks : keys × AddressSearch => ks.2.found = f0)
      (Stmt.void (check_address P address)) (fun ks => ks.2.found = f0)
      (fun ks => ks.2.found = f0) :=
    Triple.weaken (Triple.void hcheck) (fun _ h => h) (fun _ h => h.elim id id)
  have hfr : ∀ c : Stmt (keys × AddressSearch), (∀ ks, (c ks).1 = false) →
      (∀ ks, (c ks).2.2 = ks.2) →
      Triple (fun ks : keys × AddressSearch => ks.2.found = f0) c
        (fun ks => ks.2.found = f0) (fun ks => ks.2.found = f0) :=
    fun c hc h2 => Triple.assign hc (fun ks h => by rw [h2]; exact h)
  have l7 := Triple.nest setSpend0 (fun x => laneAt P w x startKeys.spendQuads.q0)
    (laneBefore P w startKeys.spendQuads.q0) (check_address P address)
    (check_address P address) (countUp w)
    (fun u => hfr (setSpend0 u) (fun _ => rfl) (fun _ => rfl)) hcheck hcheck
  have l6 := Triple.nest setSpend1 (fun x => laneAt P w x startKeys.spendQuads.q1)
    (laneBefore P w startKeys.spendQuads.q1) _ (check_address P address) (countUp w)
    (fun u => hfr (setSpend1 u) (fun _ => rfl) (fun _ => rfl)) l7 hcheck
  have l5 := Triple.nest setSpend2 (fun x => laneAt P w x startKeys.spendQuads.q2)
    (laneBefore P w startKeys.spendQuads.q2) _ (check_address P address) (countUp w)
    (fun u => hfr (setSpend2 u) (fun _ => rfl) (fun _ => rfl)) l6 hcheck
  have l4 := Triple.nest setSpend3 (fun x => laneAt P w x startKeys.spendQuads.q3)
    (laneBefore P w startKeys.spendQuads.q3) _ (check_address P address) (countUp w)
    (fun u => hfr (setSpend3 u) (fun _ => rfl) (fun _ => rfl)) l5 hcheck
  have l3 := Triple.nest setView0 (fun x => laneAt P w x startKeys.viewQuads.q0)
    (laneBefore P w startKeys.viewQuads.q0) _ (check_address P address) (countUp w)
    (fun u => hfr (setView0 u) (fun _ => rfl) (fun _ => rfl)) l4 hcheck
  have l2 := Triple.nest setView1 (fun x => laneAt P w x startKeys.viewQuads.q1)
    (laneBefore P w startKeys.viewQuads.q1) _ (check_address P address) (countUp w)
    (fun u => hfr (setView1 u) (fun _ => rfl) (fun _ => rfl)) l3 hcheck
  have l1 := Triple.nest setView2 (fun x => laneAt P w x startKeys.viewQuads.q2)
    (laneBefore P w startKeys.viewQuads.q2) _ (check_address P address) (countUp w)
    (fun u => hfr (setView2 u) (fun _ => rfl) (fun _ => rfl)) l2 hcheck
  exact Triple.nest setView3 (fun x => laneAt P w x startKeys.viewQuads.q3)
    (laneAt P w lastV startKeys.viewQuads.q3) _ (Stmt.void (check_address P address)) as
    (fun u => hfr (setView3 u) (fun _ => rfl) (fun _ => rfl)) l1 hvoid


/-- A key pair that agrees with `F` on all eight lanes is `F`. -/
theorem eq_of_agree {F k : keys} (h : Agree F k 8) : k = F := by
  obtain ⟨⟨a0, a1, a2, a3⟩, ⟨b0, b1, b2, b3⟩⟩ := k
  obtain ⟨⟨c0, c1, c2, c3⟩, ⟨d0, d1, d2, d3⟩⟩ := F
  simp only [Agree, laneOf] at h
  obtain ⟨⟨⟨⟨⟨⟨⟨⟨_, h0⟩, h1⟩, h2⟩, h3⟩, h4⟩, h5⟩, h6⟩, h7⟩ := h
  subst h0 h1 h2 h3 h4 h5 h6 h7
  rfl

/-- When the strided loop and the plain loops of `address_worker` start at offset 0, the
first key pair handed to `check_address` has every lane at offset 0 from the start keys,
and if that key pair is accepted the worker returns at once, having printed it. -/
theorem address_worker_body_first (P : Primitives) (w : Nat) (address : List Char)
    (startKeys : keys) (lastV : Nat) (as cs : List Nat) (s0 : AddressSearch)
    (hcu : countUp w = 0 :: cs) :
    Triple (fun ks : keys × AddressSearch => ks.2 = s0)
      (address_worker_body P w address startKeys lastV (0 :: as))
      (fun ks => StartedWith P address s0 (firstKeys P w startKeys) ks.2)
      (fun ks => StartedWith P address s0 (firstKeys P w startKeys) ks.2) := by
  generalize hF : firstKeys P w startKeys = F
  have hlane : ∀ n, laneOf F n = laneOf (firstKeys P w startKeys) n := by
    intro n; rw [hF]
  -- after the first call, when it was not accepted
  have hcheck : Triple
      (fun ks : keys × AddressSearch =>
        (∃ rest, ks.2.calls = s0.calls ++ F :: rest) ∧ accepts P address F = false)
      (check_address P address)
      (fun ks => (∃ rest, ks.2.calls = s0.calls ++ F :: rest) ∧ accepts P address F = false)
      (fun ks => StartedWith P address s0 F ks.2) := by
    intro ks h
    obtain ⟨k, s⟩ := ks
    obtain ⟨⟨rest, hr⟩, hna⟩ := h
    have hc : ∃ rest1, s.calls ++ [k] = s0.calls ++ F :: rest1 :=
      ⟨rest ++ [k], by simp only at hr; rw [hr]; simp⟩
    rw [check_address_eq]
    split
    · exact ⟨fun hf => by simp at hf, fun _ => ⟨hc, fun ha => by rw [hna] at ha; simp at ha⟩⟩
    · exact ⟨fun _ => ⟨hc, hna⟩, fun hf => by simp at hf⟩
  have hvoid : Triple
      (fun ks : keys × AddressSearch =>
        (∃ rest, ks.2.calls = s0.calls ++ F :: rest) ∧ accepts P address F = false)
      (Stmt.void (check_address P address))
      (fun ks => StartedWith P address s0 F ks.2) (fun ks => StartedWith P address s0 F ks.2) :=
    Triple.weaken (Triple.void hcheck) (fun _ h => h)
      (fun _ h => h.elim (fun h1 => ⟨h1.1, fun ha => by rw [h1.2] at ha; simp at ha⟩) id)
  have hfr : ∀ c : Stmt (keys × AddressSearch), (∀ ks, (c ks).1 = false) →
      (∀ ks, (c ks).2.2 = ks.2) →
      Triple
        (fun ks : keys × AddressSearch =>
          (∃ rest, ks.2.calls = s0.calls ++ F :: rest) ∧ accepts P address F = false)
        c
        (fun ks => (∃ rest, ks.2.calls = s0.calls ++ F :: rest) ∧ accepts P address F = false)
        (fun ks => StartedWith P address s0 F ks.2) :=
    fun c hc h2 => Triple.assign hc (fun ks h => by rw [h2]; exact h)
  -- the first call
  have hcheck0 : Triple
      (fun ks : keys × AddressSearch => ks.2 = s0 ∧ Agree F ks.1 8)
      (check_address P address)
      (fun ks => (∃ rest, ks.2.calls = s0.calls ++ F :: rest) ∧ accepts P address F = false)
      (fun ks => StartedWith P address s0 F ks.2) := by
    intro ks h
    obtain ⟨k, s⟩ := ks
    obtain ⟨hs, hk⟩ := h
    have hk1 : k = F := eq_of_agree hk
    simp only at hs
    subst hs hk1
    rw [check_address_eq]
    by_cases ha : accepts P address k = true
    · rw [if_pos ha]
      exact ⟨fun hf => by simp at hf, fun _ => ⟨⟨[], rfl⟩, fun _ => ⟨rfl, rfl⟩⟩⟩
    · rw [if_neg ha]
      exact ⟨fun _ => ⟨⟨[], rfl⟩, by simpa using ha⟩, fun hf => by simp at hf⟩
  -- the stores before the first call
  have hst : ∀ (n : Nat) (c : Stmt (keys × AddressSearch)), (∀ ks, (c ks).1 = false) →
      (∀ ks, (c ks).2.2 = ks.2) →
      (∀ ks, Agree F ks.1 n → Agree F (c ks).2.1 (n + 1)) →
      Triple (fun ks : keys × AddressSearch => ks.2 = s0 ∧ Agree F ks.1 n) c
        (fun ks => ks.2 = s0 ∧ Agree F ks.1 (n + 1)) (fun ks => StartedWith P address s0 F ks.2) :=
    fun n c hc h2 h3 => Triple.assign hc (fun ks h => ⟨by rw [h2]; exact h.1, h3 ks h.2⟩)
  have l7 := Triple.nest setSpend0 (fun x => laneAt P w x startKeys.spendQuads.q0)
    (laneBefore P w startKeys.spendQuads.q0) (check_address P address)
    (check_address P address) (0 :: cs)
    (fun u => hfr (setSpend0 u) (fun _ => rfl) (fun _ => rfl)) hcheck hcheck
  have f7 := Triple.nest_first setSpend0 (fun x => laneAt P w x startKeys.spendQuads.q0)
    (laneBefore P w startKeys.spendQuads.q0) (check_address P address)
    (check_address P address) 0 cs
    (hst 7 _ (fun _ => rfl) (fun _ => rfl)
      (fun ks h => ⟨by simpa [Agree, laneOf, setSpend0] using h,
        by rw [hlane]; rfl⟩))
    hcheck0 (fun u => hfr (setSpend0 u) (fun _ => rfl) (fun _ => rfl)) hcheck hcheck
  have l6 := Triple.nest setSpend1 (fun x => laneAt P w x startKeys.spendQuads.q1)
    (laneBefore P w startKeys.spendQuads.q1) _ (check_address P address) (0 :: cs)
    (fun u => hfr (setSpend1 u) (fun _ => rfl) (fun _ => rfl)) l7 hcheck
  have f6 := Triple.nest_first setSpend1 (fun x => laneAt P w x startKeys.spendQuads.q1)
    (laneBefore P w startKeys.spendQuads.q1) _ (check_address P address) 0 cs
    (hst 6 _ (fun _ => rfl) (fun _ => rfl)
      (fun ks h => ⟨by simpa [Agree, laneOf, setSpend1] using h,
        by rw [hlane]; rfl⟩))
    f7 (fun u => hfr (setSpend1 u) (fun _ => rfl) (fun _ => rfl)) l7 hcheck
  have l5 := Triple.nest setSpend2 (fun x => laneAt P w x startKeys.spendQuads.q2)
    (laneBefore P w startKeys.spendQuads.q2) _ (check_address P address) (0 :: cs)
    (fun u => hfr (setSpend2 u) (fun _ => rfl) (fun _ => rfl)) l6 hcheck
  have f5 := Triple.nest_first setSpend2 (fun x => laneAt P w x startKeys.spendQuads.q2)
    (laneBefore P w startKeys.spendQuads.q2) _ (check_address P address) 0 cs
    (hst 5 _ (fun _ => rfl) (fun _ => rfl)
      (fun ks h => ⟨by simpa [Agree, laneOf, setSpend2] using h,
        by rw [hlane]; rfl⟩))
    f6 (fun u => hfr (setSpend2 u) (fun _ => rfl) (fun _ => rfl)) l6 hcheck
  have l4 := Triple.nest setSpend3 (fun x => laneAt P w x startKeys.spendQuads.q3)
    (laneBefore P w startKeys.spendQuads.q3) _ (check_address P address) (0 :: cs)
    (fun u => hfr (setSpend3 u) (fun _ => rfl) (fun _ => rfl)) l5 hcheck
  have f4 := Triple.nest_first setSpend3 (fun x => laneAt P w x startKeys.spendQuads.q3)
    (laneBefore P w startKeys.spendQuads.q3) _ (check_address P address) 0 cs
    (hst 4 _ (fun _ => rfl) (fun _ => rfl)
      (fun ks h => ⟨by simpa [Agree, laneOf, setSpend3] using h,
        by rw [hlane]; rfl⟩))
    f5 (fun u => hfr (setSpend3 u) (fun _ => rfl) (fun _ => rfl)) l5 hcheck
  have l3 := Triple.nest setView0 (fun x => laneAt P w x startKeys.viewQuads.q0)
    (laneBefore P w startKeys.viewQuads.q0) _ (check_address P address) (0 :: cs)
    (fun u => hfr (setView0 u) (fun _ => rfl) (fun _ => rfl)) l4 hcheck
  have f3 := Triple.nest_first setView0 (fun x => laneAt P w x startKeys.viewQuads.q0)
    (laneBefore P w startKeys.viewQuads.q0) _ (check_address P address) 0 cs
    (hst 3 _ (fun _ => rfl) (fun _ => rfl)
      (fun ks h => ⟨by simpa [Agree, laneOf, setView0] using h,
        by rw [hlane]; rfl⟩))
    f4 (fun u => hfr (setView0 u) (fun _ => rfl) (fun _ => rfl)) l4 hcheck
  have l2 := Triple.nest setView1 (fun x => laneAt P w x startKeys.viewQuads.q1)
    (laneBefore P w startKeys.viewQuads.q1) _ (check_address P address) (0 :: cs)
    (fun u => hfr (setView1 u) (fun _ => rfl) (fun _ => rfl)) l3 hcheck
  have f2 := Triple.nest_first setView1 (fun x => laneAt P w x startKeys.viewQuads.q1)
    (laneBefore P w startKeys.viewQuads.q1) _ (check_address P address) 0 cs
    (hst 2 _ (fun _ => rfl) (fun _ => rfl)
      (fun ks h => ⟨by simpa [Agree, laneOf, setView1] using h,
        by rw [hlane]; rfl⟩))
    f3 (fun u => hfr (setView1 u) (fun _ => rfl) (fun _ => rfl)) l3 hcheck
  have l1 := Triple.nest setView2 (fun x => laneAt P w x startKeys.viewQuads.q2)
    (laneBefore P w startKeys.viewQuads.q2) _ (check_address P address) (0 :: cs)
    (fun u => hfr (setView2 u) (fun _ => rfl) (fun _ => rfl)) l2 hcheck
  have f1 := Triple.nest_first setView2 (fun x => laneAt P w x startKeys.viewQuads.q2)
    (laneBefore P w startKeys.viewQuads.q2) _ (check_address P address) 0 cs
    (hst 1 _ (fun _ => rfl) (fun _ => rfl)
      (fun ks h => ⟨by simpa [Agree, laneOf, setView2] using h,
        by rw [hlane]; rfl⟩))
    f2 (fun u => hfr (setView2 u) (fun _ => rfl) (fun _ => rfl)) l2 hcheck
  have f0 := Triple.nest_first setView3 (fun x => laneAt P w x startKeys.viewQuads.q3)
    (laneAt P w lastV startKeys.viewQuads.q3) _ (Stmt.void (check_address P address)) 0 as
    (hst 0 _ (fun _ => rfl) (fun _ => rfl)
      (fun ks _ => ⟨True.intro,
        by rw [hlane]; rfl⟩))
    f1 (fun u => hfr (setView3 u) (fun _ => rfl) (fun _ => rfl)) l1 hvoid
  simp only [address_worker_body, addressLevel, hcu]
  exact Triple.weaken f0 (fun ks h => ⟨h, True.intro⟩) (fun _ h => h)


/-- A plain loop over a lane of 64 bits starts at offset 0. -/
theorem countUp_sixtyfour : ∃ cs, countUp 64 = 0 :: cs := by
  refine ⟨(List.range (2 ^ 64 - 2)).map Nat.succ, ?_⟩
  unfold countUp UINT_MAX
  have e : 2 ^ 64 - 1 = (2 ^ 64 - 2) + 1 := by norm_num
  rw [e, List.range_succ_eq_map]

/-- With one thread the strided loop on the 64-bit lane returns and starts at offset 0. -/
theorem strideLoop_single_cons :
    ∃ ds, strideLoop 64 1 (last 64 1 0) (2 ^ 64) (toLane 64 0) = some (0 :: ds) := by
  refine ⟨((List.range (2 ^ 64 - 2)).map Nat.succ).map (fun j => (0 + j * 1) % 2 ^ 64), ?_⟩
  rw [strideLoop_single]
  have e : 2 ^ 64 - 1 = (2 ^ 64 - 2) + 1 := by norm_num
  rw [e, List.range_succ_eq_map, List.map_cons]
  simp

/-- With one thread on 64-bit lanes `address_worker` returns; the first key pair it hands to
`check_address` has every lane at offset 0 from the start keys; if that pair is accepted
the worker returns right after printing it; and the flag `found` is what it was. -/
theorem address_worker_single (P : Primitives) (address : List Char) (startKeys init : keys)
    (s : AddressSearch) :
    ∃ r, address_worker P 64 address 1 0 startKeys (2 ^ 64) init s = some r
      ∧ StartedWith P address s (firstKeys P 64 startKeys) r
      ∧ r.found = s.found := by
  obtain ⟨ds, hds⟩ := strideLoop_single_cons
  obtain ⟨cs, hcs⟩ := countUp_sixtyfour
  refine ⟨(address_worker_body P 64 address startKeys (last 64 1 0) (0 :: ds) (init, s)).2.2,
    by simp only [address_worker, hds, Option.map_some'], ?_, ?_⟩
  · exact Triple.holds
      (address_worker_body_first P 64 address startKeys (last 64 1 0) ds cs s hcs)
      (init, s) rfl
  · exact Triple.holds
      (address_worker_body_found P 64 address startKeys (last 64 1 0) (0 :: ds) s.found)
      (init, s) rfl

/-- C20: with one thread, for every start key pair whose lanes `x` satisfy
`SWAP64LE(0 + SWAP64LE(x)) = x`, `address_worker` returns, the first key pair it hands to
`check_address` is the start key pair itself, and if `check_address` accepts the start key
pair the worker prints it and returns without a second candidate. -/
theorem address_worker_first_candidate (P : Primitives) (address : List Char)
    (startKeys init : keys) (s : AddressSearch)
    (hswap : ∀ n, P.SWAP64LE (addW 64 0 (P.SWAP64LE (laneOf startKeys n)))
      = laneOf startKeys n) :
    ∃ r, address_worker P 64 address 1 0 startKeys (2 ^ 64) init s = some r
      ∧ (∃ rest, r.calls = s.calls ++ startKeys :: rest)
      ∧ (accepts P address startKeys = true →
          r.calls = s.calls ++ [startKeys]
          ∧ r.printed = s.printed ++ [(startKeys.spendQuads, startKeys.viewQuads)]) := by
  have hF : firstKeys P 64 startKeys = startKeys := by
    have h0 := hswap 0
    have h1 := hswap 1
    have h2 := hswap 2
    have h3 := hswap 3
    have h4 := hswap 4
    have h5 := hswap 5
    have h6 := hswap 6
    have h7 := hswap 7
    simp only [laneOf] at h0 h1 h2 h3 h4 h5 h6 h7
    obtain ⟨⟨a0, a1, a2, a3⟩, ⟨b0, b1, b2, b3⟩⟩ := startKeys
    simp only [firstKeys, firstSpend, laneAt] at *
    rw [h0, h1, h2, h3, h4, h5, h6, h7]
  obtain ⟨r, hr, hstart, _⟩ := address_worker_single P address startKeys init s
  rw [hF] at hstart
  exact ⟨r, hr, hstart.1, hstart.2⟩

/-- C20 at work: on a little-endian host, from a start key pair that has the target
address, the worker accepts the start key pair as its first and only candidate. -/
theorem address_worker_first_candidate_witness :
    (∀ n, everyPairAccepted.SWAP64LE
        (addW 64 0 (everyPairAccepted.SWAP64LE
          (laneOf { spendQuads := ⟨1, 2, 3, 4⟩, viewQuads := ⟨5, 6, 7, 8⟩ } n)))
      = laneOf { spendQuads := ⟨1, 2, 3, 4⟩, viewQuads := ⟨5, 6, 7, 8⟩ } n)
    ∧ ∃ r, address_worker everyPairAccepted 64 sampleAddress 1 0
          { spendQuads := ⟨1, 2, 3, 4⟩, viewQuads := ⟨5, 6, 7, 8⟩ } (2 ^ 64) zeroKeys
          { found := false, printed := [], calls := [] } = some r
      ∧ (∃ rest, r.calls = ([] : List keys)
          ++ { spendQuads := ⟨1, 2, 3, 4⟩, viewQuads := ⟨5, 6, 7, 8⟩ } :: rest)
      ∧ (accepts everyPairAccepted sampleAddress
            { spendQuads := ⟨1, 2, 3, 4⟩, viewQuads := ⟨5, 6, 7, 8⟩ } = true →
          r.calls = ([] : List keys) ++ [{ spendQuads := ⟨1, 2, 3, 4⟩, viewQuads := ⟨5, 6, 7, 8⟩ }]
          ∧ r.printed = ([] : List (Quads × Quads)) ++ [(⟨1, 2, 3, 4⟩, ⟨5, 6, 7, 8⟩)]) :=
  have hswap : ∀ n, everyPairAccepted.SWAP64LE
        (addW 64 0 (everyPairAccepted.SWAP64LE
          (laneOf { spendQuads := ⟨1, 2, 3, 4⟩, viewQuads := ⟨5, 6, 7, 8⟩ } n)))
      = laneOf { spendQuads := ⟨1, 2, 3, 4⟩, viewQuads := ⟨5, 6, 7, 8⟩ } n := by
    intro n
    rcases n with _ | _ | _ | _ | _ | _ | _ | _ | n <;> rfl
  ⟨hswap, address_worker_first_candidate everyPairAccepted sampleAddress
    { spendQuads := ⟨1, 2, 3, 4⟩, viewQuads := ⟨5, 6, 7, 8⟩ } zeroKeys
    { found := false, printed := [], calls := [] } hswap⟩

/-! ## The single-worker prefix search and its counter -/


/-- The acceptance test keeps the counting invariant of a single-worker search, and when it
returns `true` at most one call has followed the `n`-th discovery. -/
theorem check_address_prefix_counted (P : Primitives) (pfx : List Char) (n : Int) :
    Triple (fun ks : keys × PrefixSearch => Counted n ks.2)
      ( check_address_prefix P pfx n)
      (fun ks => Counted n ks.2) (fun ks => CountedDone n ks.2) := by
  intro ks h
  obtain ⟨k, s⟩ := ks
  obtain ⟨h0, h1, h2, h3⟩ := h
  simp only at h0 h1 h2 h3
  rw [check_address_prefix_eq]
  by_cases hf : s.found = n
  · rw [if_pos hf]
    refine ⟨fun hc => by simp at hc, fun _ => ⟨h0, h1, h2, fun _ => ?_⟩⟩
    obtain ⟨pre, d, hd, hcalls⟩ := h3 hf
    exact ⟨pre, d, hd, Or.inr ⟨k.spendQuads, by simp [hcalls]⟩⟩
  · rw [if_neg hf]
    by_cases hd : discovers P pfx k.spendQuads = true
    · rw [if_pos hd]
      refine ⟨fun _ => ⟨?_, ?_, ?_, fun _ => ?_⟩, fun hc => by simp at hc⟩
      · show 0 ≤ s.found + 1
        omega
      · show s.found + 1 ≤ n
        omega
      · show ((s.printed ++ [_]).length : Int) = s.found + 1
        rw [List.length_append, List.length_singleton]
        push_cast
        omega
      · exact ⟨s.calls, _, List.getLast?_concat _, rfl⟩
    · rw [if_neg hd]
      exact ⟨fun _ => ⟨h0, h1, h2, fun he => absurd he hf⟩, fun hc => by simp at hc⟩

/-- In a single-worker search with `count = n`, `prefix_worker` keeps the counting
invariant up to its return. -/
theorem prefix_worker_body_counted (P : Primitives) (w : Nat) (pfx : List Char) (n : Int)
    (startKeys : keys) (lastV : Nat) (ds : List Nat) :
    Triple (fun ks : keys × PrefixSearch => Counted n ks.2)
      (prefix_worker_body P w pfx n startKeys lastV ds)
      (fun ks => CountedDone n ks.2) (fun ks => CountedDone n ks.2) := by
  have hcheck := check_address_prefix_counted P pfx n
  have hweak : ∀ s : PrefixSearch, Counted n s → CountedDone n s := by
    intro s h
    refine ⟨h.1, h.2.1, h.2.2.1, fun hf => ?_⟩
    obtain ⟨pre, d, hd, hc⟩ := h.2.2.2 hf
    exact ⟨pre, d, hd, Or.inl hc⟩
  have hvoid : Triple (fun ks : keys × PrefixSearch => Counted n ks.2)
      (Stmt.void ( check_address_prefix P pfx n))
      (fun ks => CountedDone n ks.2) (fun ks => CountedDone n ks.2) :=
    Triple.weaken (Triple.void hcheck) (fun _ h => h)
      (fun ks h => h.elim (hweak ks.2) id)
  have hfr : ∀ c : Stmt (keys × PrefixSearch), (∀ ks, (c ks).1 = false) →
      (∀ ks, (c ks).2.2 = ks.2) →
      Triple (fun ks : keys × PrefixSearch => Counted n ks.2) c
        (fun ks => Counted n ks.2) (fun ks => CountedDone n ks.2) :=
    fun c hc h2 => Triple.assign hc (fun ks h => by rw [h2]; exact h)
  have lD := Triple.nest setSpend0 (fun x => laneAt P w x startKeys.spendQuads.q0)
    (laneAt P w lastV startKeys.spendQuads.q0) ( check_address_prefix P pfx n)
    ( check_address_prefix P pfx n) ds
    (fun u => hfr (setSpend0 u) (fun _ => rfl) (fun _ => rfl)) hcheck hcheck
  have lC := Triple.nest setSpend1 (fun x => laneAt P w x startKeys.spendQuads.q1)
    (laneBefore P w startKeys.spendQuads.q1) _ ( check_address_prefix P pfx n) (countUp w)
    (fun u => hfr (setSpend1 u) (fun _ => rfl) (fun _ => rfl)) lD hcheck
  have lB := Triple.nest setSpend2 (fun x => laneAt P w x startKeys.spendQuads.q2)
    (laneBefore P w startKeys.spendQuads.q2) _ ( check_address_prefix P pfx n) (countUp w)
    (fun u => hfr (setSpend2 u) (fun _ => rfl) (fun _ => rfl)) lC hcheck
  exact Triple.nest setSpend3 (fun x => laneAt P w x startKeys.spendQuads.q3)
    (laneBefore P w startKeys.spendQuads.q3) _ (Stmt.void ( check_address_prefix P pfx n))
    (countUp w) (fun u => hfr (setSpend3 u) (fun _ => rfl) (fun _ => rfl)) lB hvoid

/-- In a single-worker search with `count = 1` whose loops start at offset 0 and whose
first candidate is a discovery, `prefix_worker` prints one block and makes at most two
calls of `check_address_prefix`. -/
theorem prefix_worker_body_first (P : Primitives) (w : Nat) (pfx : List Char)
    (startKeys : keys) (lastV : Nat) (ds cs : List Nat) (hcu : countUp w = 0 :: cs)
    (hd : discovers P pfx (firstSpend P w startKeys) = true) :
    Triple
      (fun ks : keys × PrefixSearch => ks.2 = { found := 0, printed := [], calls := [] })
      (prefix_worker_body P w pfx 1 startKeys lastV (0 :: ds))
      (fun ks => ks.2.found = 1 ∧ ks.2.printed.length = 1 ∧ ks.2.calls.length ≤ 2)
      (fun ks => ks.2.found = 1 ∧ ks.2.printed.length = 1 ∧ ks.2.calls.length ≤ 2) := by
  -- after the discovery every call returns
  have hcheck : Triple
      (fun ks : keys × PrefixSearch =>
        ks.2.found = 1 ∧ ks.2.printed.length = 1 ∧ ks.2.calls.length = 1)
      ( check_address_prefix P pfx 1)
      (fun ks => ks.2.found = 1 ∧ ks.2.printed.length = 1 ∧ ks.2.calls.length = 1)
      (fun ks => ks.2.found = 1 ∧ ks.2.printed.length = 1 ∧ ks.2.calls.length ≤ 2) := by
    intro ks h
    obtain ⟨k, s⟩ := ks
    obtain ⟨h1, h2, h3⟩ := h
    simp only at h1 h2 h3
    rw [check_address_prefix_eq, if_pos h1]
    refine ⟨fun hc => by simp at hc, fun _ => ⟨h1, h2, ?_⟩⟩
    show (s.calls ++ [k.spendQuads]).length ≤ 2
    rw [List.length_append, h3]
    exact Nat.le_refl 2
  have hvoid : Triple
      (fun ks : keys × PrefixSearch =>
        ks.2.found = 1 ∧ ks.2.printed.length = 1 ∧ ks.2.calls.length = 1)
      (Stmt.void ( check_address_prefix P pfx 1))
      (fun ks => ks.2.found = 1 ∧ ks.2.printed.length = 1 ∧ ks.2.calls.length ≤ 2)
      (fun ks => ks.2.found = 1 ∧ ks.2.printed.length = 1 ∧ ks.2.calls.length ≤ 2) :=
    Triple.weaken (Triple.void hcheck) (fun _ h => h)
      (fun ks h => h.elim (fun h1 => ⟨h1.1, h1.2.1, by rw [h1.2.2]; decide⟩) id)
  have hfr : ∀ c : Stmt (keys × PrefixSearch), (∀ ks, (c ks).1 = false) →
      (∀ ks, (c ks).2.2 = ks.2) →
      Triple
        (fun ks : keys × PrefixSearch =>
          ks.2.found = 1 ∧ ks.2.printed.length = 1 ∧ ks.2.calls.length = 1)
        c
        (fun ks => ks.2.found = 1 ∧ ks.2.printed.length = 1 ∧ ks.2.calls.length = 1)
        (fun ks => ks.2.found = 1 ∧ ks.2.printed.length = 1 ∧ ks.2.calls.length ≤ 2) :=
    fun c hc h2 => Triple.assign hc (fun ks h => by rw [h2]; exact h)
  -- the first call makes the discovery
  have hcheck0 : Triple
      (fun ks : keys × PrefixSearch =>
        ks.2 = { found := 0, printed := [], calls := [] }
          ∧ ks.1.spendQuads = firstSpend P w startKeys)
      ( check_address_prefix P pfx 1)
      (fun ks => ks.2.found = 1 ∧ ks.2.printed.length = 1 ∧ ks.2.calls.length = 1)
      (fun ks => ks.2.found = 1 ∧ ks.2.printed.length = 1 ∧ ks.2.calls.length ≤ 2) := by
    intro ks h
    obtain ⟨k, s⟩ := ks
    obtain ⟨hs, hk⟩ := h
    simp only at hs hk
    subst hs
    rw [check_address_prefix_eq, if_neg (by decide), hk, if_pos hd]
    exact ⟨fun _ => ⟨rfl, rfl, rfl⟩, fun hc => by simp at hc⟩
  have lD := Triple.nest setSpend0 (fun x => laneAt P w x startKeys.spendQuads.q0)
    (laneAt P w lastV startKeys.spendQuads.q0) ( check_address_prefix P pfx 1)
    ( check_address_prefix P pfx 1) (0 :: ds)
    (fun u => hfr (setSpend0 u) (fun _ => rfl) (fun _ => rfl)) hcheck hcheck
  have fD := Triple.nest_first setSpend0 (fun x => laneAt P w x startKeys.spendQuads.q0)
    (laneAt P w lastV startKeys.spendQuads.q0) ( check_address_prefix P pfx 1)
    ( check_address_prefix P pfx 1) 0 ds
    (Triple.assign (fun _ => rfl)
      (fun (ks : keys × PrefixSearch)
        (h : ks.2 = { found := 0, printed := [], calls := [] }
          ∧ ks.1.spendQuads.q3 = (firstSpend P w startKeys).q3
          ∧ ks.1.spendQuads.q2 = (firstSpend P w startKeys).q2
          ∧ ks.1.spendQuads.q1 = (firstSpend P w startKeys).q1) =>
        (⟨h.1, by
          obtain ⟨⟨⟨a0, a1, a2, a3⟩, v⟩, s⟩ := ks
          obtain ⟨_, h3, h2, h1⟩ := h
          simp only at h3 h2 h1
          simp only [setSpend0, firstSpend] at *
          rw [h3, h2, h1]⟩ :
          (setSpend0 (laneAt P w 0 startKeys.spendQuads.q0) ks).2.2
              = { found := 0, printed := [], calls := [] }
            ∧ (setSpend0 (laneAt P w 0 startKeys.spendQuads.q0) ks).2.1.spendQuads
              = firstSpend P w startKeys)))
    hcheck0 (fun u => hfr (setSpend0 u) (fun _ => rfl) (fun _ => rfl)) hcheck hcheck
  have lC := Triple.nest setSpend1 (fun x => laneAt P w x startKeys.spendQuads.q1)
    (laneBefore P w startKeys.spendQuads.q1) _ ( check_address_prefix P pfx 1) (0 :: cs)
    (fun u => hfr (setSpend1 u) (fun _ => rfl) (fun _ => rfl)) lD hcheck
  have fC := Triple.nest_first setSpend1 (fun x => laneAt P w x startKeys.spendQuads.q1)
    (laneBefore P w startKeys.spendQuads.q1) _ ( check_address_prefix P pfx 1) 0 cs
    (Triple.assign (fun _ => rfl)
      (fun (ks : keys × PrefixSearch)
        (h : ks.2 = { found := 0, printed := [], calls := [] }
          ∧ ks.1.spendQuads.q3 = (firstSpend P w startKeys).q3
          ∧ ks.1.spendQuads.q2 = (firstSpend P w startKeys).q2) =>
        (⟨h.1, h.2.1, h.2.2, rfl⟩ :
          (setSpend1 (laneAt P w 0 startKeys.spendQuads.q1) ks).2.2
              = { found := 0, printed := [], calls := [] }
            ∧ (setSpend1 (laneAt P w 0 startKeys.spendQuads.q1) ks).2.1.spendQuads.q3
              = (firstSpend P w startKeys).q3
            ∧ (setSpend1 (laneAt P w 0 startKeys.spendQuads.q1) ks).2.1.spendQuads.q2
              = (firstSpend P w startKeys).q2
            ∧ (setSpend1 (laneAt P w 0 startKeys.spendQuads.q1) ks).2.1.spendQuads.q1
              = (firstSpend P w startKeys).q1)))
    fD (fun u => hfr (setSpend1 u) (fun _ => rfl) (fun _ => rfl)) lD hcheck
  have lB := Triple.nest setSpend2 (fun x => laneAt P w x startKeys.spendQuads.q2)
    (laneBefore P w startKeys.spendQuads.q2) _ ( check_address_prefix P pfx 1) (0 :: cs)
    (fun u => hfr (setSpend2 u) (fun _ => rfl) (fun _ => rfl)) lC hcheck
  have fB := Triple.nest_first setSpend2 (fun x => laneAt P w x startKeys.spendQuads.q2)
    (laneBefore P w startKeys.spendQuads.q2) _ ( check_address_prefix P pfx 1) 0 cs
    (Triple.assign (fun _ => rfl)
      (fun (ks : keys × PrefixSearch)
        (h : ks.2 = { found := 0, printed := [], calls := [] }
          ∧ ks.1.spendQuads.q3 = (firstSpend P w startKeys).q3) =>
        (⟨h.1, h.2, rfl⟩ :
          (setSpend2 (laneAt P w 0 startKeys.spendQuads.q2) ks).2.2
              = { found := 0, printed := [], calls := [] }
            ∧ (setSpend2 (laneAt P w 0 startKeys.spendQuads.q2) ks).2.1.spendQuads.q3
              = (firstSpend P w startKeys).q3
            ∧ (setSpend2 (laneAt P w 0 startKeys.spendQuads.q2) ks).2.1.spendQuads.q2
              = (firstSpend P w startKeys).q2)))
    fC (fun u => hfr (setSpend2 u) (fun _ => rfl) (fun _ => rfl)) lC hcheck
  have fA := Triple.nest_first setSpend3 (fun x => laneAt P w x startKeys.spendQuads.q3)
    (laneBefore P w startKeys.spendQuads.q3) _ (Stmt.void ( check_address_prefix P pfx 1))
    0 cs
    (Triple.assign (fun _ => rfl)
      (fun (ks : keys × PrefixSearch)
        (h : ks.2 = { found := 0, printed := [], calls := [] }) =>
        (⟨h, rfl⟩ :
          (setSpend3 (laneAt P w 0 startKeys.spendQuads.q3) ks).2.2
              = { found := 0, printed := [], calls := [] }
            ∧ (setSpend3 (laneAt P w 0 startKeys.spendQuads.q3) ks).2.1.spendQuads.q3
              = (firstSpend P w startKeys).q3)))
    fB (fun u => hfr (setSpend3 u) (fun _ => rfl) (fun _ => rfl)) lB hvoid
  simp only [prefix_worker_body, hcu]
  exact fA

/-- C13: in a prefix search with one worker on 64-bit lanes and `count = n ≥ 1`, started
with `found = 0`, the worker returns; `found` is the number of printed blocks and is at
most `n`; when it is `n`, the call of `check_address_prefix` that made the `n`-th
discovery is the last one or is followed by exactly one call, which printed nothing; and
with `count = 1` and a first candidate that is a discovery, one block is printed and the
worker returns after at most two calls. -/
theorem prefix_worker_single_count (P : Primitives) (pfx : List Char) (n : Nat)
    (startKeys init : keys) (hn : 1 ≤ n) :
    ∃ r, prefix_worker P 64 pfx 1 0 (n : Int) startKeys (2 ^ 64) init
          { found := 0, printed := [], calls := [] } = some r
      ∧ 0 ≤ r.found ∧ r.found ≤ (n : Int) ∧ (r.printed.length : Int) = r.found
      ∧ (r.found = (n : Int) → ∃ pre d, r.printed.getLast? = some d
          ∧ (r.calls = pre ++ [d.2.1] ∨ ∃ k, r.calls = pre ++ [d.2.1, k]))
      ∧ (n = 1 → discovers P pfx (firstSpend P 64 startKeys) = true →
          r.printed.length = 1 ∧ r.calls.length ≤ 2) := by
  obtain ⟨ds, hds⟩ := strideLoop_single_cons
  obtain ⟨cs, hcs⟩ := countUp_sixtyfour
  have hinit : Counted (n : Int) { found := 0, printed := [], calls := [] } := by
    refine ⟨Int.le_refl 0, ?_, rfl, fun h => ?_⟩
    · show (0 : Int) ≤ (n : Int)
      omega
    · have h0 : (0 : Int) = (n : Int) := h
      omega
  have hdone := Triple.holds
    (prefix_worker_body_counted P 64 pfx (n : Int) startKeys (last 64 1 0) (0 :: ds))
    (init, { found := 0, printed := [], calls := [] }) hinit
  refine ⟨(prefix_worker_body P 64 pfx (n : Int) startKeys (last 64 1 0) (0 :: ds)
      (init, { found := 0, printed := [], calls := [] })).2.2,
    by simp only [prefix_worker, hds, Option.map_some'],
    hdone.1, hdone.2.1, hdone.2.2.1, hdone.2.2.2, ?_⟩
  intro h1 hd
  have e : (n : Int) = 1 := by
    rw [h1]
    rfl
  rw [e]
  have hfirst := Triple.holds
    (prefix_worker_body_first P 64 pfx startKeys (last 64 1 0) ds cs hcs hd)
    (init, { found := 0, printed := [], calls := [] }) rfl
  exact ⟨hfirst.2.1, hfirst.2.2⟩

/-- C13 at work: with `count = 1`, the prefix `TA` and keys that all give an address
beginning with `TA`, the single worker prints one block and returns after at most two
calls. -/
theorem prefix_worker_single_count_witness :
    1 ≤ 1 ∧ ∃ r, prefix_worker everyKeyMatches 64 ['T', 'A'] 1 0 ((1 : Nat) : Int)
          { spendQuads := ⟨1, 2, 3, 4⟩, viewQuads := ⟨5, 6, 7, 8⟩ } (2 ^ 64) zeroKeys
          { found := 0, printed := [], calls := [] } = some r
      ∧ 0 ≤ r.found ∧ r.found ≤ ((1 : Nat) : Int) ∧ (r.printed.length : Int) = r.found
      ∧ (r.found = ((1 : Nat) : Int) → ∃ pre d, r.printed.getLast? = some d
          ∧ (r.calls = pre ++ [d.2.1] ∨ ∃ k, r.calls = pre ++ [d.2.1, k]))
      ∧ (1 = 1 → discovers everyKeyMatches ['T', 'A']
            (firstSpend everyKeyMatches 64
              { spendQuads := ⟨1, 2, 3, 4⟩, viewQuads := ⟨5, 6, 7, 8⟩ }) = true →
          r.printed.length = 1 ∧ r.calls.length ≤ 2) :=
  ⟨Nat.le_refl 1, prefix_worker_single_count everyKeyMatches ['T', 'A'] 1
    { spendQuads := ⟨1, 2, 3, 4⟩, viewQuads := ⟨5, 6, 7, 8⟩ } zeroKeys (Nat.le_refl 1)⟩

/-- The hypothesis of the last part of C13 holds in the example: the first candidate is a
discovery. -/
theorem first_candidate_discovered :
    discovers everyKeyMatches ['T', 'A']
      (firstSpend everyKeyMatches 64
        { spendQuads := ⟨1, 2, 3, 4⟩, viewQuads := ⟨5, 6, 7, 8⟩ }) = true := by
  decide

/-! ## The entry points -/


/-- Thread counts below 1 are raised to 1, others are kept. -/
theorem clampThreads_eq (arg_threads : Int) :
    clampThreads arg_threads = if arg_threads ≤ 0 then 1 else arg_threads.toNat := by
  unfold clampThreads
  by_cases h : arg_threads ≤ 0
  · rw [if_pos h, max_eq_left (by omega)]; rfl
  · rw [if_neg h, max_eq_right (by omega)]

/-- Both entry points create at least one worker's worth of threads. -/
theorem clampThreads_pos (arg_threads : Int) : 1 ≤ clampThreads arg_threads := by
  rw [clampThreads_eq]
  split
  · exact Nat.le_refl 1
  · omega

/-- With a prefix that passes the three tests, `find_prefix` creates its workers and joins
them. -/
theorem find_prefix_searched (P : Primitives) (decode : List Char → Bool) (w : Nat)
    (pfx : List Char) (count arg_threads : Int) (start : Nat → Nat) (fuel : Nat)
    (init : keys) (h1 : pfx.take 2 = ['T', 'A']) (h2 : pfx.length ≤ 97)
    (h3 : decode pfx = true) :
    find_prefix P decode w pfx count arg_threads start fuel init
      = FindOutcome.searched (clampThreads arg_threads)
          (runPrefixWorkers P w pfx (clampThreads arg_threads) count
            { spendQuads := spendStart start, viewQuads := init.viewQuads } fuel init
            (List.range (clampThreads arg_threads))
            { found := 0, printed := [], calls := [] }) := by
  unfold find_prefix
  simp only
  rw [if_neg (by rintro (h | h); exact h h1; omega), if_neg (by rw [h3]; simp)]

/-- With an address that passes the three tests, `find_address` creates its workers and
joins them. -/
theorem find_address_searched (P : Primitives)
    (parseAccountAddressString : List Char → Option (Nat × Nat)) (w : Nat)
    (address : List Char) (arg_threads : Int) (found : Bool) (start : Nat → Nat)
    (fuel : Nat) (init : keys) (h1 : address.take 2 = ['T', 'A'])
    (h2 : address.length = 97) (h3 : (parseAccountAddressString address).isSome = true) :
    find_address P parseAccountAddressString w address arg_threads found start fuel init
      = FindOutcome.searched (clampThreads arg_threads)
          (runAddressWorkers P w address (clampThreads arg_threads)
            { spendQuads := spendStart start, viewQuads := viewStart start } fuel init
            (List.range (clampThreads arg_threads))
            { found := found, printed := [], calls := [] }) := by
  unfold find_address
  simp only
  rw [if_neg (by rintro (h | h); exact h h1; exact h h2),
    if_neg (by cases hp : parseAccountAddressString address <;> simp_all)]

/-- C18: `find_prefix` returns `false` without creating a worker when the prefix does not
begin with `TA`, is longer than 97 characters, or is rejected by the Base58 decoder; for a
prefix that begins with `TA`, has at most 97 characters and is decoded, it creates its
workers, at least one. -/
theorem find_prefix_validation (P : Primitives) (decode : List Char → Bool) (w : Nat)
    (pfx : List Char) (count arg_threads : Int) (start : Nat → Nat) (fuel : Nat)
    (init : keys) :
    ((pfx.take 2 ≠ ['T', 'A'] ∨ 97 < pfx.length ∨ decode pfx = false) →
      find_prefix P decode w pfx count arg_threads start fuel init = FindOutcome.rejected
      ∧ find_prefix_value ( find_prefix P decode w pfx count arg_threads start fuel init)
          = some false
      ∧ ( find_prefix P decode w pfx count arg_threads start fuel init).created = 0)
    ∧ ((pfx.take 2 = ['T', 'A'] ∧ pfx.length ≤ 97 ∧ decode pfx = true) →
      (∃ final, find_prefix P decode w pfx count arg_threads start fuel init
          = FindOutcome.searched (clampThreads arg_threads) final)
      ∧ 1 ≤ ( find_prefix P decode w pfx count arg_threads start fuel init).created) := by
  constructor
  · intro h
    have e : find_prefix P decode w pfx count arg_threads start fuel init
        = FindOutcome.rejected := by
      unfold find_prefix
      simp only
      by_cases h1 : pfx.take 2 ≠ ['T', 'A'] ∨ 97 < pfx.length
      · rw [if_pos h1]
      · rw [if_neg h1]
        have h2 : decode pfx = false := by
          rcases h with h | h | h
          · exact absurd (Or.inl h) h1
          · exact absurd (Or.inr h) h1
          · exact h
        rw [if_pos h2]
    rw [e]
    exact ⟨rfl, rfl, rfl⟩
  · rintro ⟨h1, h2, h3⟩
    rw [find_prefix_searched P decode w pfx count arg_threads start fuel init h1 h2 h3]
    exact ⟨⟨_, rfl⟩, clampThreads_pos arg_threads⟩

/-- C19: `find_address` returns `false` without creating a worker unless the address begins
with `TA`, has exactly 97 characters and is parsed into public keys; when all three hold it
creates its workers, at least one. -/
theorem find_address_validation (P : Primitives)
    (parseAccountAddressString : List Char → Option (Nat × Nat)) (w : Nat)
    (address : List Char) (arg_threads : Int) (found : Bool) (start : Nat → Nat)
    (fuel : Nat) (init : keys) :
    (¬ (address.take 2 = ['T', 'A'] ∧ address.length = 97
        ∧ (parseAccountAddressString address).isSome = true) →
      find_address P parseAccountAddressString w address arg_threads found start fuel init
        = FindOutcome.rejected
      ∧ find_address_value
          (find_address P parseAccountAddressString w address arg_threads found start fuel
            init) = some false
      ∧ (find_address P parseAccountAddressString w address arg_threads found start fuel
          init).created = 0)
    ∧ ((address.take 2 = ['T', 'A'] ∧ address.length = 97
        ∧ (parseAccountAddressString address).isSome = true) →
      (∃ final,
        find_address P parseAccountAddressString w address arg_threads found start fuel init
          = FindOutcome.searched (clampThreads arg_threads) final)
      ∧ 1 ≤ (find_address P parseAccountAddressString w address arg_threads found start fuel
          init).created) := by
  constructor
  · intro h
    have e : find_address P parseAccountAddressString w address arg_threads found start fuel
        init = FindOutcome.rejected := by
      unfold find_address
      simp only
      by_cases h1 : address.take 2 ≠ ['T', 'A'] ∨ address.length ≠ 97
      · rw [if_pos h1]
      · rw [if_neg h1]
        have h2 : (parseAccountAddressString address).isNone = true := by
          cases hp : parseAccountAddressString address with
          | none => rfl
          | some v =>
            exfalso
            apply h
            refine ⟨?_, ?_, by rw [hp]; rfl⟩
            · by_contra hc; exact h1 (Or.inl hc)
            · by_contra hc; exact h1 (Or.inr hc)
        rw [if_pos h2]
    rw [e]
    exact ⟨rfl, rfl, rfl⟩
  · rintro ⟨h1, h2, h3⟩
    rw [find_address_searched P parseAccountAddressString w address arg_threads found start
      fuel init h1 h2 h3]
    exact ⟨⟨_, rfl⟩, clampThreads_pos arg_threads⟩

/-- C16, as the code has it: a thread count of 0 or below is not rejected but replaced by 1,
so that both entry points behave as with one thread. -/
theorem find_clamps_threads (P : Primitives) (decode : List Char → Bool)
    (parseAccountAddressString : List Char → Option (Nat × Nat)) (w : Nat)
    (pfx address : List Char) (count arg_threads : Int) (found : Bool) (start : Nat → Nat)
    (fuel : Nat) (init : keys) (h : arg_threads ≤ 0) :
    clampThreads arg_threads = 1
    ∧ find_prefix P decode w pfx count arg_threads start fuel init
        = find_prefix P decode w pfx count 1 start fuel init
    ∧ find_address P parseAccountAddressString w address arg_threads found start fuel init
        = find_address P parseAccountAddressString w address 1 found start fuel init := by
  have e : clampThreads arg_threads = 1 := by rw [clampThreads_eq, if_pos h]
  have e1 : clampThreads 1 = 1 := by decide
  refine ⟨e, ?_, ?_⟩
  · unfold find_prefix; rw [e, e1]
  · unfold find_address; rw [e, e1]

/-- C16 as stated fails: with a thread count of 0 and otherwise valid arguments,
`find_prefix` and `find_address` each create one worker instead of returning failure. -/
theorem zero_threads_not_rejected :
    ( find_prefix everyKeyMatches (fun _ => true) 64 ['T', 'A'] 1 0 (fun _ => 0) (2 ^ 64)
        zeroKeys).created = 1
    ∧ (find_address everyPairAccepted (fun _ => some (0, 0)) 64 sampleAddress 0 false
        (fun _ => 0) (2 ^ 64) zeroKeys).created = 1 := by
  rw [find_prefix_searched everyKeyMatches (fun _ => true) 64 ['T', 'A'] 1 0 (fun _ => 0)
      (2 ^ 64) zeroKeys (by decide) (by decide) rfl,
    find_address_searched everyPairAccepted (fun _ => some (0, 0)) 64 sampleAddress 0 false
      (fun _ => 0) (2 ^ 64) zeroKeys (by decide) (by decide) rfl]
  exact ⟨(by decide : clampThreads 0 = 1), (by decide : clampThreads 0 = 1)⟩

/-- C16 at work for the thread count 0. -/
theorem find_clamps_threads_witness :
    ((0 : Int) ≤ 0)
    ∧ (clampThreads 0 = 1
      ∧ find_prefix everyKeyMatches (fun _ => true) 64 ['T', 'A'] 1 0 (fun _ => 0) (2 ^ 64)
          zeroKeys
        = find_prefix everyKeyMatches (fun _ => true) 64 ['T', 'A'] 1 1 (fun _ => 0) (2 ^ 64)
          zeroKeys
      ∧ find_address everyKeyMatches (fun _ => some (0, 0)) 64 sampleAddress 0 false
          (fun _ => 0) (2 ^ 64) zeroKeys
        = find_address everyKeyMatches (fun _ => some (0, 0)) 64 sampleAddress 1 false
          (fun _ => 0) (2 ^ 64) zeroKeys) :=
  ⟨by decide,
   find_clamps_threads everyKeyMatches (fun _ => true) (fun _ => some (0, 0)) 64 ['T', 'A']
     sampleAddress 1 0 false (fun _ => 0) (2 ^ 64) zeroKeys (by decide)⟩


/-- A single worker of the exact search, joined. -/
theorem runAddressWorkers_single (P : Primitives) (w : Nat) (address : List Char)
    (threads : Nat) (startKeys : keys) (fuel : Nat) (init : keys) (i : Nat)
    (s : AddressSearch) :
    runAddressWorkers P w address threads startKeys fuel init [i] s
      = address_worker P w address threads i startKeys fuel init s := by
  simp only [runAddressWorkers]
  cases address_worker P w address threads i startKeys fuel init s <;> rfl

/-- C15, evaluated for one thread on 64-bit lanes of a little-endian host, with a target
address that the all-zero start key pair has and with `false` as the indeterminate initial
content of `found`: the worker accepts its first candidate and prints it, and
`find_address` still returns `false`, because nothing ever assigns `found`. -/
theorem find_address_flag_not_set (init : keys) :
    ∃ r, find_address everyPairAccepted (fun _ => some (0, 0)) 64 sampleAddress 1 false
          (fun _ => 0) (2 ^ 64) init = FindOutcome.searched 1 (some r)
      ∧ r.printed = [(⟨0, 0, 0, 0⟩, ⟨0, 0, 0, 0⟩)]
      ∧ find_address_value
          (find_address everyPairAccepted (fun _ => some (0, 0)) 64 sampleAddress 1 false
            (fun _ => 0) (2 ^ 64) init) = some false := by
  obtain ⟨r, hr, hst, hf⟩ := address_worker_single everyPairAccepted sampleAddress
    { spendQuads := spendStart (fun _ => 0), viewQuads := viewStart (fun _ => 0) } init
    { found := false, printed := [], calls := [] }
  have hacc : accepts everyPairAccepted sampleAddress
      (firstKeys everyPairAccepted 64
        { spendQuads := spendStart (fun _ => 0), viewQuads := viewStart (fun _ => 0) })
      = true := by decide
  have hp := (hst.2 hacc).2
  have e : find_address everyPairAccepted (fun _ => some (0, 0)) 64 sampleAddress 1 false
      (fun _ => 0) (2 ^ 64) init = FindOutcome.searched 1 (some r) := by
    have hc : clampThreads 1 = 1 := by decide
    unfold find_address
    simp only
    rw [if_neg (by decide), if_neg (by decide), hc]
    have hrange : List.range 1 = [0] := rfl
    rw [hrange]
    rw [runAddressWorkers_single, hr]
  refine ⟨r, e, ?_, ?_⟩
  · rw [hp]; rfl
  · rw [e]
    simp only [find_address_value, Option.map_some', hf]

/-! ## Concurrent workers of the prefix search -/


/-- No step of a concurrent prefix search decreases the counter `found`. -/
theorem searchStep_found_le (P : Primitives) (pfx : List Char) (count : Int)
    (s : SharedSearch) (i : Nat) : s.found ≤ (searchStep P pfx count s i).found := by
  unfold searchStep
  cases s.workers.get? i with
  | none => exact le_refl _
  | some wk =>
    simp only
    cases wk.todo with
    | nil => exact le_refl _
    | cons k rest =>
      simp only
      split
      · split <;> exact le_refl _
      · cases P.secret_key_to_public_key k with
        | none => exact le_refl _
        | some pk =>
          simp only
          split
          · show s.found ≤ s.found + 1
            omega
          · exact le_refl _

/-- No concurrent prefix search decreases the counter `found`. -/
theorem searchRun_found_le (P : Primitives) (pfx : List Char) (count : Int)
    (schedule : List Nat) :
    ∀ s : SharedSearch, s.found ≤ (searchRun P pfx count s schedule).found := by
  induction schedule with
  | nil => intro s; exact le_refl _
  | cons i rest ih =>
    intro s
    exact le_trans (searchStep_found_le P pfx count s i) (ih _)

/-- C14, evaluated for two workers, `count = 1` and a prefix that the first candidate of
each worker matches: both workers pass the test `found == count` while `found` is 0, then
each prints its discovery and increments `found`, which becomes 2; whatever the workers do
afterwards, `found` stays above `count`, so no worker observes `found == count` again. -/
theorem found_exceeds_count (rest0 rest1 : List Quads) (schedule : List Nat) :
    (searchRun everyKeyMatches ['T', 'A'] 1
        { found := 0, printed := [],
          workers := [{ todo := ⟨0, 0, 0, 0⟩ :: rest0, passed := false },
                      { todo := ⟨1, 0, 0, 0⟩ :: rest1, passed := false }] }
        [0, 1, 0, 1]).found = 2
    ∧ (searchRun everyKeyMatches ['T', 'A'] 1
        { found := 0, printed := [],
          workers := [{ todo := ⟨0, 0, 0, 0⟩ :: rest0, passed := false },
                      { todo := ⟨1, 0, 0, 0⟩ :: rest1, passed := false }] }
        [0, 1, 0, 1]).printed.length = 2
    ∧ 1 < (searchRun everyKeyMatches ['T', 'A'] 1
        { found := 0, printed := [],
          workers := [{ todo := ⟨0, 0, 0, 0⟩ :: rest0, passed := false },
                      { todo := ⟨1, 0, 0, 0⟩ :: rest1, passed := false }] }
        ([0, 1, 0, 1] ++ schedule)).found := by
  have h1 : (searchRun everyKeyMatches ['T', 'A'] 1
        { found := 0, printed := [],
          workers := [{ todo := ⟨0, 0, 0, 0⟩ :: rest0, passed := false },
                      { todo := ⟨1, 0, 0, 0⟩ :: rest1, passed := false }] }
        [0, 1, 0, 1]).found = 2 := rfl
  refine ⟨h1, rfl, ?_⟩
  have h2 := searchRun_found_le everyKeyMatches ['T', 'A'] 1 schedule
    (searchRun everyKeyMatches ['T', 'A'] 1
        { found := 0, printed := [],
          workers := [{ todo := ⟨0, 0, 0, 0⟩ :: rest0, passed := false },
                      { todo := ⟨1, 0, 0, 0⟩ :: rest1, passed := false }] }
        [0, 1, 0, 1])
  rw [h1] at h2
  unfold searchRun at h2 ⊢
  rw [List.foldl_append]
  omega

end AddressGenerator

/-! ## The strided walk with one worker -/

namespace AddressGenerator

/-- Mapping a function that fixes every element of a range gives the range. -/
theorem map_range_of_fixed (f : Nat → Nat) (n : Nat) (h : ∀ j, j < n → f j = j) :
    (List.range n).map f = List.range n := by
  have h1 : ∀ j, j ∈ List.range n → f j = id j := fun j hj => h j (List.mem_range.1 hj)
  rw [List.map_congr_left h1, List.map_id]

/-- A range is the range of its predecessor followed by the predecessor. -/
theorem range_pred_append (n : Nat) (h : 0 < n) :
    List.range (n - 1) ++ [n - 1] = List.range n := by
  obtain ⟨m, rfl⟩ : ∃ m, n = m + 1 := ⟨n - 1, by omega⟩
  rw [Nat.add_sub_cancel, List.range_succ]

/-- With one thread the counter of the strided loop takes the values `0, 1, ...,
UINT64_MAX - 1`. -/
theorem strideLoop_single_range :
    strideLoop 64 1 (last 64 1 0) (2 ^ 64) (toLane 64 0) = some (List.range (2 ^ 64 - 1)) := by
  rw [strideLoop_single, map_range_of_fixed]
  intro j hj
  rw [Nat.zero_add, Nat.mul_one, Nat.mod_eq_of_lt (by omega)]

/-- C21: with one thread `last` is `UINT64_MAX`, the walk of worker 0 returns, and the
offsets it produces (the loop counter, then the boundary offset) are `0, 1, ...,
UINT64_MAX` in this order: every 64-bit offset once, increasing. -/
theorem walkerOffsets_single :
    last 64 1 0 = UINT_MAX 64
    ∧ walkerOffsets 64 1 0 (2 ^ 64) = some (List.range (2 ^ 64))
    ∧ (∀ x, x ∈ List.range (2 ^ 64) ↔ x ≤ UINT_MAX 64)
    ∧ (List.range (2 ^ 64)).Pairwise (fun x y => x < y) := by
  refine ⟨rfl, ?_, ?_, List.pairwise_lt_range _⟩
  · unfold walkerOffsets
    have hl : last 64 1 0 = 2 ^ 64 - 1 := rfl
    rw [strideLoop_single_range, hl, Option.map_some', range_pred_append _ (by norm_num)]
  · intro x
    rw [List.mem_range]
    unfold UINT_MAX
    omega

end AddressGenerator

/-! ## The acceptance test of the prefix search -/

namespace AddressGenerator

/-- C22: `check_address_prefix` returns `true` exactly when `found == count` on entry, and
then leaves the keys, the counter and the output alone; otherwise it returns `false`, and
`found` stays as it was unless `secret_key_to_public_key` succeeds on the spend key and the
first `prefix.length()` characters of the derived address are the prefix; in that case,
for `found` below `INT_MAX` (where `found++` does not overflow), `found` becomes
`found + 1`, which is still an `int`. -/
theorem check_address_prefix_spec (P : Primitives) (pfx : List Char) (count : Int)
    (k : keys) (s : PrefixSearch) :
    ((( check_address_prefix P pfx count (k, s)).1 = true) ↔ s.found = count)
    ∧ (s.found = count →
        ( check_address_prefix P pfx count (k, s)).2.1 = k
        ∧ ( check_address_prefix P pfx count (k, s)).2.2.found = s.found
        ∧ ( check_address_prefix P pfx count (k, s)).2.2.printed = s.printed)
    ∧ (s.found ≠ count →
        (¬ ∃ spendPublicKey, P.secret_key_to_public_key k.spendQuads = some spendPublicKey
            ∧ (P.accountAddressAsString spendPublicKey
                (P.generateViewFromSpend k.spendQuads).2).take pfx.length = pfx) →
        ( check_address_prefix P pfx count (k, s)).2.2.found = s.found)
    ∧ (s.found ≠ count → s.found < INT_MAX →
        (∃ spendPublicKey, P.secret_key_to_public_key k.spendQuads = some spendPublicKey
            ∧ (P.accountAddressAsString spendPublicKey
                (P.generateViewFromSpend k.spendQuads).2).take pfx.length = pfx) →
        ( check_address_prefix P pfx count (k, s)).2.2.found = s.found + 1
        ∧ ( check_address_prefix P pfx count (k, s)).2.2.found ≤ INT_MAX) := by
  unfold check_address_prefix
  simp only
  by_cases hf : s.found = count
  · simp [hf]
  · simp only [hf, if_false, false_iff, Bool.false_eq_true, not_false_eq_true, true_and,
      false_implies, ne_eq, true_implies]
    cases hd : P.secret_key_to_public_key k.spendQuads with
    | none => simp
    | some pk =>
      simp only [Option.some.injEq, exists_eq_left']
      by_cases hm : (P.accountAddressAsString pk (P.generateViewFromSpend k.spendQuads).2).take
          pfx.length = pfx
      · simp only [hm, not_true_eq_false, false_implies, if_true, true_and, true_implies]
        refine ⟨by simp, fun hb => ?_⟩
        unfold INT_MAX at hb ⊢
        omega
      · simp [hm]

/-- C22 at work: with `count = 1` and `found = 0`, a call on a key whose address begins
with the prefix returns `false` with `found = 1`; with `found = 1` the next call returns
`true` and changes nothing. -/
theorem check_address_prefix_spec_witness :
    (( check_address_prefix everyKeyMatches ['T', 'A'] 1
        (zeroKeys, { found := 0, printed := [], calls := [] })).1 = false)
    ∧ ( check_address_prefix everyKeyMatches ['T', 'A'] 1
        (zeroKeys, { found := 0, printed := [], calls := [] })).2.2.found = 0 + 1
    ∧ ( check_address_prefix everyKeyMatches ['T', 'A'] 1
        (zeroKeys, { found := 0, printed := [], calls := [] })).2.2.found ≤ INT_MAX
    ∧ (( check_address_prefix everyKeyMatches ['T', 'A'] 1
        (zeroKeys, { found := 1, printed := [], calls := [] })).1 = true)
    ∧ ( check_address_prefix everyKeyMatches ['T', 'A'] 1
        (zeroKeys, { found := 1, printed := [], calls := [] })).2.2.found = 1 :=
  have h0 := check_address_prefix_spec everyKeyMatches ['T', 'A'] 1 zeroKeys
    { found := 0, printed := [], calls := [] }
  have h1 := check_address_prefix_spec everyKeyMatches ['T', 'A'] 1 zeroKeys
    { found := 1, printed := [], calls := [] }
  have hinc := h0.2.2.2 (by decide) (by decide) ⟨0, rfl, by decide⟩
  ⟨by
    cases hb : ( check_address_prefix everyKeyMatches ['T', 'A'] 1
        (zeroKeys, { found := 0, printed := [], calls := [] })).1 with
    | false => rfl
    | true => exact absurd (h0.1.1 hb) (by decide),
   hinc.1, hinc.2, h1.1.2 rfl, (h1.2.1 rfl).2.1⟩

end AddressGenerator

/-! ## The compare-and-swap of `setStateBlockFound` -/

namespace CryptoNote

/-- C24: a pass through `setStateBlockFound` returns `true` exactly when its
compare-and-swap replaced `MINING_IN_PROGRESS` by `BLOCK_FOUND`; with the observed state
`BLOCK_FOUND` or `MINING_STOPPED` it returns `false` and leaves `m_state` alone; a failed
compare-and-swap leaves `m_state` alone and goes round again; and a worker goes on to
`m_block = block` only from a call that returned `true`: after `false` it has returned, and
no step of a worker other than that assignment changes `m_block`. -/
theorem setStateBlockFound_spec (H : HashPrimitives) (difficulty nonceStep : Nat)
    (spurious : Bool) (m : Miner) (b : BlockTemplate) (state : MiningState) (pc : WorkerPc) :
    (((setStateBlockFound spurious m.m_state state).1 = some true) ↔
      (state = MiningState.MINING_IN_PROGRESS ∧ m.m_state = MiningState.MINING_IN_PROGRESS
        ∧ spurious = false))
    ∧ ((setStateBlockFound spurious m.m_state state).1 = some true →
        (setStateBlockFound spurious m.m_state state).2.1 = MiningState.BLOCK_FOUND)
    ∧ ((state = MiningState.BLOCK_FOUND ∨ state = MiningState.MINING_STOPPED) →
        setStateBlockFound spurious m.m_state state = (some false, m.m_state, state))
    ∧ ((setStateBlockFound spurious m.m_state state).1 ≠ some true →
        (setStateBlockFound spurious m.m_state state).2.1 = m.m_state)
    ∧ ((setStateBlockFound spurious m.m_state state).1 = some true →
        workerFunc H difficulty nonceStep spurious m (WorkerPc.sbfSwitch b state)
          = (WorkerPc.publish b, { m with m_state := MiningState.BLOCK_FOUND }))
    ∧ ((setStateBlockFound spurious m.m_state state).1 = some false →
        workerFunc H difficulty nonceStep spurious m (WorkerPc.sbfSwitch b state)
          = (WorkerPc.done, m))
    ∧ workerFunc H difficulty nonceStep spurious m WorkerPc.done = (WorkerPc.done, m)
    ∧ ((workerFunc H difficulty nonceStep spurious m pc).2.m_block ≠ m.m_block →
        ∃ blk, pc = WorkerPc.publish blk)
    ∧ (∀ blk, (workerFunc H difficulty nonceStep spurious m pc).1 = WorkerPc.publish blk →
        ∃ st, pc = WorkerPc.sbfSwitch blk st
          ∧ (setStateBlockFound spurious m.m_state st).1 = some true) := by
  refine ⟨?_, ?_, ?_, ?_, ?_, ?_, rfl, ?_, ?_⟩
  · cases state <;> cases hm : m.m_state <;> cases spurious <;>
      simp [setStateBlockFound, compare_exchange_weak]
  · cases state <;> cases hm : m.m_state <;> cases spurious <;>
      simp [setStateBlockFound, compare_exchange_weak]
  · rintro (h | h) <;> subst h <;> rfl
  · cases state <;> cases hm : m.m_state <;> cases spurious <;>
      simp [setStateBlockFound, compare_exchange_weak]
  · obtain ⟨st, blk, stopped, cnt⟩ := m
    cases state <;> cases st <;> cases spurious <;>
      simp [setStateBlockFound, compare_exchange_weak, workerFunc]
  · obtain ⟨st, blk, stopped, cnt⟩ := m
    cases state <;> cases st <;> cases spurious <;>
      simp [setStateBlockFound, compare_exchange_weak, workerFunc]
  · obtain ⟨st, blk, stopped, cnt⟩ := m
    cases pc with
    | sbfSwitch b1 st1 =>
      cases st1 <;> cases st <;> cases spurious <;>
        simp [setStateBlockFound, compare_exchange_weak, workerFunc]
    | loopTest b1 => simp only [workerFunc]; split <;> simp
    | hashing b1 => simp only [workerFunc]; split <;> simp
    | sbfLoad b1 => simp [workerFunc]
    | publish b1 => simp [workerFunc]
    | handler => simp [workerFunc]
    | done => simp [workerFunc]
  · intro blk
    obtain ⟨st, blk0, stopped, cnt⟩ := m
    cases pc with
    | sbfSwitch b1 st1 =>
      cases st1 <;> cases st <;> cases spurious <;>
        simp [setStateBlockFound, compare_exchange_weak, workerFunc]
      intro h
      exact ⟨MiningState.MINING_IN_PROGRESS, ⟨h, rfl⟩, rfl⟩
    | loopTest b1 => simp only [workerFunc]; split <;> simp
    | hashing b1 => simp only [workerFunc]; split <;> simp
    | sbfLoad b1 => simp [workerFunc]
    | publish b1 => simp [workerFunc]
    | handler => simp [workerFunc]
    | done => simp [workerFunc]

end CryptoNote

/-! ## Lane arithmetic and the byte order -/

namespace AddressGenerator

theorem toBytes_length (n x : Nat) : (toBytes n x).length = n := by
  induction n generalizing x with
  | zero => rfl
  | succ n ih => simp [toBytes, ih]

theorem toBytes_lt (n x : Nat) : ∀ b, b ∈ toBytes n x → b < 256 := by
  induction n generalizing x with
  | zero => intro b hb; simp [toBytes] at hb
  | succ n ih =>
    intro b hb
    simp only [toBytes, List.mem_cons] at hb
    rcases hb with hb | hb
    · rw [hb]; exact Nat.mod_lt _ (by norm_num)
    · exact ih _ b hb

theorem toBytes_ofBytes (l : List Nat) (h : ∀ b, b ∈ l → b < 256) :
    toBytes l.length (ofBytes l) = l := by
  induction l with
  | nil => rfl
  | cons b bs ih =>
    have hb : b < 256 := h b (List.mem_cons_self b bs)
    have e1 : (b + 256 * ofBytes bs) % 256 = b := by omega
    have e2 : (b + 256 * ofBytes bs) / 256 = ofBytes bs := by omega
    simp only [List.length_cons, toBytes, ofBytes, e1, e2]
    rw [ih (fun c hc => h c (List.mem_cons_of_mem b hc))]

theorem ofBytes_toBytes (n x : Nat) (h : x < 256 ^ n) : ofBytes (toBytes n x) = x := by
  induction n generalizing x with
  | zero =>
    have : x = 0 := by simpa using h
    rw [this]; rfl
  | succ n ih =>
    have h1 : x / 256 < 256 ^ n := by
      apply Nat.div_lt_of_lt_mul
      rw [Nat.pow_succ, Nat.mul_comm] at h
      exact h
    simp only [toBytes, ofBytes, ih _ h1]
    omega

/-- The byte swap is its own inverse on 64-bit words. -/
theorem swap64_swap64 (x : Nat) (h : x < 2 ^ 64) : swap64 (swap64 x) = x := by
  have hlen : (toBytes 8 x).reverse.length = 8 := by
    rw [List.length_reverse, toBytes_length]
  have hlt : ∀ b, b ∈ (toBytes 8 x).reverse → b < 256 := by
    intro b hb
    exact toBytes_lt 8 x b (List.mem_reverse.1 hb)
  have e := toBytes_ofBytes (toBytes 8 x).reverse hlt
  rw [hlen] at e
  unfold swap64
  rw [e, List.reverse_reverse]
  exact ofBytes_toBytes 8 x (by norm_num at h ⊢; exact h)

/-- The wrapping subtraction of 1 is the wrapping addition of `UINT_MAX`. -/
theorem subW_one (w y : Nat) : subW w y 1 = addW w (UINT_MAX w) y := by
  unfold subW addW UINT_MAX
  have hpos : 0 < 2 ^ w := Nat.pos_of_ne_zero (by positivity)
  have h1 : 1 % 2 ^ w ≤ 1 := Nat.mod_le _ _
  rcases Nat.lt_or_ge 1 (2 ^ w) with h | h
  · rw [Nat.mod_eq_of_lt h]
    have e : y % 2 ^ w + 2 ^ w - 1 = (2 ^ w - 1) + y % 2 ^ w := by omega
    rw [e, Nat.add_mod, Nat.mod_mod, ← Nat.add_mod]
  · have e : 2 ^ w = 1 := by omega
    rw [e]
    simp [Nat.mod_one]

/-- The lane of the steps commented `Avoid wraparound` is the lane at offset `UINT_MAX`. -/
theorem laneBefore_eq_laneAt (P : Primitives) (w s : Nat) :
    laneBefore P w s = laneAt P w (UINT_MAX w) s := by
  unfold laneBefore laneAt
  rw [subW_one]

/-- C26: when `SWAP64LE` is its own inverse on 64-bit words, the stored lane
`SWAP64LE(x + SWAP64LE(s))` decodes to `(SWAP64LE(s) + x) mod 2^64` and the lane
`SWAP64LE(SWAP64LE(s) - 1)` of the steps commented `Avoid wraparound` decodes to
`(SWAP64LE(s) + UINT64_MAX) mod 2^64`; and `UINT64_MAX` is the one 64-bit offset that the
loop `for (x = 0; x < UINT64_MAX; x++)` does not reach. -/
theorem lane_arithmetic (P : Primitives) (s x : Nat)
    (hinv : ∀ y, y < 2 ^ 64 → P.SWAP64LE (P.SWAP64LE y) = y) :
    P.SWAP64LE (laneAt P 64 x s) = (P.SWAP64LE s + x) % 2 ^ 64
    ∧ P.SWAP64LE (laneBefore P 64 s) = (P.SWAP64LE s + UINT_MAX 64) % 2 ^ 64
    ∧ UINT_MAX 64 ∉ countUp 64
    ∧ (∀ y, y < 2 ^ 64 → y ≠ UINT_MAX 64 → y ∈ countUp 64) := by
  have hpos : (0 : Nat) < 2 ^ 64 := by norm_num
  refine ⟨?_, ?_, ?_, ?_⟩
  · unfold laneAt addW
    rw [hinv _ (Nat.mod_lt _ hpos), Nat.add_comm]
  · rw [laneBefore_eq_laneAt]
    unfold laneAt addW
    rw [hinv _ (Nat.mod_lt _ hpos), Nat.add_comm]
  · unfold countUp
    rw [List.mem_range]
    exact Nat.lt_irrefl _
  · intro y hy hne
    unfold countUp
    rw [List.mem_range]
    unfold UINT_MAX at hne ⊢
    omega

/-- C26 on a big-endian host: the byte swap satisfies the hypothesis. -/
theorem lane_arithmetic_witness :
    (∀ y, y < 2 ^ 64 → (bigEndian (fun q => some q.q0) (fun q => (q, 0))
        (fun _ _ => [])).SWAP64LE ((bigEndian (fun q => some q.q0) (fun q => (q, 0))
        (fun _ _ => [])).SWAP64LE y) = y)
    ∧ (bigEndian (fun q => some q.q0) (fun q => (q, 0)) (fun _ _ => [])).SWAP64LE
        (laneAt (bigEndian (fun q => some q.q0) (fun q => (q, 0)) (fun _ _ => [])) 64 5 7)
      = ((bigEndian (fun q => some q.q0) (fun q => (q, 0)) (fun _ _ => [])).SWAP64LE 7 + 5)
          % 2 ^ 64
    ∧ (bigEndian (fun q => some q.q0) (fun q => (q, 0)) (fun _ _ => [])).SWAP64LE
        (laneBefore (bigEndian (fun q => some q.q0) (fun q => (q, 0)) (fun _ _ => [])) 64 7)
      = ((bigEndian (fun q => some q.q0) (fun q => (q, 0)) (fun _ _ => [])).SWAP64LE 7
          + UINT_MAX 64) % 2 ^ 64
    ∧ UINT_MAX 64 ∉ countUp 64
    ∧ (∀ y, y < 2 ^ 64 → y ≠ UINT_MAX 64 → y ∈ countUp 64) :=
  ⟨fun y hy => swap64_swap64 y hy,
   lane_arithmetic (bigEndian (fun q => some q.q0) (fun q => (q, 0)) (fun _ _ => [])) 7 5
     (fun y hy => swap64_swap64 y hy)⟩

/-- The identity of a little-endian host satisfies the hypothesis of C26 as well. -/
theorem littleEndian_swap (derive : Quads → Option Nat) (view : Quads → Quads × Nat)
    (encode : Nat → Nat → List Char) (y : Nat) :
    (littleEndian derive view encode).SWAP64LE ((littleEndian derive view encode).SWAP64LE y)
      = y := rfl

/-- The byte swap moves the low byte to the top: it is not the identity. -/
theorem swap64_one : swap64 1 = 2 ^ 56 := by decide

end AddressGenerator

/-! ## The nonces of the hash-search workers -/

namespace CryptoNote

/-- A step of another worker leaves the worker alone. -/
theorem get?_set_of_ne {α : Type} (l : List α) (i j : Nat) (a : α) (h : j ≠ i) :
    (l.set j a).get? i = l.get? i := by
  rw [List.get?_eq_getElem?, List.get?_eq_getElem?, List.getElem?_set_ne h]

/-- A step of the worker replaces its program point. -/
theorem get?_set_self {α : Type} (l : List α) (i : Nat) (a b : α) (h : l.get? i = some b) :
    (l.set i a).get? i = some a := by
  have hlt : i < l.length := by
    rcases Nat.lt_or_ge i l.length with h1 | h1
    · exact h1
    · rw [List.get?_eq_none.2 h1] at h; exact absurd h (by simp)
  rw [List.get?_eq_getElem?, List.getElem?_set_self hlt]

/-- One step of a worker on its own program point: hashing moves it to the next candidate,
every other step keeps its block. -/
theorem holdsBlock_workerFunc (H : HashPrimitives) (difficulty : Nat) (sp : Bool) (m : Miner)
    (tmpl : BlockTemplate) (r N i k0 : Nat) (pc : WorkerPc)
    (h : HoldsBlock (candidateBlock tmpl r N i k0) (some pc)) :
    (∀ b, pc = WorkerPc.hashing b →
      HoldsBlock (candidateBlock tmpl r N i (k0 + 1))
        (some (workerFunc H difficulty (N % 2 ^ 32) sp m pc).1))
    ∧ ((∀ b, pc ≠ WorkerPc.hashing b) →
      HoldsBlock (candidateBlock tmpl r N i k0)
        (some (workerFunc H difficulty (N % 2 ^ 32) sp m pc).1)) := by
  cases pc with
  | loopTest b =>
    refine ⟨fun b1 hb => (by cases hb), fun _ => ?_⟩
    simp only [workerFunc]
    split
    · exact h
    · exact True.intro
  | hashing b =>
    refine ⟨fun _ _ => ?_, fun hne => absurd rfl (hne b)⟩
    simp only [workerFunc]
    split
    · exact True.intro
    · have hb : b = candidateBlock tmpl r N i k0 := h
      show ({ b with nonce := (b.nonce + N % 2 ^ 32) % 2 ^ 32 } : BlockTemplate)
        = candidateBlock tmpl r N i (k0 + 1)
      rw [hb]
      unfold candidateBlock
      have e : r + i + (k0 + 1) * N = (r + i + k0 * N) + N := by ring
      simp only [e]
      congr 1
      omega
  | sbfLoad b => exact ⟨fun b1 hb => (by cases hb), fun _ => True.intro⟩
  | sbfSwitch b st =>
    refine ⟨fun b1 hb => (by cases hb), fun _ => ?_⟩
    cases st <;> cases hm : m.m_state <;> cases sp <;>
      simp [workerFunc, setStateBlockFound, compare_exchange_weak, hm, HoldsBlock]
  | publish b => exact ⟨fun b1 hb => (by cases hb), fun _ => True.intro⟩
  | handler => exact ⟨fun b1 hb => (by cases hb), fun _ => True.intro⟩
  | done => exact ⟨fun b1 hb => (by cases hb), fun _ => True.intro⟩

/-- From a state in which worker `i` holds its candidate number `k0`, the `k`-th block it
hashes from then on is its candidate number `k0 + k`. -/
theorem hashedBy_candidates (H : HashPrimitives) (difficulty : Nat) (tmpl : BlockTemplate)
    (r N i : Nat) :
    ∀ (schedule : List Action) (s : RunState) (k0 : Nat),
      HoldsBlock (candidateBlock tmpl r N i k0) (s.workers.get? i) →
      ∀ k b, (hashedBy H difficulty (N % 2 ^ 32) i s schedule).get? k = some b →
        b = candidateBlock tmpl r N i (k0 + k) := by
  intro schedule
  induction schedule with
  | nil => intro s k0 _ k b hb; simp [hashedBy] at hb
  | cons a rest ih =>
    intro s k0 hs k b hb
    cases a with
    | worker j sp =>
      by_cases e : j = i
      · subst e
        cases hpc : s.workers.get? j with
        | none =>
          have hst : step H difficulty (N % 2 ^ 32) s (Action.worker j sp) = s := by
            simp only [step, hpc]
          simp only [hashedBy, hpc, if_true, hst, List.nil_append] at hb
          exact ih s k0 hs k b hb
        | some pc =>
          rw [hpc] at hs
          have hw := holdsBlock_workerFunc H difficulty sp s.miner tmpl r N j k0 pc hs
          have hnext : (step H difficulty (N % 2 ^ 32) s (Action.worker j sp)).workers.get? j
              = some (workerFunc H difficulty (N % 2 ^ 32) sp s.miner pc).1 := by
            simp only [step, hpc]
            exact get?_set_self _ _ _ _ hpc
          by_cases hh : ∃ blk, pc = WorkerPc.hashing blk
          · obtain ⟨blk, rfl⟩ := hh
            have hblk : blk = candidateBlock tmpl r N j k0 := hs
            simp only [hashedBy, hpc, if_true, List.singleton_append] at hb
            cases k with
            | zero =>
              simp only [List.get?_cons_zero, Option.some.injEq] at hb
              rw [← hb, hblk]
              rfl
            | succ k1 =>
              simp only [List.get?_cons_succ] at hb
              have h1 := ih _ (k0 + 1) (by rw [hnext]; exact hw.1 blk rfl) k1 b hb
              rw [h1]
              congr 1
              omega
          · have hne : ∀ blk, pc ≠ WorkerPc.hashing blk := fun blk hblk => hh ⟨blk, hblk⟩
            have hemit : (match s.workers.get? j with
                | some (WorkerPc.hashing b) => [b]
                | _ => ([] : List BlockTemplate)) = [] := by
              rw [hpc]
              cases pc <;> first | rfl | exact absurd rfl (hne _)
            simp only [hashedBy, if_true, hemit, List.nil_append] at hb
            exact ih _ k0 (by rw [hnext]; exact hw.2 hne) k b hb
      · simp only [hashedBy, if_neg e, List.nil_append] at hb
        refine ih _ k0 ?_ k b hb
        simp only [step]
        cases hj : s.workers.get? j with
        | none => exact hs
        | some pc =>
          simp only
          rw [get?_set_of_ne _ _ _ _ e]
          exact hs
    | raise j =>
      simp only [hashedBy, List.nil_append] at hb
      refine ih _ k0 ?_ k b hb
      simp only [step]
      cases hj : s.workers.get? j with
      | none => exact hs
      | some pc =>
        simp only
        split
        · by_cases e : j = i
          · subst e
            rw [get?_set_self _ _ _ _ hj]
            exact True.intro
          · rw [get?_set_of_ne _ _ _ _ e]
            exact hs
        · exact hs
    | stop sp =>
      simp only [hashedBy, List.nil_append] at hb
      exact ih _ k0 (by simpa [step] using hs) k b hb
    | spawnError =>
      simp only [hashedBy, List.nil_append] at hb
      exact ih _ k0 (by simpa [step] using hs) k b hb

/-- The worker `i` of `runWorkers` starts from the template with nonce `r + i`. -/
theorem spawn_get? (tmpl : BlockTemplate) (r N i : Nat) (hi : i < N) :
    (spawn tmpl r N).get? i
      = some (WorkerPc.loopTest { tmpl with nonce := (r % 2 ^ 32 + i) % 2 ^ 32 }) := by
  unfold spawn
  rw [List.get?_eq_getElem?, List.getElem?_map, List.getElem?_range hi]
  rfl

/-- In the example run worker 0 hashes two blocks, with the nonces 3 and 5, and worker 1
one block, with the nonce 4. -/
theorem hashedBy_example :
    hashedBy nonceHash 5 (2 % 2 ^ 32) 0
        (runWorkersStart ⟨MiningState.MINING_IN_PROGRESS, ⟨0, 0⟩, false, 0⟩ ⟨0, 7⟩ 3 2)
        foundSchedule = [⟨3, 7⟩, ⟨5, 7⟩]
    ∧ hashedBy nonceHash 5 (2 % 2 ^ 32) 1
        (runWorkersStart ⟨MiningState.MINING_IN_PROGRESS, ⟨0, 0⟩, false, 0⟩ ⟨0, 7⟩ 3 2)
        foundSchedule = [⟨4, 7⟩] := by
  decide

/-- Two steps of a worker that stands at the loop test while the token is
`MINING_IN_PROGRESS`: it hashes its block, and when the hash fails `check_hash` it is back
at the loop test with the nonce advanced by `nonceStep`; the token is as it was. -/
theorem hashedBy_two_steps (H : HashPrimitives) (difficulty nonceStep i : Nat)
    (s : RunState) (b : BlockTemplate) (rest : List Action)
    (hpc : s.workers.get? i = some (WorkerPc.loopTest b))
    (hm : s.miner.m_state = MiningState.MINING_IN_PROGRESS) :
    ∃ s2, hashedBy H difficulty nonceStep i s
          (Action.worker i false :: Action.worker i false :: rest)
        = b :: hashedBy H difficulty nonceStep i s2 rest
      ∧ s2.miner.m_state = MiningState.MINING_IN_PROGRESS
      ∧ (H.check_hash (H.getBlockLongHash b) difficulty = false →
          s2.workers.get? i
            = some (WorkerPc.loopTest { b with nonce := (b.nonce + nonceStep) % 2 ^ 32 })) := by
  have hs1 : (step H difficulty nonceStep s (Action.worker i false)).workers.get? i
      = some (WorkerPc.hashing b) := by
    simp only [step, hpc, workerFunc, hm, if_true]
    exact get?_set_self _ _ _ _ hpc
  have hm1 : (step H difficulty nonceStep s (Action.worker i false)).miner.m_state
      = MiningState.MINING_IN_PROGRESS := by
    simp only [step, hpc, workerFunc, hm, if_true]
  refine ⟨step H difficulty nonceStep (step H difficulty nonceStep s (Action.worker i false))
    (Action.worker i false), ?_, ?_, ?_⟩
  · simp only [hashedBy, if_true, hpc, hs1, List.nil_append, List.singleton_append]
  · generalize step H difficulty nonceStep s (Action.worker i false) = s1 at hs1 hm1
    simp only [step, hs1, workerFunc]
    split <;> exact hm1
  · intro hfail
    generalize step H difficulty nonceStep s (Action.worker i false) = s1 at hs1 hm1
    simp only [step, hs1, workerFunc, hfail]
    exact get?_set_self _ _ _ _ hs1

/-- A worker left to run while the token is `MINING_IN_PROGRESS` and its hashes fail
`check_hash` hashes one candidate after the other. -/
theorem hashedBy_solo (H : HashPrimitives) (difficulty : Nat) (tmpl : BlockTemplate)
    (r N i : Nat) :
    ∀ (k : Nat) (s : RunState) (k0 : Nat),
      s.workers.get? i = some (WorkerPc.loopTest (candidateBlock tmpl r N i k0)) →
      s.miner.m_state = MiningState.MINING_IN_PROGRESS →
      (∀ j, j < k → H.check_hash (H.getBlockLongHash (candidateBlock tmpl r N i (k0 + j)))
        difficulty = false) →
      hashedBy H difficulty (N % 2 ^ 32) i s (List.replicate (2 * k + 2) (Action.worker i false))
        = (List.range (k + 1)).map (fun j => candidateBlock tmpl r N i (k0 + j)) := by
  intro k
  induction k with
  | zero =>
    intro s k0 hpc hm _
    obtain ⟨s2, h2, _, _⟩ := hashedBy_two_steps H difficulty (N % 2 ^ 32) i s _ [] hpc hm
    have e : List.replicate (2 * 0 + 2) (Action.worker i false)
        = [Action.worker i false, Action.worker i false] := rfl
    rw [e, h2]
    rfl
  | succ k ih =>
    intro s k0 hpc hm hfail
    obtain ⟨s2, h2, hm2, hpc2⟩ := hashedBy_two_steps H difficulty (N % 2 ^ 32) i s _
      (List.replicate (2 * k + 2) (Action.worker i false)) hpc hm
    have e : List.replicate (2 * (k + 1) + 2) (Action.worker i false)
        = Action.worker i false :: Action.worker i false
          :: List.replicate (2 * k + 2) (Action.worker i false) := by
      have : 2 * (k + 1) + 2 = (2 * k + 2) + 1 + 1 := by ring
      rw [this, List.replicate_succ, List.replicate_succ]
    have hnext : ({ candidateBlock tmpl r N i k0 with
          nonce := ((candidateBlock tmpl r N i k0).nonce + N % 2 ^ 32) % 2 ^ 32 }
        : BlockTemplate) = candidateBlock tmpl r N i (k0 + 1) := by
      unfold candidateBlock
      have e1 : r + i + (k0 + 1) * N = (r + i + k0 * N) + N := by ring
      simp only [e1]
      congr 1
      omega
    have hpc3 := hpc2 (by simpa using hfail 0 (Nat.succ_pos k))
    rw [hnext] at hpc3
    have hrec := ih s2 (k0 + 1) hpc3 hm2 (fun j hj => by
      have := hfail (j + 1) (by omega)
      rw [show k0 + 1 + j = k0 + (j + 1) by omega]
      exact this)
    rw [e, h2, hrec, List.range_succ_eq_map (k + 1), List.map_cons, List.map_map]
    congr 1
    apply List.map_congr_left
    intro j _
    show candidateBlock tmpl r N i (k0 + 1 + j) = candidateBlock tmpl r N i (k0 + (j + 1))
    rw [show k0 + 1 + j = k0 + (j + 1) by omega]

/-- C25: in a run of `threadCount = N` workers started by `runWorkers` with the random base
nonce `r` while the token is `MINING_IN_PROGRESS`: worker `i`, left to run while its first
`k` candidates fail `check_hash`, hashes `k + 1` blocks, the templates with the nonces
`(r + i + j * N) mod 2^32` for `j = 0, ..., k`; under every schedule the `n`-th block it
hashes is the template with nonce `(r + i + n * N) mod 2^32`; and for `N ≤ 2^32` the
workers start from pairwise distinct nonces. -/
theorem worker_nonces (H : HashPrimitives) (difficulty : Nat) (m : Miner)
    (tmpl : BlockTemplate) (r N i k : Nat) (schedule : List Action) (hi : i < N)
    (hm : m.m_state = MiningState.MINING_IN_PROGRESS)
    (hfail : ∀ j, j < k → H.check_hash
      (H.getBlockLongHash { tmpl with nonce := (r + i + j * N) % 2 ^ 32 }) difficulty = false) :
    hashedBy H difficulty (N % 2 ^ 32) i (runWorkersStart m tmpl r N)
        (List.replicate (2 * k + 2) (Action.worker i false))
      = (List.range (k + 1)).map (fun j => { tmpl with nonce := (r + i + j * N) % 2 ^ 32 })
    ∧ (∀ n b, (hashedBy H difficulty (N % 2 ^ 32) i (runWorkersStart m tmpl r N)
        schedule).get? n = some b → b = { tmpl with nonce := (r + i + n * N) % 2 ^ 32 })
    ∧ (N ≤ 2 ^ 32 → ∀ j, j < N → j ≠ i →
        ∃ bi bj, (spawn tmpl r N).get? i = some (WorkerPc.loopTest bi)
          ∧ (spawn tmpl r N).get? j = some (WorkerPc.loopTest bj)
          ∧ bi.nonce = (r + i) % 2 ^ 32 ∧ bj.nonce = (r + j) % 2 ^ 32
          ∧ bi.nonce ≠ bj.nonce) := by
  have hstart : ({ tmpl with nonce := (r % 2 ^ 32 + i) % 2 ^ 32 } : BlockTemplate)
      = candidateBlock tmpl r N i 0 := by
    unfold candidateBlock
    congr 1
    omega
  refine ⟨?_, ?_, ?_⟩
  · have hpc : (runWorkersStart m tmpl r N).workers.get? i
        = some (WorkerPc.loopTest (candidateBlock tmpl r N i 0)) := by
      show (spawn tmpl r N).get? i = _
      rw [spawn_get? tmpl r N i hi, hstart]
    have h := hashedBy_solo H difficulty tmpl r N i k (runWorkersStart m tmpl r N) 0 hpc hm
      (fun j hj => by
        rw [Nat.zero_add]
        exact hfail j hj)
    rw [h]
    apply List.map_congr_left
    intro j _
    rw [Nat.zero_add]
    rfl
  · intro n b hb
    have h0 : HoldsBlock (candidateBlock tmpl r N i 0)
        ((runWorkersStart m tmpl r N).workers.get? i) := by
      show HoldsBlock _ ((spawn tmpl r N).get? i)
      rw [spawn_get? tmpl r N i hi]
      exact hstart
    have h := hashedBy_candidates H difficulty tmpl r N i schedule _ 0 h0 n b hb
    rw [h, Nat.zero_add]
    rfl
  · intro hN j hj hne
    refine ⟨_, _, spawn_get? tmpl r N i hi, spawn_get? tmpl r N j hj, ?_, ?_, ?_⟩
    · show (r % 2 ^ 32 + i) % 2 ^ 32 = (r + i) % 2 ^ 32
      omega
    · show (r % 2 ^ 32 + j) % 2 ^ 32 = (r + j) % 2 ^ 32
      omega
    · show (r % 2 ^ 32 + i) % 2 ^ 32 ≠ (r % 2 ^ 32 + j) % 2 ^ 32
      omega

/-- C25 at work: two workers, base nonce 3, a hash that passes at nonce 5 only; worker 0,
left to run for four steps, hashes the blocks with the nonces 3 and 5. -/
theorem worker_nonces_witness :
    0 < 2
    ∧ (⟨MiningState.MINING_IN_PROGRESS, ⟨0, 0⟩, false, 0⟩ : Miner).m_state
        = MiningState.MINING_IN_PROGRESS
    ∧ (∀ j, j < 1 → nonceHash.check_hash
        (nonceHash.getBlockLongHash
          { (⟨0, 7⟩ : BlockTemplate) with nonce := (3 + 0 + j * 2) % 2 ^ 32 }) 5 = false)
    ∧ hashedBy nonceHash 5 (2 % 2 ^ 32) 0
          (runWorkersStart ⟨MiningState.MINING_IN_PROGRESS, ⟨0, 0⟩, false, 0⟩ ⟨0, 7⟩ 3 2)
          (List.replicate (2 * 1 + 2) (Action.worker 0 false))
        = (List.range (1 + 1)).map
            (fun j => { (⟨0, 7⟩ : BlockTemplate) with nonce := (3 + 0 + j * 2) % 2 ^ 32 })
    ∧ (∀ n b, (hashedBy nonceHash 5 (2 % 2 ^ 32) 0
          (runWorkersStart ⟨MiningState.MINING_IN_PROGRESS, ⟨0, 0⟩, false, 0⟩ ⟨0, 7⟩ 3 2)
          foundSchedule).get? n = some b →
        b = { (⟨0, 7⟩ : BlockTemplate) with nonce := (3 + 0 + n * 2) % 2 ^ 32 })
    ∧ (2 ≤ 2 ^ 32 → ∀ j, j < 2 → j ≠ 0 →
        ∃ bi bj, (spawn ⟨0, 7⟩ 3 2).get? 0 = some (WorkerPc.loopTest bi)
          ∧ (spawn ⟨0, 7⟩ 3 2).get? j = some (WorkerPc.loopTest bj)
          ∧ bi.nonce = (3 + 0) % 2 ^ 32 ∧ bj.nonce = (3 + j) % 2 ^ 32
          ∧ bi.nonce ≠ bj.nonce) :=
  have hfail : ∀ j, j < 1 → nonceHash.check_hash
      (nonceHash.getBlockLongHash
        { (⟨0, 7⟩ : BlockTemplate) with nonce := (3 + 0 + j * 2) % 2 ^ 32 }) 5 = false := by
    intro j hj
    have : j = 0 := by omega
    subst this
    decide
  ⟨by decide, rfl, hfail,
   worker_nonces nonceHash 5 ⟨MiningState.MINING_IN_PROGRESS, ⟨0, 0⟩, false, 0⟩ ⟨0, 7⟩ 3 2 0 1
     foundSchedule (by decide) rfl hfail⟩

/-- The blocks of the example, evaluated: the nonces 3 and 5. -/
theorem solo_worker_example :
    hashedBy nonceHash 5 (2 % 2 ^ 32) 0
        (runWorkersStart ⟨MiningState.MINING_IN_PROGRESS, ⟨0, 0⟩, false, 0⟩ ⟨0, 7⟩ 3 2)
        (List.replicate (2 * 1 + 2) (Action.worker 0 false)) = [⟨3, 7⟩, ⟨5, 7⟩]
    ∧ (List.range (1 + 1)).map
        (fun j => { (⟨0, 7⟩ : BlockTemplate) with nonce := (3 + 0 + j * 2) % 2 ^ 32 })
      = [⟨3, 7⟩, ⟨5, 7⟩] := by
  decide

end CryptoNote

/-! ## The strided walk for every thread count -/

namespace AddressGenerator

/-- The strided loop returns as soon as some counter value is not below `last`: it runs for
the least such index. -/
theorem strideLoop_returns (w t lastV d J fuel : Nat) (hd : d < 2 ^ w) (hf : J < fuel)
    (hJ : ¬ ((d + J * t) % 2 ^ w < lastV)) :
    ∃ n, n ≤ J
      ∧ strideLoop w t lastV fuel d = some ((List.range n).map (fun j => (d + j * t) % 2 ^ w))
      ∧ (∀ j, j < n → (d + j * t) % 2 ^ w < lastV)
      ∧ ¬ ((d + n * t) % 2 ^ w < lastV) := by
  have hex : ∃ n, ¬ ((d + n * t) % 2 ^ w < lastV) := ⟨J, hJ⟩
  refine ⟨Nat.find hex, Nat.find_min' hex hJ, ?_, ?_, Nat.find_spec hex⟩
  · refine strideLoop_eq_map w t lastV (Nat.find hex) fuel d hd
      (Nat.lt_of_le_of_lt (Nat.find_min' hex hJ) hf) ?_ (Nat.find_spec hex)
    intro j hj
    exact Decidable.not_not.1 (Nat.find_min hex hj)
  · intro j hj
    exact Decidable.not_not.1 (Nat.find_min hex hj)

/-- The value `last` for two or more threads, as long as the thread count fits an `int`. -/
theorem last_eq (T i : Nat) (h2 : 2 ≤ T) (hT : T < 2 ^ 31) (hi : i < T) :
    last 64 T i = 2 ^ 64 - T + ((2 ^ 64 - T) % T + i) % T := by
  have hTpos : 0 < T := by omega
  have hρ : (2 ^ 64 - T) % T < T := Nat.mod_lt _ hTpos
  have he : ((2 ^ 64 - T) % T + i) % T < T := Nat.mod_lt _ hTpos
  have hne : T ≠ 1 := by omega
  have e1 : toLane 64 T = T := Nat.mod_eq_of_lt (by omega)
  have e2 : toLane 64 i = i := Nat.mod_eq_of_lt (by omega)
  have e3 : addW 64 (subW 64 (UINT_MAX 64) T) 1 = 2 ^ 64 - T := by
    unfold addW subW UINT_MAX
    omega
  unfold last
  rw [if_neg hne]
  simp only [e1, e2, e3]
  generalize (2 ^ 64 - T) % T = ρ at hρ he ⊢
  have e4 : addW 64 ρ i = ρ + i := by
    unfold addW
    exact Nat.mod_eq_of_lt (by omega)
  rw [e4]
  generalize (ρ + i) % T = e at he ⊢
  unfold addW
  exact Nat.mod_eq_of_lt (by omega)

/-- For two or more threads some value of the loop counter is `last`, before the counter
has wrapped `threads - 1` times. -/
theorem counter_reaches_last (T i : Nat) (h2 : 2 ≤ T) (hT : T < 2 ^ 31) (hi : i < T) :
    ∃ J, i + J * T + 2 * 2 ^ 64 = T * 2 ^ 64 + last 64 T i := by
  rw [last_eq T i h2 hT hi]
  have hTpos : 0 < T := by omega
  have hB : 2 ^ 64 - T = T * ((2 ^ 64 - T) / T) + (2 ^ 64 - T) % T :=
    (Nat.div_add_mod _ _).symm
  have hρ : (2 ^ 64 - T) % T < T := Nat.mod_lt _ hTpos
  have hq : 1 ≤ (2 ^ 64 - T) / T := by
    rw [Nat.one_le_div_iff hTpos]
    omega
  generalize (2 ^ 64 - T) / T = q at hB hq
  generalize (2 ^ 64 - T) % T = ρ at hB hρ ⊢
  have hce : ρ + i = T * ((ρ + i) / T) + (ρ + i) % T := (Nat.div_add_mod _ _).symm
  have he : (ρ + i) % T < T := Nat.mod_lt _ hTpos
  have hc : (ρ + i) / T ≤ 1 := by
    have : (ρ + i) / T < 2 := by
      rw [Nat.div_lt_iff_lt_mul hTpos]
      omega
    omega
  generalize (ρ + i) / T = c at hce hc
  generalize (ρ + i) % T = e at hce he ⊢
  -- A = (T - 1) * (q + 1)
  obtain ⟨A, hA⟩ : ∃ A, A + (q + 1) = T * (q + 1) :=
    ⟨(T - 1) * (q + 1), by
      have : T = (T - 1) + 1 := by omega
      nth_rewrite 2 [this]
      ring⟩
  have hA2 : 2 ≤ A := by
    have h3 : 2 * (q + 1) ≤ T * (q + 1) := Nat.mul_le_mul_right _ h2
    omega
  obtain ⟨J, hJ⟩ : ∃ J, A + ρ = 1 + c + J := ⟨A + ρ - 1 - c, by omega⟩
  refine ⟨J, ?_⟩
  have hB1 : (2 : Nat) ^ 64 = T * q + ρ + T := by omega
  have hlast : 2 ^ 64 - T + e + T = 2 ^ 64 + e := by omega
  generalize 2 ^ 64 - T + e = lastV at hlast ⊢
  generalize (2 : Nat) ^ 64 = B at hB1 hlast ⊢
  zify at hB1 hce hA hJ hlast ⊢
  linear_combination hce + (1 - (T : Int)) * hB1 + (T : Int) * hA - (T : Int) * hJ - hlast

/-- For every thread count that fits an `int` the strided loop on the 64-bit lane returns
within the fuel `2 ^ 64`, after `n` increments of its counter of which fewer than `threads`
wrap. -/
theorem strideLoop_run (T i : Nat) (h1 : 1 ≤ T) (hT : T < 2 ^ 31) (hi : i < T) :
    ∃ n, strideLoop 64 T (last 64 T i) (2 ^ 64) (toLane 64 i)
          = some ((List.range n).map (fun j => (i + j * T) % 2 ^ 64))
      ∧ (i + n * T) / 2 ^ 64 < T := by
  have e2 : toLane 64 i = i := Nat.mod_eq_of_lt (by omega)
  rw [e2]
  rcases Nat.lt_or_ge T 2 with hlt | h2
  · have hT1 : T = 1 := by omega
    subst hT1
    have hi0 : i = 0 := by omega
    subst hi0
    refine ⟨2 ^ 64 - 1, ?_, by norm_num⟩
    have := strideLoop_single
    rw [(by decide : toLane 64 0 = 0)] at this
    exact this
  · obtain ⟨J, hJ⟩ := counter_reaches_last T i h2 hT hi
    have hlastlt : last 64 T i < 2 ^ 64 := by
      rw [last_eq T i h2 hT hi]
      have : ((2 ^ 64 - T) % T + i) % T < T := Nat.mod_lt _ (by omega)
      omega
    -- the counter value number `J` is `last`
    obtain ⟨p, hp⟩ : ∃ p, T = p + 2 := ⟨T - 2, by omega⟩
    have hsum : i + J * T = last 64 T i + 2 ^ 64 * p := by
      have : T * 2 ^ 64 = 2 ^ 64 * p + 2 * 2 ^ 64 := by rw [hp]; ring
      omega
    have hmod : (i + J * T) % 2 ^ 64 = last 64 T i := by
      rw [hsum, Nat.add_mul_mod_self_left, Nat.mod_eq_of_lt hlastlt]
    have hJlt : J < 2 ^ 64 := by
      have h3 : J * T < 2 ^ 64 * T := by
        have : 2 ^ 64 * T = 2 ^ 64 * p + 2 * 2 ^ 64 := by rw [hp]; ring
        omega
      exact Nat.lt_of_mul_lt_mul_right h3
    obtain ⟨n, hn, hrun, _, _⟩ := strideLoop_returns 64 T (last 64 T i) i J (2 ^ 64)
      (by omega) hJlt (by rw [hmod]; exact Nat.lt_irrefl _)
    refine ⟨n, hrun, ?_⟩
    have hle : n * T ≤ J * T := Nat.mul_le_mul_right T hn
    rw [Nat.div_lt_iff_lt_mul (by norm_num)]
    have : T * 2 ^ 64 = 2 ^ 64 * p + 2 * 2 ^ 64 := by rw [hp]; ring
    omega

/-- C29: for every thread count `T` from 1 up to the largest `int` and every
`threadId < T`, the strided loop `for (d = threadId; d < last; d += T)` on the 64-bit lane
returns: it runs for some number `n` of increments of its counter, whose values are
`(threadId + j * T) mod 2^64`, and in these increments the counter wraps
`(threadId + n * T) / 2^64` times, fewer than `T`. -/
theorem strideLoop_terminates (T i : Nat) (h1 : 1 ≤ T) (hT : T < 2 ^ 31) (hi : i < T) :
    ∃ n, strideLoop 64 T (last 64 T i) (2 ^ 64) (toLane 64 i)
          = some ((List.range n).map (fun j => (i + j * T) % 2 ^ 64))
      ∧ (i + n * T) / 2 ^ 64 < T :=
  strideLoop_run T i h1 hT hi

/-- C29 at work for three threads, worker 1. -/
theorem strideLoop_terminates_witness :
    1 ≤ 3 ∧ 3 < 2 ^ 31 ∧ 1 < 3
    ∧ ∃ n, strideLoop 64 3 (last 64 3 1) (2 ^ 64) (toLane 64 1)
          = some ((List.range n).map (fun j => (1 + j * 3) % 2 ^ 64))
      ∧ (1 + n * 3) / 2 ^ 64 < 3 :=
  ⟨by decide, by decide, by decide,
   strideLoop_terminates 3 1 (by decide) (by decide) (by decide)⟩


/-- The value `last` when the thread count divides `2 ^ 64`. -/
theorem last_of_dvd (T Q i : Nat) (h1 : 1 ≤ T) (hT : T < 2 ^ 31) (hTQ : T * Q = 2 ^ 64)
    (hi : i < T) : last 64 T i = 2 ^ 64 - T + i := by
  rcases Nat.lt_or_ge T 2 with hlt | h2
  · have hT1 : T = 1 := by omega
    subst hT1
    have hi0 : i = 0 := by omega
    subst hi0
    rfl
  · rw [last_eq T i h2 hT hi]
    have hQ : 1 ≤ Q := by
      rcases Nat.eq_zero_or_pos Q with h | h
      · rw [h] at hTQ; norm_num at hTQ
      · exact h
    have hdvd : (2 ^ 64 - T) % T = 0 := by
      have : 2 ^ 64 - T = T * (Q - 1) := by
        rw [Nat.mul_sub, hTQ, Nat.mul_one]
      rw [this, Nat.mul_mod_right]
    rw [hdvd, Nat.zero_add, Nat.mod_eq_of_lt hi]

/-- The strided loop when the thread count divides `2 ^ 64`: the counter takes the values
`threadId + j * threads` for `j < 2 ^ 64 / threads - 1`, without wrapping. -/
theorem strideLoop_of_dvd (T Q i : Nat) (h1 : 1 ≤ T) (hT : T < 2 ^ 31) (hTQ : T * Q = 2 ^ 64)
    (hi : i < T) :
    strideLoop 64 T (last 64 T i) (2 ^ 64) (toLane 64 i)
      = some ((List.range (Q - 1)).map (fun j => i + j * T)) := by
  have e2 : toLane 64 i = i := Nat.mod_eq_of_lt (by omega)
  have hQ : 2 ≤ Q := by
    rcases Nat.lt_or_ge Q 2 with h | h
    · have : T * Q ≤ T * 1 := Nat.mul_le_mul_left T (by omega)
      omega
    · exact h
  have hbound : ∀ j, j < Q → i + j * T + T ≤ 2 ^ 64 + i := by
    intro j hj
    have : (j + 1) * T ≤ Q * T := Nat.mul_le_mul_right T (by omega)
    rw [Nat.mul_comm Q T, hTQ, Nat.add_mul, Nat.one_mul] at this
    omega
  have hQlt : Q ≤ 2 ^ 64 := by
    have : 1 * Q ≤ T * Q := Nat.mul_le_mul_right Q h1
    omega
  have hrun := strideLoop_eq_map 64 T (2 ^ 64 - T + i) (Q - 1) (2 ^ 64) i (by omega)
    (by omega)
    (fun j hj => by
      have h3 : (j + 2) * T ≤ Q * T := Nat.mul_le_mul_right T (by omega)
      rw [Nat.mul_comm Q T, hTQ, Nat.add_mul] at h3
      rw [Nat.mod_eq_of_lt (by omega)]
      omega)
    (by
      have h3 : (Q - 1) * T + T = 2 ^ 64 := by
        rw [Nat.sub_mul, Nat.one_mul, Nat.mul_comm Q T, hTQ]
        omega
      rw [Nat.mod_eq_of_lt (by omega)]
      omega)
  rw [last_of_dvd T Q i h1 hT hTQ hi, e2, hrun]
  congr 1
  apply List.map_congr_left
  intro j hj
  rw [List.mem_range] at hj
  have := hbound j (by omega)
  exact Nat.mod_eq_of_lt (by omega)

/-- C28: for a thread count `T = 2 ^ k` with `k ≤ 30` and `threadId < T`, `last` is
`2 ^ 64 - T + threadId`; the strided loop returns and its counter never wraps (every value
`d` it takes has `d + T ≤ last`); the worker produces the offsets `threadId + j * T` for
`j < 2 ^ 64 / T` in increasing order, which are exactly the 64-bit offsets congruent to
`threadId` modulo `T`; so every 64-bit offset is produced by the worker `offset mod T`
alone, once. -/
theorem walkerOffsets_power_of_two (k i : Nat) (hk : k ≤ 30) (hi : i < 2 ^ k) :
    last 64 (2 ^ k) i = 2 ^ 64 - 2 ^ k + i
    ∧ (∃ ds, strideLoop 64 (2 ^ k) (last 64 (2 ^ k) i) (2 ^ 64) (toLane 64 i) = some ds
        ∧ ∀ d, d ∈ ds → d + 2 ^ k ≤ last 64 (2 ^ k) i)
    ∧ walkerOffsets 64 (2 ^ k) i (2 ^ 64)
        = some ((List.range (2 ^ (64 - k))).map (fun j => i + j * 2 ^ k))
    ∧ (∀ x, x ∈ (List.range (2 ^ (64 - k))).map (fun j => i + j * 2 ^ k)
        ↔ x < 2 ^ 64 ∧ x % 2 ^ k = i)
    ∧ ((List.range (2 ^ (64 - k))).map (fun j => i + j * 2 ^ k)).Pairwise
        (fun x y => x < y) := by
  have hTQ : 2 ^ k * 2 ^ (64 - k) = 2 ^ 64 := by
    rw [← Nat.pow_add]
    congr 1
    omega
  have h1 : 1 ≤ 2 ^ k := Nat.one_le_two_pow
  have hT : 2 ^ k < 2 ^ 31 := Nat.pow_lt_pow_right (by norm_num) (by omega)
  generalize 2 ^ k = T at hi hTQ h1 hT ⊢
  generalize 2 ^ (64 - k) = Q at hTQ ⊢
  have hlast := last_of_dvd T Q i h1 hT hTQ hi
  have hloop := strideLoop_of_dvd T Q i h1 hT hTQ hi
  have hQ : 1 ≤ Q := by
    rcases Nat.eq_zero_or_pos Q with h | h
    · rw [h] at hTQ; norm_num at hTQ
    · exact h
  have hbound : ∀ j, j < Q → i + j * T + T ≤ 2 ^ 64 + i := by
    intro j hj
    have : (j + 1) * T ≤ Q * T := Nat.mul_le_mul_right T (by omega)
    rw [Nat.mul_comm Q T, hTQ, Nat.add_mul, Nat.one_mul] at this
    omega
  have hlastQ : 2 ^ 64 - T + i = i + (Q - 1) * T := by
    have h3 : (Q - 1) * T + T = 2 ^ 64 := by
      rw [Nat.sub_mul, Nat.one_mul, Nat.mul_comm Q T, hTQ]
      omega
    omega
  refine ⟨hlast, ⟨_, hloop, ?_⟩, ?_, ?_, ?_⟩
  · intro d hd
    rw [List.mem_map] at hd
    obtain ⟨j, hj, rfl⟩ := hd
    rw [List.mem_range] at hj
    have h3 : (j + 2) * T ≤ Q * T := Nat.mul_le_mul_right T (by omega)
    rw [Nat.mul_comm Q T, hTQ, Nat.add_mul] at h3
    rw [hlast]
    omega
  · unfold walkerOffsets
    rw [hloop, Option.map_some', hlast, hlastQ]
    congr 1
    rw [← range_pred_append Q hQ, List.map_append]
    rfl
  · intro x
    rw [List.mem_map]
    constructor
    · rintro ⟨j, hj, rfl⟩
      rw [List.mem_range] at hj
      have := hbound j hj
      refine ⟨by omega, ?_⟩
      rw [Nat.add_mul_mod_self_right, Nat.mod_eq_of_lt hi]
    · rintro ⟨hx, hmod⟩
      refine ⟨x / T, ?_, ?_⟩
      · rw [List.mem_range, Nat.div_lt_iff_lt_mul (by omega), Nat.mul_comm, hTQ]
        exact hx
      · have := Nat.mod_add_div x T
        rw [hmod] at this
        rw [Nat.mul_comm]
        exact this
  · rw [List.pairwise_map]
    refine List.Pairwise.imp ?_ (List.pairwise_lt_range Q)
    intro a b hab
    have : a * T < b * T := Nat.mul_lt_mul_of_pos_right hab (by omega)
    omega

/-- C28 at work for four threads, worker 3. -/
theorem walkerOffsets_power_of_two_witness :
    2 ≤ 30 ∧ 3 < 2 ^ 2
    ∧ last 64 (2 ^ 2) 3 = 2 ^ 64 - 2 ^ 2 + 3
    ∧ (∃ ds, strideLoop 64 (2 ^ 2) (last 64 (2 ^ 2) 3) (2 ^ 64) (toLane 64 3) = some ds
        ∧ ∀ d, d ∈ ds → d + 2 ^ 2 ≤ last 64 (2 ^ 2) 3)
    ∧ walkerOffsets 64 (2 ^ 2) 3 (2 ^ 64)
        = some ((List.range (2 ^ (64 - 2))).map (fun j => 3 + j * 2 ^ 2))
    ∧ (∀ x, x ∈ (List.range (2 ^ (64 - 2))).map (fun j => 3 + j * 2 ^ 2)
        ↔ x < 2 ^ 64 ∧ x % 2 ^ 2 = 3)
    ∧ ((List.range (2 ^ (64 - 2))).map (fun j => 3 + j * 2 ^ 2)).Pairwise
        (fun x y => x < y) :=
  ⟨by decide, by decide, walkerOffsets_power_of_two 2 3 (by decide) (by decide)⟩

end AddressGenerator

/-! ## When the prefix search tests its counter -/

namespace AddressGenerator

/-- C23 as stated fails: with `count = 1` and a first candidate that is a discovery, the
single worker returns after at most two calls, inside the first step of its outermost
lane, although that step alone has more than two inner candidates. -/
theorem found_tested_at_every_candidate :
    (∃ r, prefix_worker everyKeyMatches 64 ['T', 'A'] 1 0 1
          { spendQuads := ⟨1, 2, 3, 4⟩, viewQuads := ⟨5, 6, 7, 8⟩ } (2 ^ 64) zeroKeys
          { found := 0, printed := [], calls := [] } = some r
      ∧ r.found = 1 ∧ r.printed.length = 1 ∧ r.calls.length ≤ 2)
    ∧ 2 < (countUp 64).length := by
  constructor
  · obtain ⟨ds, hds⟩ := strideLoop_single_cons
    obtain ⟨cs, hcs⟩ := countUp_sixtyfour
    refine ⟨(prefix_worker_body everyKeyMatches 64 ['T', 'A'] 1
        { spendQuads := ⟨1, 2, 3, 4⟩, viewQuads := ⟨5, 6, 7, 8⟩ } (last 64 1 0) (0 :: ds)
        (zeroKeys, { found := 0, printed := [], calls := [] })).2.2,
      by simp only [prefix_worker, hds, Option.map_some'], ?_⟩
    exact Triple.holds
      (prefix_worker_body_first everyKeyMatches 64 ['T', 'A']
        { spendQuads := ⟨1, 2, 3, 4⟩, viewQuads := ⟨5, 6, 7, 8⟩ } (last 64 1 0) ds cs hcs
        first_candidate_discovered)
      (zeroKeys, { found := 0, printed := [], calls := [] }) rfl
  · unfold countUp UINT_MAX
    rw [List.length_range]
    norm_num

end AddressGenerator

/-! ## The candidates of `prefix_worker` in the order of evaluation -/

namespace AddressGenerator

theorem prefix_worker_body_eq (P : Primitives) (w : Nat) (pfx : List Char) (count : Int)
    (startKeys : keys) (lastV : Nat) (ds : List Nat) :
    prefix_worker_body P w pfx count startKeys lastV ds
      = Stmt.seq
          (forLoop (fun a =>
            Stmt.seq (setSpend3 (laneAt P w a startKeys.spendQuads.q3))
              (prefixLane2 P w pfx count startKeys lastV ds)) (countUp w))
          (Stmt.seq (setSpend3 (laneBefore P w startKeys.spendQuads.q3))
            (Stmt.void ( check_address_prefix P pfx count))) := rfl

/-- A call of `check_address_prefix` that returns `true` found `found == count`. -/
theorem check_address_prefix_true (P : Primitives) (pfx : List Char) (count : Int)
    (ks : keys × PrefixSearch) (h : ( check_address_prefix P pfx count ks).1 = true) :
    ( check_address_prefix P pfx count ks).2.2.found = count := by
  obtain ⟨k, s⟩ := ks
  rw [check_address_prefix_eq] at h ⊢
  by_cases hf : s.found = count
  · rw [if_pos hf]; exact hf
  · rw [if_neg hf] at h
    split at h <;> simp at h

theorem collects_check (count : Int) (Total : List Quads) (P : Primitives) (pfx : List Char)
    (q : Quads) :
    Collects count Total (fun k => k = q) ( check_address_prefix P pfx count) [q]
      (fun k => k = q) := by
  intro L hL ks h
  obtain ⟨hk, hc⟩ := h
  obtain ⟨e1, e2⟩ := check_address_prefix_frame P pfx count ks
  have hcalls : ( check_address_prefix P pfx count ks).2.2.calls = L ++ [q] := by
    rw [e2, hc, hk]
  refine ⟨fun _ => ⟨by rw [e1]; exact hk, hcalls⟩, fun ht => ⟨?_, ?_⟩⟩
  · rw [hcalls]; exact hL
  · exact check_address_prefix_true P pfx count ks ht

theorem collects_assign (count : Int) (Total : List Quads) (K K1 : Quads → Prop)
    (c : Stmt (keys × PrefixSearch)) (hc : ∀ ks, (c ks).1 = false)
    (h2 : ∀ ks, (c ks).2.2 = ks.2)
    (hK : ∀ ks, K ks.1.spendQuads → K1 (c ks).2.1.spendQuads) :
    Collects count Total K c [] K1 := by
  intro L _
  refine Triple.assign hc ?_
  intro ks h
  refine ⟨hK ks h.1, ?_⟩
  rw [h2, List.append_nil]
  exact h.2

theorem collects_seq {count : Int} {Total : List Quads} {K K1 K2 : Quads → Prop}
    {c1 c2 : Stmt (keys × PrefixSearch)} {xs ys : List Quads}
    (h1 : Collects count Total K c1 xs K1) (h2 : Collects count Total K1 c2 ys K2) :
    Collects count Total K (Stmt.seq c1 c2) (xs ++ ys) K2 := by
  intro L hL
  have hL1 : (L ++ xs) <+: Total := by
    rw [← List.append_assoc] at hL
    exact List.IsPrefix.trans (List.prefix_append _ _) hL
  have hL2 : ((L ++ xs) ++ ys) <+: Total := by
    rw [List.append_assoc]; exact hL
  refine Triple.seq (h1 L hL1) (Triple.weaken (h2 (L ++ xs) hL2) (fun _ h => h) ?_)
  intro ks h
  rw [← List.append_assoc]
  exact h

theorem collects_weaken {count : Int} {Total : List Quads} {K K' K1 K1' : Quads → Prop}
    {c : Stmt (keys × PrefixSearch)} {xs : List Quads}
    (h : Collects count Total K' c xs K1') (hpre : ∀ q, K q → K' q)
    (hpost : ∀ q, K1' q → K1 q) :
    Collects count Total K c xs K1 := by
  intro L hL
  exact Triple.weaken (h L hL) (fun ks hk => ⟨hpre _ hk.1, hk.2⟩)
    (fun ks hk => ⟨hpost _ hk.1, hk.2⟩)

theorem collects_congr {count : Int} {Total : List Quads} {K K1 : Quads → Prop}
    {c : Stmt (keys × PrefixSearch)} {xs ys : List Quads}
    (h : Collects count Total K c xs K1) (e : xs = ys) :
    Collects count Total K c ys K1 := by
  rw [← e]; exact h

theorem collects_forLoop {count : Int} {Total : List Quads} {K : Quads → Prop}
    {body : Nat → Stmt (keys × PrefixSearch)} {f : Nat → List Quads} :
    ∀ (xs : List Nat), (∀ x, x ∈ xs → Collects count Total K (body x) (f x) K) →
      Collects count Total K (AddressGenerator.forLoop body xs) (xs.flatMap f) K := by
  intro xs
  induction xs with
  | nil =>
    intro _
    exact collects_assign count Total K K _ (fun _ => rfl) (fun _ => rfl) (fun _ h => h)
  | cons x xs ih =>
    intro h
    rw [List.flatMap_cons]
    exact collects_seq (h x (List.mem_cons_self x xs))
      (ih (fun y hy => h y (List.mem_cons_of_mem x hy)))

theorem collects_forLoop_of_ne_nil {count : Int} {Total : List Quads} {K K1 : Quads → Prop}
    {body : Nat → Stmt (keys × PrefixSearch)} {f : Nat → List Quads}
    (hK : ∀ q, K1 q → K q) :
    ∀ (xs : List Nat), xs ≠ [] → (∀ x, x ∈ xs → Collects count Total K (body x) (f x) K1) →
      Collects count Total K (AddressGenerator.forLoop body xs) (xs.flatMap f) K1 := by
  intro xs
  induction xs with
  | nil => intro h; exact absurd rfl h
  | cons x xs ih =>
    intro _ h
    rw [List.flatMap_cons]
    by_cases hx : xs = []
    · subst hx
      exact collects_seq (h x (List.mem_cons_self x []))
        (collects_assign count Total K1 K1 _ (fun _ => rfl) (fun _ => rfl) (fun _ h => h))
    · exact collects_seq
        (collects_weaken (h x (List.mem_cons_self x xs)) (fun _ hq => hq) hK)
        (ih hx (fun y hy => h y (List.mem_cons_of_mem x hy)))


theorem flatMap_singleton_map {α β : Type} (f : α → β) (l : List α) :
    l.flatMap (fun x => [] ++ [f x]) = l.map f := by
  induction l with
  | nil => rfl
  | cons x xs ih => rw [List.flatMap_cons, ih]; rfl

/-- The loop over lane 0 and its boundary step hand over the candidates at the offsets
`offsets0`, in this order. -/
theorem collects_lane0 (P : Primitives) (w : Nat) (pfx : List Char) (count : Int)
    (startKeys : keys) (lastV : Nat) (ds : List Nat) (Total : List Quads) (a b c : Nat) :
    Collects count Total
      (fun q => q.q3 = laneAt P w a startKeys.spendQuads.q3
        ∧ q.q2 = laneAt P w b startKeys.spendQuads.q2
        ∧ q.q1 = laneAt P w c startKeys.spendQuads.q1)
      (prefixLane0 P w pfx count startKeys lastV ds)
      ((offsets0 lastV ds a b c).map (keyAt P w startKeys))
      (fun q => q = keyAt P w startKeys (a, b, c, lastV)) := by
  have hstep : ∀ d, Collects count Total
      (fun q => q.q3 = laneAt P w a startKeys.spendQuads.q3
        ∧ q.q2 = laneAt P w b startKeys.spendQuads.q2
        ∧ q.q1 = laneAt P w c startKeys.spendQuads.q1)
      (Stmt.seq (setSpend0 (laneAt P w d startKeys.spendQuads.q0))
        ( check_address_prefix P pfx count))
      ([] ++ [keyAt P w startKeys (a, b, c, d)])
      (fun q => q = keyAt P w startKeys (a, b, c, d)) := by
    intro d
    refine collects_seq (collects_assign count Total _ _ _ (fun _ => rfl) (fun _ => rfl) ?_)
      (collects_check count Total P pfx _)
    intro ks h
    obtain ⟨⟨⟨a0, a1, a2, a3⟩, v⟩, s⟩ := ks
    obtain ⟨h3, h2, h1⟩ := h
    simp only at h3 h2 h1
    subst h3 h2 h1
    rfl
  have hloop := collects_forLoop ds
    (fun d _ => collects_weaken (hstep d) (fun _ hq => hq)
      (fun q (hq : q = keyAt P w startKeys (a, b, c, d)) => by
        rw [hq]
        exact ⟨rfl, rfl, rfl⟩))
  refine collects_congr (collects_seq hloop (hstep lastV)) ?_
  rw [flatMap_singleton_map, offsets0, List.map_append, List.map_map]
  rfl

/-- The loop over lane 1 and its boundary step hand over the candidates at the offsets
`offsets1`, in this order. -/
theorem collects_lane1 (P : Primitives) (w : Nat) (pfx : List Char) (count : Int)
    (startKeys : keys) (lastV : Nat) (ds : List Nat) (Total : List Quads) (a b : Nat)
    (hw : countUp w ≠ []) :
    Collects count Total
      (fun q => q.q3 = laneAt P w a startKeys.spendQuads.q3
        ∧ q.q2 = laneAt P w b startKeys.spendQuads.q2)
      (prefixLane1 P w pfx count startKeys lastV ds)
      ((offsets1 w lastV ds a b).map (keyAt P w startKeys))
      (fun q => q = keyAt P w startKeys (a, b, UINT_MAX w, lastV)) := by
  have hbody : ∀ c, Collects count Total
      (fun q => q.q3 = laneAt P w a startKeys.spendQuads.q3
        ∧ q.q2 = laneAt P w b startKeys.spendQuads.q2)
      (Stmt.seq (setSpend1 (laneAt P w c startKeys.spendQuads.q1))
        (prefixLane0 P w pfx count startKeys lastV ds))
      ([] ++ (offsets0 lastV ds a b c).map (keyAt P w startKeys))
      (fun q => q.q3 = laneAt P w a startKeys.spendQuads.q3
        ∧ q.q2 = laneAt P w b startKeys.spendQuads.q2
        ∧ q.q0 = laneAt P w lastV startKeys.spendQuads.q0) := by
    intro c
    refine collects_weaken (collects_seq
      (collects_assign count Total _ _ _ (fun _ => rfl) (fun _ => rfl) ?_)
      (collects_lane0 P w pfx count startKeys lastV ds Total a b c)) (fun _ hq => hq) ?_
    · intro ks h
      obtain ⟨⟨⟨a0, a1, a2, a3⟩, v⟩, s⟩ := ks
      obtain ⟨h3, h2⟩ := h
      simp only at h3 h2
      subst h3 h2
      exact ⟨rfl, rfl, rfl⟩
    · intro q hq
      rw [hq]
      exact ⟨rfl, rfl, rfl⟩
  have hloop := collects_forLoop_of_ne_nil
    (fun q (hq : q.q3 = laneAt P w a startKeys.spendQuads.q3
        ∧ q.q2 = laneAt P w b startKeys.spendQuads.q2
        ∧ q.q0 = laneAt P w lastV startKeys.spendQuads.q0) => ⟨hq.1, hq.2.1⟩)
    (countUp w) hw (fun c _ => hbody c)
  have hlast : Collects count Total
      (fun q => q.q3 = laneAt P w a startKeys.spendQuads.q3
        ∧ q.q2 = laneAt P w b startKeys.spendQuads.q2
        ∧ q.q0 = laneAt P w lastV startKeys.spendQuads.q0)
      (Stmt.seq (setSpend1 (laneBefore P w startKeys.spendQuads.q1))
        ( check_address_prefix P pfx count))
      ([] ++ [keyAt P w startKeys (a, b, UINT_MAX w, lastV)])
      (fun q => q = keyAt P w startKeys (a, b, UINT_MAX w, lastV)) := by
    refine collects_seq (collects_assign count Total _ _ _ (fun _ => rfl) (fun _ => rfl) ?_)
      (collects_check count Total P pfx _)
    intro ks h
    obtain ⟨⟨⟨a0, a1, a2, a3⟩, v⟩, s⟩ := ks
    obtain ⟨h3, h2, h0⟩ := h
    simp only at h3 h2 h0
    subst h3 h2 h0
    simp only [setSpend1, keyAt, laneBefore_eq_laneAt]
  refine collects_congr (collects_seq hloop hlast) ?_
  rw [offsets1, List.map_append, List.map_flatMap]
  rfl

/-- The loop over lane 2 and its boundary step hand over the candidates at the offsets
`offsets2`, in this order. -/
theorem collects_lane2 (P : Primitives) (w : Nat) (pfx : List Char) (count : Int)
    (startKeys : keys) (lastV : Nat) (ds : List Nat) (Total : List Quads) (a : Nat)
    (hw : countUp w ≠ []) :
    Collects count Total
      (fun q => q.q3 = laneAt P w a startKeys.spendQuads.q3)
      (prefixLane2 P w pfx count startKeys lastV ds)
      ((offsets2 w lastV ds a).map (keyAt P w startKeys))
      (fun q => q = keyAt P w startKeys (a, UINT_MAX w, UINT_MAX w, lastV)) := by
  have hbody : ∀ b, Collects count Total
      (fun q => q.q3 = laneAt P w a startKeys.spendQuads.q3)
      (Stmt.seq (setSpend2 (laneAt P w b startKeys.spendQuads.q2))
        (prefixLane1 P w pfx count startKeys lastV ds))
      ([] ++ (offsets1 w lastV ds a b).map (keyAt P w startKeys))
      (fun q => q.q3 = laneAt P w a startKeys.spendQuads.q3
        ∧ q.q1 = laneAt P w (UINT_MAX w) startKeys.spendQuads.q1
        ∧ q.q0 = laneAt P w lastV startKeys.spendQuads.q0) := by
    intro b
    refine collects_weaken (collects_seq
      (collects_assign count Total _ _ _ (fun _ => rfl) (fun _ => rfl) ?_)
      (collects_lane1 P w pfx count startKeys lastV ds Total a b hw)) (fun _ hq => hq) ?_
    · intro ks h
      obtain ⟨⟨⟨a0, a1, a2, a3⟩, v⟩, s⟩ := ks
      simp only at h
      subst h
      exact ⟨rfl, rfl⟩
    · intro q hq
      rw [hq]
      exact ⟨rfl, rfl, rfl⟩
  have hloop := collects_forLoop_of_ne_nil
    (fun q (hq : q.q3 = laneAt P w a startKeys.spendQuads.q3
        ∧ q.q1 = laneAt P w (UINT_MAX w) startKeys.spendQuads.q1
        ∧ q.q0 = laneAt P w lastV startKeys.spendQuads.q0) => hq.1)
    (countUp w) hw (fun b _ => hbody b)
  have hlast : Collects count Total
      (fun q => q.q3 = laneAt P w a startKeys.spendQuads.q3
        ∧ q.q1 = laneAt P w (UINT_MAX w) startKeys.spendQuads.q1
        ∧ q.q0 = laneAt P w lastV startKeys.spendQuads.q0)
      (Stmt.seq (setSpend2 (laneBefore P w startKeys.spendQuads.q2))
        ( check_address_prefix P pfx count))
      ([] ++ [keyAt P w startKeys (a, UINT_MAX w, UINT_MAX w, lastV)])
      (fun q => q = keyAt P w startKeys (a, UINT_MAX w, UINT_MAX w, lastV)) := by
    refine collects_seq (collects_assign count Total _ _ _ (fun _ => rfl) (fun _ => rfl) ?_)
      (collects_check count Total P pfx _)
    intro ks h
    obtain ⟨⟨⟨a0, a1, a2, a3⟩, v⟩, s⟩ := ks
    obtain ⟨h3, h1, h0⟩ := h
    simp only at h3 h1 h0
    subst h3 h1 h0
    simp only [setSpend2, keyAt, laneBefore_eq_laneAt]
  refine collects_congr (collects_seq hloop hlast) ?_
  rw [offsets2, List.map_append, List.map_flatMap]
  rfl

/-- The loop over lane 3 hands over the candidates of all its iterations, in order. -/
theorem collects_lane3 (P : Primitives) (w : Nat) (pfx : List Char) (count : Int)
    (startKeys : keys) (lastV : Nat) (ds : List Nat) (Total : List Quads)
    (hw : countUp w ≠ []) :
    Collects count Total (fun _ => True)
      (forLoop (fun a =>
        Stmt.seq (setSpend3 (laneAt P w a startKeys.spendQuads.q3))
          (prefixLane2 P w pfx count startKeys lastV ds)) (countUp w))
      (((countUp w).flatMap (fun a => offsets2 w lastV ds a)).map (keyAt P w startKeys))
      (fun q => q.q2 = laneAt P w (UINT_MAX w) startKeys.spendQuads.q2
        ∧ q.q1 = laneAt P w (UINT_MAX w) startKeys.spendQuads.q1
        ∧ q.q0 = laneAt P w lastV startKeys.spendQuads.q0) := by
  have hbody : ∀ a, Collects count Total (fun _ => True)
      (Stmt.seq (setSpend3 (laneAt P w a startKeys.spendQuads.q3))
        (prefixLane2 P w pfx count startKeys lastV ds))
      ([] ++ (offsets2 w lastV ds a).map (keyAt P w startKeys))
      (fun q => q.q2 = laneAt P w (UINT_MAX w) startKeys.spendQuads.q2
        ∧ q.q1 = laneAt P w (UINT_MAX w) startKeys.spendQuads.q1
        ∧ q.q0 = laneAt P w lastV startKeys.spendQuads.q0) := by
    intro a
    refine collects_weaken (collects_seq
      (collects_assign count Total _ _ _ (fun _ => rfl) (fun _ => rfl) ?_)
      (collects_lane2 P w pfx count startKeys lastV ds Total a hw)) (fun _ hq => hq) ?_
    · intro ks _
      obtain ⟨⟨⟨a0, a1, a2, a3⟩, v⟩, s⟩ := ks
      rfl
    · intro q hq
      rw [hq]
      exact ⟨rfl, rfl, rfl⟩
  refine collects_congr (collects_forLoop_of_ne_nil (fun _ _ => True.intro) (countUp w) hw
    (fun a _ => hbody a)) ?_
  rw [List.map_flatMap]
  rfl


theorem Triple.weaken_ret {σ : Type} {pre post ret ret1 : σ → Prop} {c : Stmt σ}
    (h : Triple pre c post ret) (hret : ∀ s, ret s → ret1 s) : Triple pre c post ret1 := by
  intro s hs
  exact ⟨(h s hs).1, fun hf => hret _ ((h s hs).2 hf)⟩

/-- The spend keys `prefix_worker` hands to `check_address_prefix` are, in order, the
candidates at the offsets `prefixOffsets` up to the call that returns `true`, and all of
them when the worker ends with `found` different from `count`. -/
theorem prefix_worker_body_calls (P : Primitives) (w : Nat) (pfx : List Char) (count : Int)
    (startKeys : keys) (lastV : Nat) (ds : List Nat) (L : List Quads)
    (hw : countUp w ≠ []) :
    Triple (fun ks : keys × PrefixSearch => ks.2.calls = L)
      (prefix_worker_body P w pfx count startKeys lastV ds)
      (fun ks => ks.2.calls <+: L ++ (prefixOffsets w lastV ds).map (keyAt P w startKeys)
        ∧ (ks.2.found ≠ count →
          ks.2.calls = L ++ (prefixOffsets w lastV ds).map (keyAt P w startKeys)))
      (fun ks => ks.2.calls <+: L ++ (prefixOffsets w lastV ds).map (keyAt P w startKeys)
        ∧ (ks.2.found ≠ count →
          ks.2.calls = L ++ (prefixOffsets w lastV ds).map (keyAt P w startKeys))) := by
  have hcands : (prefixOffsets w lastV ds).map (keyAt P w startKeys)
      = ((countUp w).flatMap (fun a => offsets2 w lastV ds a)).map (keyAt P w startKeys)
        ++ [keyAt P w startKeys (UINT_MAX w, UINT_MAX w, UINT_MAX w, lastV)] := by
    rw [prefixOffsets, List.map_append]
    rfl
  generalize hT : L ++ (prefixOffsets w lastV ds).map (keyAt P w startKeys) = Total
  have hTotal : Total
      = (L ++ ((countUp w).flatMap (fun a => offsets2 w lastV ds a)).map (keyAt P w startKeys))
        ++ [keyAt P w startKeys (UINT_MAX w, UINT_MAX w, UINT_MAX w, lastV)] := by
    rw [← hT, hcands, List.append_assoc]
  have hret : ∀ ks : keys × PrefixSearch, (ks.2.calls <+: Total ∧ ks.2.found = count) →
      (ks.2.calls <+: Total ∧ (ks.2.found ≠ count → ks.2.calls = Total)) :=
    fun ks h => ⟨h.1, fun hne => absurd h.2 hne⟩
  have h3 := collects_lane3 P w pfx count startKeys lastV ds Total hw L
    (by rw [hTotal]; exact List.prefix_append _ _)
  have hset : Triple
      (fun ks : keys × PrefixSearch =>
        (ks.1.spendQuads.q2 = laneAt P w (UINT_MAX w) startKeys.spendQuads.q2
          ∧ ks.1.spendQuads.q1 = laneAt P w (UINT_MAX w) startKeys.spendQuads.q1
          ∧ ks.1.spendQuads.q0 = laneAt P w lastV startKeys.spendQuads.q0)
        ∧ ks.2.calls = L ++ ((countUp w).flatMap (fun a => offsets2 w lastV ds a)).map
            (keyAt P w startKeys))
      (setSpend3 (laneBefore P w startKeys.spendQuads.q3))
      (fun ks => ks.1.spendQuads
          = keyAt P w startKeys (UINT_MAX w, UINT_MAX w, UINT_MAX w, lastV)
        ∧ ks.2.calls = L ++ ((countUp w).flatMap (fun a => offsets2 w lastV ds a)).map
            (keyAt P w startKeys))
      (fun ks => ks.2.calls <+: Total ∧ ks.2.found = count) := by
    refine Triple.assign (fun _ => rfl) ?_
    intro ks h
    obtain ⟨⟨⟨a0, a1, a2, a3⟩, v⟩, s⟩ := ks
    obtain ⟨⟨h2, h1, h0⟩, hc⟩ := h
    simp only at h2 h1 h0 hc
    subst h2 h1 h0
    exact ⟨by simp only [setSpend3, keyAt, laneBefore_eq_laneAt], hc⟩
  have hcheck := collects_check count Total P pfx
    (keyAt P w startKeys (UINT_MAX w, UINT_MAX w, UINT_MAX w, lastV))
    (L ++ ((countUp w).flatMap (fun a => offsets2 w lastV ds a)).map (keyAt P w startKeys))
    (by rw [hTotal])
  have hvoid := Triple.weaken (Triple.void hcheck) (fun _ h => h)
    (fun (ks : keys × PrefixSearch)
      (h : (ks.1.spendQuads = keyAt P w startKeys (UINT_MAX w, UINT_MAX w, UINT_MAX w, lastV)
          ∧ ks.2.calls
            = (L ++ ((countUp w).flatMap (fun a => offsets2 w lastV ds a)).map
                (keyAt P w startKeys))
              ++ [keyAt P w startKeys (UINT_MAX w, UINT_MAX w, UINT_MAX w, lastV)])
        ∨ (ks.2.calls <+: Total ∧ ks.2.found = count)) =>
      (h.elim
        (fun h1 => ⟨by rw [h1.2, ← hTotal], fun _ => by rw [h1.2, ← hTotal]⟩)
        (hret ks) : ks.2.calls <+: Total ∧ (ks.2.found ≠ count → ks.2.calls = Total)))
  rw [prefix_worker_body_eq]
  exact Triple.weaken_ret
    (Triple.seq (Triple.weaken h3 (fun _ h => ⟨True.intro, h⟩) (fun _ h => h))
      (Triple.seq hset hvoid))
    hret

/-- The plain loops over a lane of 64 bits run at least once. -/
theorem countUp_ne_nil : countUp 64 ≠ [] := by
  obtain ⟨cs, h⟩ := countUp_sixtyfour
  rw [h]
  exact List.cons_ne_nil _ _

/-- With one thread on 64-bit lanes `prefix_worker` returns; the spend keys it has handed
to `check_address_prefix` are, in order, the candidates at the offsets `prefixOffsets` up
to the call that returned `true`, all of them when it ends with `found` different from
`count`. -/
theorem prefix_worker_single_calls (P : Primitives) (pfx : List Char) (count : Int)
    (startKeys init : keys) (s : PrefixSearch) :
    ∃ r, prefix_worker P 64 pfx 1 0 count startKeys (2 ^ 64) init s = some r
      ∧ r.calls <+: s.calls
          ++ (prefixOffsets 64 (UINT_MAX 64) (countUp 64)).map (keyAt P 64 startKeys)
      ∧ (r.found ≠ count → r.calls = s.calls
          ++ (prefixOffsets 64 (UINT_MAX 64) (countUp 64)).map (keyAt P 64 startKeys)) := by
  have hds : strideLoop 64 1 (last 64 1 0) (2 ^ 64) (toLane 64 0) = some (countUp 64) :=
    strideLoop_single_range
  have hl : last 64 1 0 = UINT_MAX 64 := rfl
  rw [hl] at hds
  have h1 := Triple.holds
    (prefix_worker_body_calls P 64 pfx count startKeys (UINT_MAX 64) (countUp 64) s.calls
      countUp_ne_nil) (init, s) rfl
  refine ⟨(prefix_worker_body P 64 pfx count startKeys (UINT_MAX 64) (countUp 64)
      (init, s)).2.2, by simp only [prefix_worker, hds, hl, Option.map_some'], h1.1, h1.2⟩


theorem mem_offsets0 (w a b c : Nat) (o : Nat × Nat × Nat × Nat) :
    o ∈ offsets0 (UINT_MAX w) (countUp w) a b c ↔
      ∃ d, d ≤ UINT_MAX w ∧ o = (a, b, c, d) := by
  unfold offsets0 countUp
  rw [List.mem_append, List.mem_map, List.mem_singleton]
  constructor
  · rintro (⟨d, hd, rfl⟩ | rfl)
    · exact ⟨d, Nat.le_of_lt (List.mem_range.1 hd), rfl⟩
    · exact ⟨UINT_MAX w, Nat.le_refl _, rfl⟩
  · rintro ⟨d, hd, rfl⟩
    rcases Nat.lt_or_eq_of_le hd with h | h
    · exact Or.inl ⟨d, List.mem_range.2 h, rfl⟩
    · exact Or.inr (by rw [h])

theorem mem_offsets1 (w a b : Nat) (o : Nat × Nat × Nat × Nat) :
    o ∈ offsets1 w (UINT_MAX w) (countUp w) a b ↔
      ∃ c d, c ≤ UINT_MAX w ∧ d ≤ UINT_MAX w ∧ (c = UINT_MAX w → d = UINT_MAX w)
        ∧ o = (a, b, c, d) := by
  unfold offsets1
  rw [List.mem_append, List.mem_flatMap, List.mem_singleton]
  constructor
  · rintro (⟨c, hc, ho⟩ | rfl)
    · obtain ⟨d, hd, rfl⟩ := (mem_offsets0 w a b c o).1 ho
      have hc1 : c < UINT_MAX w := List.mem_range.1 hc
      exact ⟨c, d, Nat.le_of_lt hc1, hd, fun h => absurd h (Nat.ne_of_lt hc1), rfl⟩
    · exact ⟨_, _, Nat.le_refl _, Nat.le_refl _, fun _ => rfl, rfl⟩
  · rintro ⟨c, d, hc, hd, hcd, rfl⟩
    rcases Nat.lt_or_eq_of_le hc with h | h
    · exact Or.inl ⟨c, List.mem_range.2 h, (mem_offsets0 w a b c _).2 ⟨d, hd, rfl⟩⟩
    · exact Or.inr (by rw [hcd h, h])

theorem mem_offsets2 (w a : Nat) (o : Nat × Nat × Nat × Nat) :
    o ∈ offsets2 w (UINT_MAX w) (countUp w) a ↔
      ∃ b c d, b ≤ UINT_MAX w ∧ c ≤ UINT_MAX w ∧ d ≤ UINT_MAX w
        ∧ (c = UINT_MAX w → d = UINT_MAX w) ∧ (b = UINT_MAX w → c = UINT_MAX w)
        ∧ o = (a, b, c, d) := by
  unfold offsets2
  rw [List.mem_append, List.mem_flatMap, List.mem_singleton]
  constructor
  · rintro (⟨b, hb, ho⟩ | rfl)
    · obtain ⟨c, d, hc, hd, hcd, rfl⟩ := (mem_offsets1 w a b o).1 ho
      have hb1 : b < UINT_MAX w := List.mem_range.1 hb
      exact ⟨b, c, d, Nat.le_of_lt hb1, hc, hd, hcd, fun h => absurd h (Nat.ne_of_lt hb1),
        rfl⟩
    · exact ⟨_, _, _, Nat.le_refl _, Nat.le_refl _, Nat.le_refl _, fun _ => rfl,
        fun _ => rfl, rfl⟩
  · rintro ⟨b, c, d, hb, hc, hd, hcd, hbc, rfl⟩
    rcases Nat.lt_or_eq_of_le hb with h | h
    · exact Or.inl ⟨b, List.mem_range.2 h,
        (mem_offsets1 w a b _).2 ⟨c, d, hc, hd, hcd, rfl⟩⟩
    · exact Or.inr (by rw [hcd (hbc h), hbc h, h])

/-- The offsets at which `prefix_worker` evaluates a candidate when no call stops it: at
the boundary value of a lane, the lanes below are at their boundary values. -/
theorem mem_prefixOffsets (w a b c d : Nat) :
    (a, b, c, d) ∈ prefixOffsets w (UINT_MAX w) (countUp w) ↔
      a ≤ UINT_MAX w ∧ b ≤ UINT_MAX w ∧ c ≤ UINT_MAX w ∧ d ≤ UINT_MAX w
        ∧ (c = UINT_MAX w → d = UINT_MAX w) ∧ (b = UINT_MAX w → c = UINT_MAX w)
        ∧ (a = UINT_MAX w → b = UINT_MAX w) := by
  unfold prefixOffsets
  rw [List.mem_append, List.mem_flatMap, List.mem_singleton]
  constructor
  · rintro (⟨a1, ha, ho⟩ | ho)
    · obtain ⟨b1, c1, d1, hb, hc, hd, hcd, hbc, ho1⟩ := (mem_offsets2 w a1 _).1 ho
      simp only [Prod.mk.injEq] at ho1
      obtain ⟨rfl, rfl, rfl, rfl⟩ := ho1
      have ha1 : a < UINT_MAX w := List.mem_range.1 ha
      exact ⟨Nat.le_of_lt ha1, hb, hc, hd, hcd, hbc, fun h => absurd h (Nat.ne_of_lt ha1)⟩
    · simp only [Prod.mk.injEq] at ho
      obtain ⟨rfl, rfl, rfl, rfl⟩ := ho
      exact ⟨Nat.le_refl _, Nat.le_refl _, Nat.le_refl _, Nat.le_refl _, fun _ => rfl,
        fun _ => rfl, fun _ => rfl⟩
  · rintro ⟨ha, hb, hc, hd, hcd, hbc, hab⟩
    rcases Nat.lt_or_eq_of_le ha with h | h
    · exact Or.inl ⟨a, List.mem_range.2 h,
        (mem_offsets2 w a _).2 ⟨b, c, d, hb, hc, hd, hcd, hbc, rfl⟩⟩
    · exact Or.inr (by rw [hcd (hbc (hab h)), hbc (hab h), hab h, h])

/-- Every offset of a candidate is a 64-bit value. -/
theorem prefixOffsets_bounded (w : Nat) (o : Nat × Nat × Nat × Nat)
    (h : o ∈ prefixOffsets w (UINT_MAX w) (countUp w)) :
    o.1 ≤ UINT_MAX w ∧ o.2.1 ≤ UINT_MAX w ∧ o.2.2.1 ≤ UINT_MAX w ∧ o.2.2.2 ≤ UINT_MAX w := by
  obtain ⟨a, b, c, d⟩ := o
  have := (mem_prefixOffsets w a b c d).1 h
  exact ⟨this.1, this.2.1, this.2.2.1, this.2.2.2.1⟩

theorem pairwise_offsets0 (a b c : Nat) :
    (offsets0 (UINT_MAX 64) (countUp 64) a b c).Pairwise
      (fun x y => bigNumber x < bigNumber y) := by
  unfold offsets0 countUp
  rw [List.pairwise_append]
  refine ⟨?_, List.pairwise_singleton _ _, ?_⟩
  · rw [List.pairwise_map]
    refine List.Pairwise.imp ?_ (List.pairwise_lt_range _)
    intro d1 d2 h
    simp only [bigNumber]
    omega
  · intro x hx y hy
    rw [List.mem_map] at hx
    obtain ⟨d, hd, rfl⟩ := hx
    rw [List.mem_range] at hd
    rw [List.mem_singleton] at hy
    subst hy
    simp only [bigNumber]
    omega

theorem pairwise_offsets1 (a b : Nat) :
    (offsets1 64 (UINT_MAX 64) (countUp 64) a b).Pairwise
      (fun x y => bigNumber x < bigNumber y) := by
  have hM : UINT_MAX 64 = 2 ^ 64 - 1 := rfl
  unfold offsets1
  rw [List.pairwise_append, List.pairwise_flatMap]
  refine ⟨⟨fun c _ => pairwise_offsets0 a b c, ?_⟩, List.pairwise_singleton _ _, ?_⟩
  · refine List.Pairwise.imp ?_ (List.pairwise_lt_range _)
    intro c1 c2 h x hx y hy
    obtain ⟨d1, hd1, rfl⟩ := (mem_offsets0 64 a b c1 x).1 hx
    obtain ⟨d2, hd2, rfl⟩ := (mem_offsets0 64 a b c2 y).1 hy
    rw [hM] at hd1
    simp only [bigNumber]
    omega
  · intro x hx y hy
    rw [List.mem_flatMap] at hx
    obtain ⟨c, hc, hx⟩ := hx
    obtain ⟨d1, hd1, rfl⟩ := (mem_offsets0 64 a b c x).1 hx
    have hc1 : c < UINT_MAX 64 := List.mem_range.1 hc
    rw [List.mem_singleton] at hy
    subst hy
    rw [hM] at hd1 hc1
    simp only [bigNumber, hM]
    omega

theorem pairwise_offsets2 (a : Nat) :
    (offsets2 64 (UINT_MAX 64) (countUp 64) a).Pairwise
      (fun x y => bigNumber x < bigNumber y) := by
  have hM : UINT_MAX 64 = 2 ^ 64 - 1 := rfl
  unfold offsets2
  rw [List.pairwise_append, List.pairwise_flatMap]
  refine ⟨⟨fun b _ => pairwise_offsets1 a b, ?_⟩, List.pairwise_singleton _ _, ?_⟩
  · refine List.Pairwise.imp ?_ (List.pairwise_lt_range _)
    intro b1 b2 h x hx y hy
    obtain ⟨c1, d1, hc1, hd1, _, rfl⟩ := (mem_offsets1 64 a b1 x).1 hx
    obtain ⟨c2, d2, _, _, _, rfl⟩ := (mem_offsets1 64 a b2 y).1 hy
    rw [hM] at hc1 hd1
    simp only [bigNumber]
    omega
  · intro x hx y hy
    rw [List.mem_flatMap] at hx
    obtain ⟨b, hb, hx⟩ := hx
    obtain ⟨c1, d1, hc1, hd1, _, rfl⟩ := (mem_offsets1 64 a b x).1 hx
    have hb1 : b < UINT_MAX 64 := List.mem_range.1 hb
    rw [List.mem_singleton] at hy
    subst hy
    rw [hM] at hc1 hd1 hb1
    simp only [bigNumber, hM]
    omega

/-- The candidates of `prefix_worker` are visited in big-number order: the offsets of its
loop nest, read as numbers of four digits in base `2 ^ 64`, increase strictly. -/
theorem pairwise_prefixOffsets :
    (prefixOffsets 64 (UINT_MAX 64) (countUp 64)).Pairwise
      (fun x y => bigNumber x < bigNumber y) := by
  have hM : UINT_MAX 64 = 2 ^ 64 - 1 := rfl
  unfold prefixOffsets
  rw [List.pairwise_append, List.pairwise_flatMap]
  refine ⟨⟨fun a _ => pairwise_offsets2 a, ?_⟩, List.pairwise_singleton _ _, ?_⟩
  · refine List.Pairwise.imp ?_ (List.pairwise_lt_range _)
    intro a1 a2 h x hx y hy
    obtain ⟨b1, c1, d1, hb1, hc1, hd1, _, _, rfl⟩ := (mem_offsets2 64 a1 x).1 hx
    obtain ⟨b2, c2, d2, _, _, _, _, _, rfl⟩ := (mem_offsets2 64 a2 y).1 hy
    rw [hM] at hb1 hc1 hd1
    simp only [bigNumber]
    omega
  · intro x hx y hy
    rw [List.mem_flatMap] at hx
    obtain ⟨a, ha, hx⟩ := hx
    obtain ⟨b1, c1, d1, hb1, hc1, hd1, _, _, rfl⟩ := (mem_offsets2 64 a x).1 hx
    have ha1 : a < UINT_MAX 64 := List.mem_range.1 ha
    rw [List.mem_singleton] at hy
    subst hy
    rw [hM] at hb1 hc1 hd1 ha1
    simp only [bigNumber, hM]
    omega


/-- When `SWAP64LE` is one-to-one on 64-bit words, candidates at different 64-bit offsets
have different spend keys. -/
theorem keyAt_injective (P : Primitives) (startKeys : keys)
    (hinj : ∀ x y, x < 2 ^ 64 → y < 2 ^ 64 → P.SWAP64LE x = P.SWAP64LE y → x = y)
    (o1 o2 : Nat × Nat × Nat × Nat)
    (h1 : o1.1 < 2 ^ 64 ∧ o1.2.1 < 2 ^ 64 ∧ o1.2.2.1 < 2 ^ 64 ∧ o1.2.2.2 < 2 ^ 64)
    (h2 : o2.1 < 2 ^ 64 ∧ o2.2.1 < 2 ^ 64 ∧ o2.2.2.1 < 2 ^ 64 ∧ o2.2.2.2 < 2 ^ 64)
    (h : keyAt P 64 startKeys o1 = keyAt P 64 startKeys o2) : o1 = o2 := by
  have hlane : ∀ x y s, x < 2 ^ 64 → y < 2 ^ 64 → laneAt P 64 x s = laneAt P 64 y s →
      x = y := by
    intro x y s hx hy he
    unfold laneAt addW at he
    have := hinj _ _ (Nat.mod_lt _ (by norm_num)) (Nat.mod_lt _ (by norm_num)) he
    omega
  obtain ⟨a1, b1, c1, d1⟩ := o1
  obtain ⟨a2, b2, c2, d2⟩ := o2
  simp only [keyAt, Quads.mk.injEq] at h
  simp only at h1 h2
  obtain ⟨e0, e1, e2, e3⟩ := h
  rw [hlane _ _ _ h1.1 h2.1 e3, hlane _ _ _ h1.2.1 h2.2.1 e2,
    hlane _ _ _ h1.2.2.1 h2.2.2.1 e1, hlane _ _ _ h1.2.2.2 h2.2.2.2 e0]

theorem prefixOffsets_lt (o : Nat × Nat × Nat × Nat)
    (h : o ∈ prefixOffsets 64 (UINT_MAX 64) (countUp 64)) :
    o.1 < 2 ^ 64 ∧ o.2.1 < 2 ^ 64 ∧ o.2.2.1 < 2 ^ 64 ∧ o.2.2.2 < 2 ^ 64 := by
  have hb := prefixOffsets_bounded 64 o h
  have hM : UINT_MAX 64 = 2 ^ 64 - 1 := rfl
  rw [hM] at hb
  omega

/-- C27: with one thread on 64-bit lanes, whatever the acceptance test answers,
`prefix_worker` returns, and the candidates it has handed to `check_address_prefix` are
those at lane offsets `offs`, an initial part of the order of the loop nest; read as
numbers of four digits in base `2 ^ 64`, `spendQuads[3]` the most significant, the offsets
increase strictly; and when `SWAP64LE` is one-to-one on 64-bit words no spend key is
handed over twice. -/
theorem prefix_worker_big_number_order (P : Primitives) (pfx : List Char) (count found : Int)
    (printed : List (List Char × Quads × Quads)) (startKeys init : keys) :
    ∃ r, prefix_worker P 64 pfx 1 0 count startKeys (2 ^ 64) init
          { found := found, printed := printed, calls := [] } = some r
      ∧ ∃ offs, r.calls = offs.map (keyAt P 64 startKeys)
        ∧ offs <+: prefixOffsets 64 (UINT_MAX 64) (countUp 64)
        ∧ offs.Pairwise (fun x y => bigNumber x < bigNumber y)
        ∧ (∀ o, o ∈ offs →
            o.1 < 2 ^ 64 ∧ o.2.1 < 2 ^ 64 ∧ o.2.2.1 < 2 ^ 64 ∧ o.2.2.2 < 2 ^ 64)
        ∧ ((∀ x y, x < 2 ^ 64 → y < 2 ^ 64 → P.SWAP64LE x = P.SWAP64LE y → x = y) →
            r.calls.Nodup) := by
  obtain ⟨r, hr, hpre, _⟩ := prefix_worker_single_calls P pfx count startKeys init
    { found := found, printed := printed, calls := [] }
  rw [List.nil_append, List.prefix_iff_eq_take, ← List.map_take] at hpre
  have hsub : (prefixOffsets 64 (UINT_MAX 64) (countUp 64)).take r.calls.length
      <+: prefixOffsets 64 (UINT_MAX 64) (countUp 64) := List.take_prefix _ _
  have hpw : ((prefixOffsets 64 (UINT_MAX 64) (countUp 64)).take r.calls.length).Pairwise
      (fun x y => bigNumber x < bigNumber y) :=
    List.Pairwise.sublist hsub.sublist pairwise_prefixOffsets
  have hlt : ∀ o, o ∈ (prefixOffsets 64 (UINT_MAX 64) (countUp 64)).take r.calls.length →
      o.1 < 2 ^ 64 ∧ o.2.1 < 2 ^ 64 ∧ o.2.2.1 < 2 ^ 64 ∧ o.2.2.2 < 2 ^ 64 :=
    fun o ho => prefixOffsets_lt o (List.mem_of_mem_take ho)
  refine ⟨r, hr, _, hpre, hsub, hpw, hlt, ?_⟩
  intro hinj
  rw [hpre]
  refine List.Nodup.map_on ?_ ?_
  · intro x hx y hy he
    exact keyAt_injective P startKeys hinj x y (hlt x hx) (hlt y hy) he
  · exact List.Pairwise.imp (fun h => by
      intro e
      rw [e] at h
      exact Nat.lt_irrefl _ h) hpw

end AddressGenerator

/-! ## The tracked run of the prefix search -/

namespace AddressGenerator

theorem Triple.and {σ : Type} {pre1 pre2 post1 post2 ret1 ret2 : σ → Prop} {c : Stmt σ}
    (h1 : Triple pre1 c post1 ret1) (h2 : Triple pre2 c post2 ret2) :
    Triple (fun s => pre1 s ∧ pre2 s) c (fun s => post1 s ∧ post2 s)
      (fun s => ret1 s ∧ ret2 s) := by
  intro s hs
  exact ⟨fun hf => ⟨(h1 s hs.1).1 hf, (h2 s hs.2).1 hf⟩,
    fun hf => ⟨(h1 s hs.1).2 hf, (h2 s hs.2).2 hf⟩⟩

theorem foundAfter_append (P : Primitives) (pfx : List Char) (f0 : Int) (l : List Quads)
    (q : Quads) :
    foundAfter P pfx f0 (l ++ [q])
      = foundAfter P pfx f0 l + (if discovers P pfx q = true then 1 else 0) := by
  unfold foundAfter
  rw [List.countP_append, List.countP_cons, List.countP_nil]
  split
  · simp only [Nat.zero_add, Nat.cast_add, Nat.cast_one]
    omega
  · simp only [Nat.add_zero, Int.add_zero]

/-- A call of `check_address_prefix` in a search in which every call so far has returned
`false`: either it returns `false` too, or it found `found == count` and returns `true`. -/
theorem check_address_prefix_tracked (P : Primitives) (pfx : List Char) (count f0 : Int) :
    Triple (fun ks : keys × PrefixSearch => Searching P pfx count f0 ks.2)
      ( check_address_prefix P pfx count)
      (fun ks => Searching P pfx count f0 ks.2)
      (fun ks => Returned P pfx count f0 ks.2) := by
  intro ks h
  obtain ⟨k, s⟩ := ks
  obtain ⟨hfound, hhist⟩ := h
  simp only at hfound hhist
  rw [check_address_prefix_eq]
  by_cases hf : s.found = count
  · rw [if_pos hf]
    refine ⟨fun hc => by simp at hc, fun _ => ?_⟩
    exact ⟨s.calls, k.spendQuads, rfl, hf, by rw [← hfound]; exact hf, hhist⟩
  · rw [if_neg hf]
    have hhist1 : ∀ n, n < (s.calls ++ [k.spendQuads]).length →
        foundAfter P pfx f0 ((s.calls ++ [k.spendQuads]).take n) ≠ count := by
      intro n hn
      rw [List.length_append, List.length_singleton] at hn
      rcases Nat.lt_or_ge n s.calls.length with h1 | h1
      · rw [List.take_append_of_le_length (Nat.le_of_lt h1)]
        exact hhist n h1
      · have e : n = s.calls.length := by omega
        rw [e, List.take_append_of_le_length (Nat.le_refl _), List.take_length, ← hfound]
        exact hf
    by_cases hd : discovers P pfx k.spendQuads = true
    · rw [if_pos hd]
      refine ⟨fun _ => ⟨?_, hhist1⟩, fun hc => by simp at hc⟩
      show s.found + 1 = foundAfter P pfx f0 (s.calls ++ [k.spendQuads])
      rw [foundAfter_append, if_pos hd, hfound]
    · rw [if_neg hd]
      refine ⟨fun _ => ⟨?_, hhist1⟩, fun hc => by simp at hc⟩
      show s.found = foundAfter P pfx f0 (s.calls ++ [k.spendQuads])
      rw [foundAfter_append, if_neg hd, hfound, Int.add_zero]

/-- The loop over lane 3 of `prefix_worker` keeps the record of the counter. -/
theorem prefix_worker_loops_tracked (P : Primitives) (w : Nat) (pfx : List Char)
    (count f0 : Int) (startKeys : keys) (lastV : Nat) (ds : List Nat) :
    Triple (fun ks : keys × PrefixSearch => Searching P pfx count f0 ks.2)
      (forLoop (fun a =>
        Stmt.seq (setSpend3 (laneAt P w a startKeys.spendQuads.q3))
          (prefixLane2 P w pfx count startKeys lastV ds)) (countUp w))
      (fun ks => Searching P pfx count f0 ks.2)
      (fun ks => Returned P pfx count f0 ks.2) := by
  have hcheck := check_address_prefix_tracked P pfx count f0
  have hfr : ∀ c : Stmt (keys × PrefixSearch), (∀ ks, (c ks).1 = false) →
      (∀ ks, (c ks).2.2 = ks.2) →
      Triple (fun ks : keys × PrefixSearch => Searching P pfx count f0 ks.2) c
        (fun ks => Searching P pfx count f0 ks.2) (fun ks => Returned P pfx count f0 ks.2) :=
    fun c hc h2 => Triple.assign hc (fun ks h => by rw [h2]; exact h)
  have l0 : Triple (fun ks : keys × PrefixSearch => Searching P pfx count f0 ks.2)
      (prefixLane0 P w pfx count startKeys lastV ds)
      (fun ks => Searching P pfx count f0 ks.2) (fun ks => Returned P pfx count f0 ks.2) :=
    Triple.nest setSpend0 (fun x => laneAt P w x startKeys.spendQuads.q0)
      (laneAt P w lastV startKeys.spendQuads.q0) ( check_address_prefix P pfx count)
      ( check_address_prefix P pfx count) ds
      (fun u => hfr (setSpend0 u) (fun _ => rfl) (fun _ => rfl)) hcheck hcheck
  have l1 : Triple (fun ks : keys × PrefixSearch => Searching P pfx count f0 ks.2)
      (prefixLane1 P w pfx count startKeys lastV ds)
      (fun ks => Searching P pfx count f0 ks.2) (fun ks => Returned P pfx count f0 ks.2) :=
    Triple.nest setSpend1 (fun x => laneAt P w x startKeys.spendQuads.q1)
      (laneBefore P w startKeys.spendQuads.q1) _ ( check_address_prefix P pfx count)
      (countUp w) (fun u => hfr (setSpend1 u) (fun _ => rfl) (fun _ => rfl)) l0 hcheck
  have l2 : Triple (fun ks : keys × PrefixSearch => Searching P pfx count f0 ks.2)
      (prefixLane2 P w pfx count startKeys lastV ds)
      (fun ks => Searching P pfx count f0 ks.2) (fun ks => Returned P pfx count f0 ks.2) :=
    Triple.nest setSpend2 (fun x => laneAt P w x startKeys.spendQuads.q2)
      (laneBefore P w startKeys.spendQuads.q2) _ ( check_address_prefix P pfx count)
      (countUp w) (fun u => hfr (setSpend2 u) (fun _ => rfl) (fun _ => rfl)) l1 hcheck
  exact Triple.forLoop (countUp w)
    (fun a _ => Triple.seq (hfr (setSpend3 _) (fun _ => rfl) (fun _ => rfl)) l2)

/-- A run of the loop nest of `prefix_worker` from `found = f0` with no call made: either
every candidate has been handed to `check_address_prefix` and every call has returned
`false`, or the calls are an initial part of the candidates and the last of them found
`found == count`. -/
theorem prefix_worker_body_run (P : Primitives) (w : Nat) (pfx : List Char) (count f0 : Int)
    (startKeys : keys) (lastV : Nat) (ds : List Nat) (hw : countUp w ≠ []) :
    Triple (fun ks : keys × PrefixSearch => ks.2.calls = [] ∧ ks.2.found = f0)
      (prefix_worker_body P w pfx count startKeys lastV ds)
      (fun ks =>
        (ks.2.calls = (prefixOffsets w lastV ds).map (keyAt P w startKeys)
          ∧ Searching P pfx count f0 ks.2)
        ∨ (ks.2.calls <+: (prefixOffsets w lastV ds).map (keyAt P w startKeys)
          ∧ Returned P pfx count f0 ks.2))
      (fun ks =>
        (ks.2.calls = (prefixOffsets w lastV ds).map (keyAt P w startKeys)
          ∧ Searching P pfx count f0 ks.2)
        ∨ (ks.2.calls <+: (prefixOffsets w lastV ds).map (keyAt P w startKeys)
          ∧ Returned P pfx count f0 ks.2)) := by
  have hcands : (prefixOffsets w lastV ds).map (keyAt P w startKeys)
      = ((countUp w).flatMap (fun a => offsets2 w lastV ds a)).map (keyAt P w startKeys)
        ++ [keyAt P w startKeys (UINT_MAX w, UINT_MAX w, UINT_MAX w, lastV)] := by
    rw [prefixOffsets, List.map_append]
    rfl
  generalize hT : (prefixOffsets w lastV ds).map (keyAt P w startKeys) = Total
  rw [hT] at hcands
  have hfr : ∀ c : Stmt (keys × PrefixSearch), (∀ ks, (c ks).1 = false) →
      (∀ ks, (c ks).2.2 = ks.2) →
      Triple (fun ks : keys × PrefixSearch => Searching P pfx count f0 ks.2) c
        (fun ks => Searching P pfx count f0 ks.2) (fun ks => Returned P pfx count f0 ks.2) :=
    fun c hc h2 => Triple.assign hc (fun ks h => by rw [h2]; exact h)
  -- the loop over lane 3
  have h3 := Triple.and
    (collects_lane3 P w pfx count startKeys lastV ds Total hw []
      (by rw [hcands, List.nil_append]; exact List.prefix_append _ _))
    (prefix_worker_loops_tracked P w pfx count f0 startKeys lastV ds)
  -- the boundary step of lane 3
  have hset : Triple
      (fun ks : keys × PrefixSearch =>
        (ks.1.spendQuads.q2 = laneAt P w (UINT_MAX w) startKeys.spendQuads.q2
          ∧ ks.1.spendQuads.q1 = laneAt P w (UINT_MAX w) startKeys.spendQuads.q1
          ∧ ks.1.spendQuads.q0 = laneAt P w lastV startKeys.spendQuads.q0)
        ∧ ks.2.calls = [] ++ ((countUp w).flatMap (fun a => offsets2 w lastV ds a)).map
            (keyAt P w startKeys))
      (setSpend3 (laneBefore P w startKeys.spendQuads.q3))
      (fun ks => ks.1.spendQuads
          = keyAt P w startKeys (UINT_MAX w, UINT_MAX w, UINT_MAX w, lastV)
        ∧ ks.2.calls = [] ++ ((countUp w).flatMap (fun a => offsets2 w lastV ds a)).map
            (keyAt P w startKeys))
      (fun ks => ks.2.calls <+: Total ∧ ks.2.found = count) := by
    refine Triple.assign (fun _ => rfl) ?_
    intro ks h
    obtain ⟨⟨⟨a0, a1, a2, a3⟩, v⟩, s⟩ := ks
    obtain ⟨⟨h2, h1, h0⟩, hc⟩ := h
    simp only at h2 h1 h0 hc
    subst h2 h1 h0
    exact ⟨by simp only [setSpend3, keyAt, laneBefore_eq_laneAt], hc⟩
  have hset2 := Triple.and hset
    (hfr (setSpend3 (laneBefore P w startKeys.spendQuads.q3)) (fun _ => rfl) (fun _ => rfl))
  -- the last call
  have hcheck := Triple.and
    (collects_check count Total P pfx
      (keyAt P w startKeys (UINT_MAX w, UINT_MAX w, UINT_MAX w, lastV))
      ([] ++ ((countUp w).flatMap (fun a => offsets2 w lastV ds a)).map (keyAt P w startKeys))
      (by rw [hcands, List.nil_append]))
    (check_address_prefix_tracked P pfx count f0)
  have hfin : ∀ ks : keys × PrefixSearch,
      ((ks.2.calls <+: Total ∧ ks.2.found = count) ∧ Returned P pfx count f0 ks.2) →
      ((ks.2.calls = Total ∧ Searching P pfx count f0 ks.2)
        ∨ (ks.2.calls <+: Total ∧ Returned P pfx count f0 ks.2)) :=
    fun ks h => Or.inr ⟨h.1.1, h.2⟩
  have hvoid := Triple.weaken (Triple.void hcheck) (fun _ h => h)
    (fun (ks : keys × PrefixSearch)
      (h : ((ks.1.spendQuads = keyAt P w startKeys (UINT_MAX w, UINT_MAX w, UINT_MAX w, lastV)
            ∧ ks.2.calls
              = ([] ++ ((countUp w).flatMap (fun a => offsets2 w lastV ds a)).map
                  (keyAt P w startKeys))
                ++ [keyAt P w startKeys (UINT_MAX w, UINT_MAX w, UINT_MAX w, lastV)])
          ∧ Searching P pfx count f0 ks.2)
        ∨ ((ks.2.calls <+: Total ∧ ks.2.found = count) ∧ Returned P pfx count f0 ks.2)) =>
      (h.elim
        (fun h1 => Or.inl ⟨by rw [h1.1.2, hcands, List.nil_append], h1.2⟩)
        (hfin ks) :
        (ks.2.calls = Total ∧ Searching P pfx count f0 ks.2)
          ∨ (ks.2.calls <+: Total ∧ Returned P pfx count f0 ks.2)))
  rw [prefix_worker_body_eq]
  refine Triple.weaken_ret
    (Triple.seq
      (Triple.weaken h3
        (fun (ks : keys × PrefixSearch) (h : ks.2.calls = [] ∧ ks.2.found = f0) =>
          (⟨⟨True.intro, h.1⟩, ⟨by rw [h.1, h.2]; simp [foundAfter], fun n hn => by
              rw [h.1] at hn
              exact absurd hn (Nat.not_lt_zero n)⟩⟩ :
            (True ∧ ks.2.calls = []) ∧ Searching P pfx count f0 ks.2))
        (fun _ h => h))
      (Triple.seq hset2 hvoid))
    hfin

/-- While `found` starts at or below `count`, it stays at or below `count`. -/
theorem prefix_worker_body_found_le (P : Primitives) (w : Nat) (pfx : List Char)
    (count : Int) (startKeys : keys) (lastV : Nat) (ds : List Nat) :
    Triple (fun ks : keys × PrefixSearch => ks.2.found ≤ count)
      (prefix_worker_body P w pfx count startKeys lastV ds)
      (fun ks => ks.2.found ≤ count) (fun ks => ks.2.found ≤ count) := by
  have hcheck : Triple (fun ks : keys × PrefixSearch => ks.2.found ≤ count)
      ( check_address_prefix P pfx count)
      (fun ks => ks.2.found ≤ count) (fun ks => ks.2.found ≤ count) := by
    intro ks h
    obtain ⟨k, s⟩ := ks
    simp only at h
    have hle : (( check_address_prefix P pfx count) (k, s)).2.2.found ≤ count := by
      rw [check_address_prefix_eq]
      by_cases hf : s.found = count
      · rw [if_pos hf]; exact h
      · rw [if_neg hf]
        split
        · show s.found + 1 ≤ count
          omega
        · exact h
    exact ⟨fun _ => hle, fun _ => hle⟩
  have hvoid : Triple (fun ks : keys × PrefixSearch => ks.2.found ≤ count)
      (Stmt.void ( check_address_prefix P pfx count))
      (fun ks => ks.2.found ≤ count) (fun ks => ks.2.found ≤ count) :=
    Triple.weaken (Triple.void hcheck) (fun _ h => h) (fun _ h => h.elim id id)
  have hfr : ∀ c : Stmt (keys × PrefixSearch), (∀ ks, (c ks).1 = false) →
      (∀ ks, (c ks).2.2 = ks.2) →
      Triple (fun ks : keys × PrefixSearch => ks.2.found ≤ count) c
        (fun ks => ks.2.found ≤ count) (fun ks => ks.2.found ≤ count) :=
    fun c hc h2 => Triple.assign hc (fun ks h => by rw [h2]; exact h)
  have lD := Triple.nest setSpend0 (fun x => laneAt P w x startKeys.spendQuads.q0)
    (laneAt P w lastV startKeys.spendQuads.q0) ( check_address_prefix P pfx count)
    ( check_address_prefix P pfx count) ds
    (fun u => hfr (setSpend0 u) (fun _ => rfl) (fun _ => rfl)) hcheck hcheck
  have lC := Triple.nest setSpend1 (fun x => laneAt P w x startKeys.spendQuads.q1)
    (laneBefore P w startKeys.spendQuads.q1) _ ( check_address_prefix P pfx count) (countUp w)
    (fun u => hfr (setSpend1 u) (fun _ => rfl) (fun _ => rfl)) lD hcheck
  have lB := Triple.nest setSpend2 (fun x => laneAt P w x startKeys.spendQuads.q2)
    (laneBefore P w startKeys.spendQuads.q2) _ ( check_address_prefix P pfx count) (countUp w)
    (fun u => hfr (setSpend2 u) (fun _ => rfl) (fun _ => rfl)) lC hcheck
  exact Triple.nest setSpend3 (fun x => laneAt P w x startKeys.spendQuads.q3)
    (laneBefore P w startKeys.spendQuads.q3) _ (Stmt.void ( check_address_prefix P pfx count))
    (countUp w) (fun u => hfr (setSpend3 u) (fun _ => rfl) (fun _ => rfl)) lB hvoid

/-- An initial part of a list agrees with the list on its own initial parts. -/
theorem take_of_prefix {α : Type} (l cands : List α) (h : l <+: cands) (n : Nat)
    (hn : n ≤ l.length) : l.take n = cands.take n := by
  obtain ⟨t, rfl⟩ := h
  rw [List.take_append_of_le_length hn]

/-- What the two outcomes of a run say about the calls, in terms of the candidates: a call
made with `found == count` is the last call, every call followed by another one found
`found` different from `count`, and the worker leaves the loop nest early only at such a
call. -/
theorem run_facts (P : Primitives) (pfx : List Char) (count f0 : Int) (cands : List Quads)
    (r : PrefixSearch)
    (h : (r.calls = cands ∧ Searching P pfx count f0 r)
      ∨ (r.calls <+: cands ∧ Returned P pfx count f0 r)) :
    r.calls <+: cands
    ∧ (∀ n, n < cands.length → foundAfter P pfx f0 (cands.take n) = count →
        r.calls.length ≤ n + 1)
    ∧ (∀ n, n + 1 < r.calls.length → foundAfter P pfx f0 (cands.take n) ≠ count)
    ∧ (r.calls.length < cands.length →
        r.calls ≠ [] ∧ r.found = count
          ∧ foundAfter P pfx f0 (cands.take (r.calls.length - 1)) = count)
    ∧ ((∀ n, n < cands.length → foundAfter P pfx f0 (cands.take n) ≠ count) →
        r.calls = cands ∧ r.found = foundAfter P pfx f0 cands) := by
  rcases h with ⟨hall, hfound, hhist⟩ | ⟨hpre, pre, q, hcalls, hfc, hpc, hhist⟩
  · have hp : r.calls <+: cands := by rw [hall]
    refine ⟨hp, ?_, ?_, ?_, ?_⟩
    · intro n hn he
      exfalso
      rw [← hall] at hn he
      exact hhist n hn he
    · intro n hn
      rw [← take_of_prefix r.calls cands hp n (by omega)]
      exact hhist n (by omega)
    · intro hlt
      rw [hall] at hlt
      exact absurd hlt (Nat.lt_irrefl _)
    · intro _
      exact ⟨hall, by rw [← hall]; exact hfound⟩
  · have hlen : r.calls.length = pre.length + 1 := by
      rw [hcalls, List.length_append, List.length_singleton]
    have hprepre : pre <+: cands := List.IsPrefix.trans ⟨[q], hcalls.symm⟩ hpre
    have hle : r.calls.length ≤ cands.length := hpre.length_le
    refine ⟨hpre, ?_, ?_, ?_, ?_⟩
    · intro n hn he
      rcases Nat.lt_or_ge n pre.length with h1 | h1
      · exfalso
        rw [← take_of_prefix pre cands hprepre n (Nat.le_of_lt h1)] at he
        exact hhist n h1 he
      · omega
    · intro n hn
      rw [← take_of_prefix pre cands hprepre n (by omega)]
      exact hhist n (by omega)
    · intro _
      refine ⟨by rw [hcalls]; simp, hfc, ?_⟩
      have e : r.calls.length - 1 = pre.length := by omega
      rw [e, ← take_of_prefix pre cands hprepre pre.length (Nat.le_refl _), List.take_length]
      exact hpc
    · intro hnever
      exfalso
      have h1 : pre.length < cands.length := by omega
      have := hnever pre.length h1
      rw [← take_of_prefix pre cands hprepre pre.length (Nat.le_refl _), List.take_length]
        at this
      exact this hpc

/-- With one thread the candidates are those of the loop nest with `last = UINT64_MAX`. -/
theorem prefixCandidates_single (P : Primitives) (startKeys : keys) :
    prefixCandidates P 64 1 0 (2 ^ 64) startKeys
      = (prefixOffsets 64 (UINT_MAX 64) (countUp 64)).map (keyAt P 64 startKeys) := by
  have hds : strideLoop 64 1 (last 64 1 0) (2 ^ 64) (toLane 64 0) = some (countUp 64) :=
    strideLoop_single_range
  have hl : last 64 1 0 = UINT_MAX 64 := rfl
  unfold prefixCandidates strideValues
  rw [hds, hl, Option.getD_some]

/-- For every thread count that fits an `int`, `prefix_worker` on 64-bit lanes returns, and
its run from `found = f0` with no call made has one of the two outcomes of
`prefix_worker_body_run`, for the candidates of the worker. -/
theorem prefix_worker_run (P : Primitives) (pfx : List Char) (count f0 : Int)
    (printed : List (List Char × Quads × Quads)) (T i : Nat) (startKeys init : keys)
    (h1 : 1 ≤ T) (hT : T < 2 ^ 31) (hi : i < T) :
    ∃ r, prefix_worker P 64 pfx T i count startKeys (2 ^ 64) init
          { found := f0, printed := printed, calls := [] } = some r
      ∧ ((r.calls = prefixCandidates P 64 T i (2 ^ 64) startKeys
          ∧ Searching P pfx count f0 r)
        ∨ (r.calls <+: prefixCandidates P 64 T i (2 ^ 64) startKeys
          ∧ Returned P pfx count f0 r))
      ∧ (f0 ≤ count → r.found ≤ count) := by
  obtain ⟨n, hrun, _⟩ := strideLoop_run T i h1 hT hi
  have hc : prefixCandidates P 64 T i (2 ^ 64) startKeys
      = (prefixOffsets 64 (last 64 T i)
          ((List.range n).map (fun j => (i + j * T) % 2 ^ 64))).map (keyAt P 64 startKeys) := by
    unfold prefixCandidates strideValues
    rw [hrun, Option.getD_some]
  rw [hc]
  refine ⟨(prefix_worker_body P 64 pfx count startKeys (last 64 T i)
      ((List.range n).map (fun j => (i + j * T) % 2 ^ 64))
      (init, { found := f0, printed := printed, calls := [] })).2.2,
    by simp only [prefix_worker, hrun, Option.map_some'], ?_, ?_⟩
  · exact Triple.holds
      (prefix_worker_body_run P 64 pfx count f0 startKeys (last 64 T i) _ countUp_ne_nil)
      (init, { found := f0, printed := printed, calls := [] }) ⟨rfl, rfl⟩
  · intro hle
    exact Triple.holds
      (prefix_worker_body_found_le P 64 pfx count startKeys (last 64 T i) _)
      (init, { found := f0, printed := printed, calls := [] }) hle

/-- C23, as the code has it: `found == count` is tested at the top of every call of
`check_address_prefix`, once per candidate on every lane.  For every thread count, with
`found` starting at or below a `count` that is an `int`: `prefix_worker` returns; its calls
are an initial part of its candidates in loop-nest order; the call number `n`, made with
`found` equal to the start value plus the discoveries among the first `n` candidates, is
the last call whenever that value is `count`; every call followed by another call found a
value different from `count`; the worker leaves the loop nest early only at a call that
finds `found == count`; and `found` never exceeds `count`, so the counter does not
overflow. -/
theorem prefix_worker_tests_every_call (P : Primitives) (pfx : List Char)
    (count found : Int) (printed : List (List Char × Quads × Quads)) (T i : Nat)
    (startKeys init : keys) (h1 : 1 ≤ T) (hT : T < 2 ^ 31) (hi : i < T)
    (hle : found ≤ count) (hrep : count ≤ INT_MAX) :
    ∃ r, prefix_worker P 64 pfx T i count startKeys (2 ^ 64) init
          { found := found, printed := printed, calls := [] } = some r
      ∧ r.calls <+: prefixCandidates P 64 T i (2 ^ 64) startKeys
      ∧ (∀ n, n < (prefixCandidates P 64 T i (2 ^ 64) startKeys).length →
          foundAfter P pfx found ((prefixCandidates P 64 T i (2 ^ 64) startKeys).take n)
            = count →
          r.calls.length ≤ n + 1)
      ∧ (∀ n, n + 1 < r.calls.length →
          foundAfter P pfx found ((prefixCandidates P 64 T i (2 ^ 64) startKeys).take n)
            ≠ count)
      ∧ (r.calls.length < (prefixCandidates P 64 T i (2 ^ 64) startKeys).length →
          r.calls ≠ [] ∧ r.found = count
            ∧ foundAfter P pfx found
                ((prefixCandidates P 64 T i (2 ^ 64) startKeys).take (r.calls.length - 1))
              = count)
      ∧ r.found ≤ count ∧ r.found ≤ INT_MAX := by
  obtain ⟨r, hr, hout, hfle⟩ :=
    prefix_worker_run P pfx count found printed T i startKeys init h1 hT hi
  obtain ⟨f1, f2, f3, f4, _⟩ := run_facts P pfx count found _ r hout
  exact ⟨r, hr, f1, f2, f3, f4, hfle hle, Int.le_trans (hfle hle) hrep⟩

/-- C23 at work for three threads, worker 2, with `count = 1` and keys that are all
discoveries. -/
theorem prefix_worker_tests_every_call_witness :
    1 ≤ 3 ∧ 3 < 2 ^ 31 ∧ 2 < 3 ∧ (0 : Int) ≤ 1 ∧ (1 : Int) ≤ INT_MAX
    ∧ ∃ r, prefix_worker everyKeyMatches 64 ['T', 'A'] 3 2 1 zeroKeys (2 ^ 64) zeroKeys
          { found := 0, printed := [], calls := [] } = some r
      ∧ r.calls <+: prefixCandidates everyKeyMatches 64 3 2 (2 ^ 64) zeroKeys
      ∧ (∀ n, n < (prefixCandidates everyKeyMatches 64 3 2 (2 ^ 64) zeroKeys).length →
          foundAfter everyKeyMatches ['T', 'A'] 0
              ((prefixCandidates everyKeyMatches 64 3 2 (2 ^ 64) zeroKeys).take n) = 1 →
          r.calls.length ≤ n + 1)
      ∧ (∀ n, n + 1 < r.calls.length →
          foundAfter everyKeyMatches ['T', 'A'] 0
              ((prefixCandidates everyKeyMatches 64 3 2 (2 ^ 64) zeroKeys).take n) ≠ 1)
      ∧ (r.calls.length < (prefixCandidates everyKeyMatches 64 3 2 (2 ^ 64) zeroKeys).length →
          r.calls ≠ [] ∧ r.found = 1
            ∧ foundAfter everyKeyMatches ['T', 'A'] 0
                ((prefixCandidates everyKeyMatches 64 3 2 (2 ^ 64) zeroKeys).take
                  (r.calls.length - 1)) = 1)
      ∧ r.found ≤ 1 ∧ r.found ≤ INT_MAX :=
  ⟨by decide, by decide, by decide, by decide, by decide,
   prefix_worker_tests_every_call everyKeyMatches ['T', 'A'] 1 0 [] 3 2 zeroKeys zeroKeys
     (by decide) (by decide) (by decide) (by decide) (by decide)⟩

/-- With `noKeyMatches` no spend key is a discovery for the prefix `TA`, so `found` stays
what it was. -/
theorem foundAfter_noKeyMatches (found : Int) (qs : List Quads) :
    foundAfter noKeyMatches ['T', 'A'] found qs = found := by
  unfold foundAfter
  have h : qs.countP (discovers noKeyMatches ['T', 'A']) = 0 := by
    rw [List.countP_eq_zero]
    intro q _
    simp [discovers, noKeyMatches, littleEndian]
  rw [h]
  simp

/-- C30: with one thread on 64-bit lanes and a `SWAP64LE` that is one-to-one on 64-bit
words, for a search in which no call of `check_address_prefix` finds `found == count`
(before each candidate, the start value of `found` plus the discoveries so far differs from
`count`) and in which `found` stays an `int`: `prefix_worker` returns and has handed to
`check_address_prefix` the candidate at the 64-bit lane offsets `(a, b, c, d)` exactly when
`c = UINT64_MAX` implies `d = UINT64_MAX`, `b = UINT64_MAX` implies `c = UINT64_MAX` and
`a = UINT64_MAX` implies `b = UINT64_MAX`; no spend key twice; and `found` has counted the
discoveries without overflow. -/
theorem prefix_worker_evaluates_exactly (P : Primitives) (pfx : List Char)
    (count found : Int) (printed : List (List Char × Quads × Quads)) (startKeys init : keys)
    (hnever : ∀ n,
      n < ((prefixOffsets 64 (UINT_MAX 64) (countUp 64)).map (keyAt P 64 startKeys)).length →
      foundAfter P pfx found
        (((prefixOffsets 64 (UINT_MAX 64) (countUp 64)).map (keyAt P 64 startKeys)).take n)
        ≠ count)
    (hrange : foundAfter P pfx found
      ((prefixOffsets 64 (UINT_MAX 64) (countUp 64)).map (keyAt P 64 startKeys)) ≤ INT_MAX)
    (hinj : ∀ x y, x < 2 ^ 64 → y < 2 ^ 64 → P.SWAP64LE x = P.SWAP64LE y → x = y) :
    ∃ r, prefix_worker P 64 pfx 1 0 count startKeys (2 ^ 64) init
          { found := found, printed := printed, calls := [] } = some r
      ∧ r.calls = (prefixOffsets 64 (UINT_MAX 64) (countUp 64)).map (keyAt P 64 startKeys)
      ∧ (∀ a b c d, a ≤ UINT_MAX 64 → b ≤ UINT_MAX 64 → c ≤ UINT_MAX 64 → d ≤ UINT_MAX 64 →
          (keyAt P 64 startKeys (a, b, c, d) ∈ r.calls ↔
            (c = UINT_MAX 64 → d = UINT_MAX 64) ∧ (b = UINT_MAX 64 → c = UINT_MAX 64)
              ∧ (a = UINT_MAX 64 → b = UINT_MAX 64)))
      ∧ r.calls.Nodup
      ∧ r.found = foundAfter P pfx found r.calls ∧ r.found ≤ INT_MAX := by
  obtain ⟨r, hr, hout, _⟩ :=
    prefix_worker_run P pfx count found printed 1 0 startKeys init (by decide) (by decide)
      (by decide)
  rw [prefixCandidates_single] at hout
  obtain ⟨_, _, _, _, f5⟩ := run_facts P pfx count found _ r hout
  obtain ⟨hcalls, hfound⟩ := f5 hnever
  have hM : UINT_MAX 64 = 2 ^ 64 - 1 := rfl
  refine ⟨r, hr, hcalls, ?_, ?_, by rw [hcalls]; exact hfound, by rw [hfound]; exact hrange⟩
  · intro a b c d ha hb hc hd
    rw [hcalls, List.mem_map]
    constructor
    · rintro ⟨o, ho, he⟩
      have hlt := prefixOffsets_lt o ho
      have hlt2 : (a, b, c, d).1 < 2 ^ 64 ∧ (a, b, c, d).2.1 < 2 ^ 64
          ∧ (a, b, c, d).2.2.1 < 2 ^ 64 ∧ (a, b, c, d).2.2.2 < 2 ^ 64 := by
        rw [hM] at ha hb hc hd
        show a < 2 ^ 64 ∧ b < 2 ^ 64 ∧ c < 2 ^ 64 ∧ d < 2 ^ 64
        exact ⟨by omega, by omega, by omega, by omega⟩
      have := keyAt_injective P startKeys hinj o (a, b, c, d) hlt hlt2 he
      rw [this] at ho
      have h := (mem_prefixOffsets 64 a b c d).1 ho
      exact ⟨h.2.2.2.2.1, h.2.2.2.2.2.1, h.2.2.2.2.2.2⟩
    · rintro ⟨hcd, hbc, hab⟩
      exact ⟨(a, b, c, d),
        (mem_prefixOffsets 64 a b c d).2 ⟨ha, hb, hc, hd, hcd, hbc, hab⟩, rfl⟩
  · rw [hcalls]
    refine List.Nodup.map_on ?_ ?_
    · intro x hx y hy he
      exact keyAt_injective P startKeys hinj x y (prefixOffsets_lt x hx)
        (prefixOffsets_lt y hy) he
    · exact List.Pairwise.imp (fun h => by
        intro e
        rw [e] at h
        exact Nat.lt_irrefl _ h) pairwise_prefixOffsets

/-- C30 at work on a little-endian host, from the all-zero start key, with `count = 1`,
`found = 0` and keys none of which is a discovery: the search never stops. -/
theorem prefix_worker_evaluates_exactly_witness :
    (∀ n,
      n < ((prefixOffsets 64 (UINT_MAX 64) (countUp 64)).map
        (keyAt noKeyMatches 64 zeroKeys)).length →
      foundAfter noKeyMatches ['T', 'A'] 0
        (((prefixOffsets 64 (UINT_MAX 64) (countUp 64)).map
          (keyAt noKeyMatches 64 zeroKeys)).take n) ≠ 1)
    ∧ foundAfter noKeyMatches ['T', 'A'] 0
        ((prefixOffsets 64 (UINT_MAX 64) (countUp 64)).map (keyAt noKeyMatches 64 zeroKeys))
      ≤ INT_MAX
    ∧ (∀ x y, x < 2 ^ 64 → y < 2 ^ 64 →
        noKeyMatches.SWAP64LE x = noKeyMatches.SWAP64LE y → x = y)
    ∧ ∃ r, prefix_worker noKeyMatches 64 ['T', 'A'] 1 0 1 zeroKeys (2 ^ 64) zeroKeys
          { found := 0, printed := [], calls := [] } = some r
      ∧ r.calls = (prefixOffsets 64 (UINT_MAX 64) (countUp 64)).map
          (keyAt noKeyMatches 64 zeroKeys)
      ∧ (∀ a b c d, a ≤ UINT_MAX 64 → b ≤ UINT_MAX 64 → c ≤ UINT_MAX 64 → d ≤ UINT_MAX 64 →
          (keyAt noKeyMatches 64 zeroKeys (a, b, c, d) ∈ r.calls ↔
            (c = UINT_MAX 64 → d = UINT_MAX 64) ∧ (b = UINT_MAX 64 → c = UINT_MAX 64)
              ∧ (a = UINT_MAX 64 → b = UINT_MAX 64)))
      ∧ r.calls.Nodup
      ∧ r.found = foundAfter noKeyMatches ['T', 'A'] 0 r.calls ∧ r.found ≤ INT_MAX :=
  have hnever : ∀ n,
      n < ((prefixOffsets 64 (UINT_MAX 64) (countUp 64)).map
        (keyAt noKeyMatches 64 zeroKeys)).length →
      foundAfter noKeyMatches ['T', 'A'] 0
        (((prefixOffsets 64 (UINT_MAX 64) (countUp 64)).map
          (keyAt noKeyMatches 64 zeroKeys)).take n) ≠ 1 := by
    intro n _
    rw [foundAfter_noKeyMatches]
    decide
  have hrange : foundAfter noKeyMatches ['T', 'A'] 0
      ((prefixOffsets 64 (UINT_MAX 64) (countUp 64)).map (keyAt noKeyMatches 64 zeroKeys))
      ≤ INT_MAX := by
    rw [foundAfter_noKeyMatches]
    decide
  ⟨hnever, hrange, fun _ _ _ _ h => h,
   prefix_worker_evaluates_exactly noKeyMatches ['T', 'A'] 1 0 [] zeroKeys zeroKeys
     hnever hrange (fun _ _ _ _ h => h)⟩

end AddressGenerator
